import Mathlib

/-!
# Verification of the L2AP profile-matching core (`backend/matching/profile_matching.py`)

This file is a shallow embedding, in Lean 4, of the L2AP k-NN profile-matching
subsystem: vector normalization (`normalize_interests`), the inverted index
(`L2APIndex.add_document`, `L2APIndex.build_index`), the query algorithm
(`l2ap_knn`), and the index lifecycle service (`ProfileMatchingService`).

Modelling conventions:

* Python floats are modelled as exact rationals (`ℚ`).  `math.sqrt` is not
  rational-valued, so every definition that calls it is parametrised by a
  function `sqrt : ℚ → ℚ`; theorems assume exactly the properties of `sqrt`
  they need (e.g. non-negativity, or exactness at the concrete arguments in
  play).  For concrete evaluation we instantiate `sqrt` with `ratSqrt`, a
  computable under-approximation of the square root that is exact on perfect
  rational squares; every concrete input used below is chosen so that each
  square root whose value influences a branch decision is a perfect square,
  hence exact, and so the traced behaviour coincides with the source's.
* Python `dict`s are association lists that keep insertion order and have
  unique keys, matching dict iteration-order semantics; `dset` updates in
  place or appends, like `d[k] = v`.  `defaultdict` reads that insert a
  default value are modelled explicitly where the source can perform them
  (`ddGetPostings`).
* The Python `set` of deduplicated interests is modelled as the list of first
  occurrences (Python set iteration order is unspecified; nothing below
  depends on it because all weights are equal).
* `heapq`'s binary min-heap of `(similarity, doc_id)` tuples is modelled as a
  list kept sorted ascending in the lexicographic tuple order.  This keeps
  the same minimum element and the same multiset of entries through every
  `heappush`/`heapreplace`, which is all the final (re-sorted) result depends
  on; the internal array layout of the binary heap — which can only influence
  the relative order of equal similarities in the output — is not modelled.
* The Firestore document store is an abstract `Store` whose operations return
  `Except String`; a raised exception is an `Except.error`.
* `k ≤ 0` is excluded by the caller contract (spec §4.3); the embedding uses
  `k : Nat` and theorems about top-k behaviour assume `1 ≤ k` where needed.
-/

namespace ProfileMatching

/-! ## Python dict as an insertion-ordered association list -/

/-- `d[k]` lookup (first, i.e. unique, occurrence). -/
def dget {α : Type} (d : List (String × α)) (k : String) : Option α :=
  (d.find? (fun p => p.1 == k)).map (·.2)

/-- `k in d`. -/
def dmem {α : Type} (d : List (String × α)) (k : String) : Bool :=
  (d.find? (fun p => p.1 == k)).isSome

/-- `d[k] = v`: update in place if present, else append (insertion order). -/
def dset {α : Type} : List (String × α) → String → α → List (String × α)
  | [], k, v => [(k, v)]
  | (k', v') :: rest, k, v =>
    if k' == k then (k, v) :: rest else (k', v') :: dset rest k v

/-- `del d[k]`. -/
def ddel {α : Type} (d : List (String × α)) (k : String) : List (String × α) :=
  d.filter (fun p => ¬ p.1 == k)

/-! ## Square root model -/

/-- Fuel-based integer square root (structurally recursive, hence
kernel-computable): `isqrtAux fuel n` is the floor square root of `n`
whenever `fuel` bounds the recursion depth, via `√n = 2·√(n/4)` refinement. -/
def isqrtAux : Nat → Nat → Nat
  | 0, _ => 0
  | fuel + 1, n =>
    if n < 4 then (if 1 ≤ n then 1 else 0)
    else
      let r := 2 * isqrtAux fuel (n / 4)
      if (r + 1) * (r + 1) ≤ n then r + 1 else r

def isqrt (n : Nat) : Nat := isqrtAux n n

/-- Computable stand-in for `math.sqrt` on rationals: an under-approximation
that is exact on perfect rational squares (`ratSqrt (p^2/q^2) = p/q`) and
non-negative everywhere.  Used to instantiate the abstract `sqrt` parameter
on concrete inputs. -/
def ratSqrt (q : ℚ) : ℚ :=
  if q ≤ 0 then 0 else (isqrt (q.num.toNat * q.den) : ℚ) / (q.den : ℚ)

/-! ## 1. Vector representation (`normalize_interests`, `get_profile_vector`) -/

/-- Sum of squared weights of a sparse vector (`sum(v * v for v in vector.values())`). -/
def sumSq (v : List (String × ℚ)) : ℚ :=
  (v.map (fun p => p.2 * p.2)).sum

/-- First-occurrence deduplication, with an accumulator of already-seen tags
(the Python `set` of normalized tags, iterated in first-insertion order). -/
def dedupFirstAux : List String → List String → List String
  | [], _ => []
  | a :: as, seen => if a ∈ seen then dedupFirstAux as seen else a :: dedupFirstAux as (a :: seen)

def dedupFirst (l : List String) : List String := dedupFirstAux l []

/-- `interest.lower().strip()` applied to every tag, empty strings dropped,
then deduplicated. -/
def cleanDedup (interests : List String) : List String :=
  dedupFirst ((interests.map (fun s => s.toLower.trim)).filter (fun s => ¬ s == ""))

/-- `normalize_interests` (profile_matching.py lines 42-77): lower-case, trim,
drop empties, deduplicate, give each unique tag weight 1.0, then divide by the
L2 norm. -/
def normalize_interests (sqrt : ℚ → ℚ) (interests : List String) : List (String × ℚ) :=
  if interests = [] then []
  else
    let unique_interests := cleanDedup interests
    if unique_interests = [] then []
    else
      let vector := unique_interests.map (fun t => (t, (1 : ℚ)))
      let norm := sqrt (sumSq vector)
      if 0 < norm then vector.map (fun p => (p.1, p.2 / norm)) else vector

/-- `get_profile_vector` (lines 80-93); a profile is modelled by its
`interests` field. -/
def get_profile_vector (sqrt : ℚ → ℚ) (interests : List String) : List (String × ℚ) :=
  if interests = [] then [] else normalize_interests sqrt interests

/-! ## 2. L2AP index structure -/

/-- A posting: `(doc_id, value, prefix_norm)`. -/
abbrev Posting := String × ℚ × ℚ

/-- The L2AP inverted index (class `L2APIndex`, lines 100-120).
`inverted_index` and `feature_freq` are `defaultdict`s, `doc_metadata` a plain
dict, `doc_ids` a set (modelled as a list without duplicates, in insertion
order). -/
structure L2APIndex where
  inverted_index : List (String × List Posting)
  doc_metadata : List (String × (ℚ × ℚ × ℚ))
  feature_freq : List (String × Nat)
  doc_ids : List String
deriving DecidableEq

def L2APIndex.empty : L2APIndex := ⟨[], [], [], []⟩

/-- Ordering of `(feature, value)` pairs by decreasing value. -/
def descVal (a b : String × ℚ) : Prop := b.2 ≤ a.2

instance : DecidableRel descVal := fun a b => inferInstanceAs (Decidable (b.2 ≤ a.2))

instance : IsTotal (String × ℚ) descVal := ⟨fun a b => le_total b.2 a.2⟩

instance : IsTrans (String × ℚ) descVal := ⟨fun _ _ _ h1 h2 => le_trans h2 h1⟩

/-- Ordering of postings by decreasing value. -/
def descPostVal (a b : Posting) : Prop := b.2.1 ≤ a.2.1

instance : DecidableRel descPostVal := fun a b => inferInstanceAs (Decidable (b.2.1 ≤ a.2.1))

instance : IsTotal Posting descPostVal := ⟨fun a b => le_total b.2.1 a.2.1⟩

instance : IsTrans Posting descPostVal := ⟨fun _ _ _ h1 h2 => le_trans h2 h1⟩

/-- Stable sort of `(feature, value)` pairs by decreasing value
(`sorted(vector.items(), key=lambda x: x[1], reverse=True)`; Python's sort is
stable, as is insertion sort with a non-strict total preorder). -/
def sortPairsDescVal (l : List (String × ℚ)) : List (String × ℚ) :=
  l.insertionSort descVal

/-- Stable sort of postings by decreasing value
(`sort(key=lambda x: x[1], reverse=True)`). -/
def sortPostingsDescVal (l : List Posting) : List Posting :=
  l.insertionSort descPostVal

/-- Running prefix norms: at each position, the norm of the values seen so
far, inclusive (lines 145-149). -/
def prefixNormList (sqrt : ℚ → ℚ) : ℚ → List ℚ → List ℚ
  | _, [] => []
  | acc, v :: rest =>
    let acc' := acc + v * v
    sqrt acc' :: prefixNormList sqrt acc' rest

/-- `pscore = max over features of (value * prefix_norm)`, starting from 0.0
(lines 151-157). -/
def pscoreOf (vals : List ℚ) (pnorms : List ℚ) : ℚ :=
  ((vals.zip pnorms).map (fun p => p.1 * p.2)).foldl max 0

/-- Append one posting to a feature's list, with `defaultdict(list)` semantics
(`self.inverted_index[feature].append(...)`). -/
def ddAppendPosting (ii : List (String × List Posting)) (f : String) (p : Posting) :
    List (String × List Posting) :=
  match dget ii f with
  | some l => dset ii f (l ++ [p])
  | none => ii ++ [(f, [p])]

/-- `self.feature_freq[feature] += 1` with `defaultdict(int)` semantics. -/
def ddBumpFreq (ff : List (String × Nat)) (f : String) : List (String × Nat) :=
  match dget ff f with
  | some n => dset ff f (n + 1)
  | none => ff ++ [(f, 1)]

/-- Set insertion for `doc_ids` (`self.doc_ids.add(doc_id)`). -/
def setAdd (ids : List String) (d : String) : List String :=
  if d ∈ ids then ids else ids ++ [d]

/-- `L2APIndex.add_document` (lines 122-167). -/
def L2APIndex.add_document (sqrt : ℚ → ℚ) (idx : L2APIndex) (doc_id : String)
    (vector : List (String × ℚ)) : L2APIndex :=
  if vector = [] then idx
  else
    let vector_norm := sqrt (sumSq vector)
    if vector_norm = 0 then idx
    else
      let sorted_features := sortPairsDescVal vector
      let max_value := (vector.map (·.2)).foldl max ((vector.map (·.2)).headI)
      let pnorms := prefixNormList sqrt 0 (sorted_features.map (·.2))
      let pscore := pscoreOf (sorted_features.map (·.2)) pnorms
      let withPosts :=
        ((sorted_features.zip pnorms).foldl
          (fun ii fp => ddAppendPosting ii fp.1.1 (doc_id, fp.1.2, fp.2))
          idx.inverted_index)
      { inverted_index := withPosts
        doc_metadata := dset idx.doc_metadata doc_id (pscore, max_value, vector_norm)
        feature_freq := (sorted_features.foldl (fun ff fv => ddBumpFreq ff fv.1) idx.feature_freq)
        doc_ids := setAdd idx.doc_ids doc_id }

/-- `L2APIndex.build_index` (lines 169-189): clear everything, add every
profile's vector, then sort every posting list by decreasing value. -/
def L2APIndex.build_index (sqrt : ℚ → ℚ) (profiles : List (String × List String)) : L2APIndex :=
  let added := profiles.foldl
    (fun idx p =>
      let vector := get_profile_vector sqrt p.2
      if vector = [] then idx else idx.add_document sqrt p.1 vector)
    L2APIndex.empty
  { added with
    inverted_index := added.inverted_index.map (fun fp => (fp.1, sortPostingsDescVal fp.2)) }

/-- The document-insertion loop of `build_index` (lines 180-185): add every
profile's non-empty vector to the index, in profile order. -/
def buildFold (sqrt : ℚ → ℚ) (ps : List (String × List String)) (idx : L2APIndex) :
    L2APIndex :=
  ps.foldl
    (fun idx p =>
      let vector := get_profile_vector sqrt p.2
      if vector = [] then idx else idx.add_document sqrt p.1 vector)
    idx

/-- `L2APIndex.get_ordered_features` (lines 191-201). -/
def L2APIndex.get_ordered_features (vector : List (String × ℚ)) : List (String × ℚ) :=
  sortPairsDescVal vector

/-! ## 3. L2AP k-NN query (`l2ap_knn`, lines 208-343) -/

/-- Query suffix norms (lines 253-259): at position `i`, the norm of the query
weights from `i` to the end; `running_suffix_sq` starts at the total squared
norm and each weight's square is subtracted after its position is recorded. -/
def suffixNormList (sqrt : ℚ → ℚ) : ℚ → List ℚ → List ℚ
  | _, [] => []
  | running, v :: rest => sqrt running :: suffixNormList sqrt (running - v * v) rest

/-- `index.inverted_index[query_feature]` with `defaultdict(list)` semantics:
reading a missing key inserts an empty posting list.  The source guards this
read with `if query_feature not in index.inverted_index` (line 274), so the
inserting branch is never reached from `l2ap_knn`. -/
def ddGetPostings (idx : L2APIndex) (f : String) : List Posting × L2APIndex :=
  match dget idx.inverted_index f with
  | some l => (l, idx)
  | none => ([], { idx with inverted_index := idx.inverted_index ++ [(f, [])] })

/-- `doc_id not in accumulator or accumulator[doc_id] == 0` (line 282). -/
def isNewCandidate (acc : List (String × ℚ)) (doc_id : String) : Bool :=
  match dget acc doc_id with
  | none => true
  | some v => v == 0

/-- One accumulation step (lines 290-297): `accumulator[doc_id] += query_value
* doc_value` (the `defaultdict` read inserts the key with 0.0 before the
write), then the early-pruning zero-out if the remaining bound cannot reach
theta. -/
def accumStep (theta rs4 query_value : ℚ) (acc : List (String × ℚ))
    (doc_id : String) (doc_value doc_prefix_norm : ℚ) : List (String × ℚ) :=
  let newVal := (dget acc doc_id).getD 0 + query_value * doc_value
  let acc1 := dset acc doc_id newVal
  if newVal + rs4 * doc_prefix_norm < theta then dset acc1 doc_id 0 else acc1

/-- Inner posting loop of the candidate-generation phase (lines 277-297),
updating the accumulator (`defaultdict(float)`).  `theta` is never written in
this phase (it only changes in the verification phase, lines 335 and 338), so
it is a plain parameter here. -/
def scanPostings (theta rs4 query_value : ℚ) (exclude : List String) :
    List Posting → List (String × ℚ) → List (String × ℚ)
  | [], acc => acc
  | (doc_id, doc_value, doc_prefix_norm) :: rest, acc =>
    if doc_id ∈ exclude then scanPostings theta rs4 query_value exclude rest acc
    else if isNewCandidate acc doc_id = true ∧ rs4 * doc_prefix_norm < theta then
      scanPostings theta rs4 query_value exclude rest acc
    else
      scanPostings theta rs4 query_value exclude rest
        (accumStep theta rs4 query_value acc doc_id doc_value doc_prefix_norm)

/-- Candidate-generation phase (lines 265-297): walk `(feature, value)` pairs
of the query (descending value) zipped with their suffix norms, break when the
suffix norm falls below theta, and thread the index through the (guarded)
`defaultdict` access. -/
def candGen (theta : ℚ) (exclude : List String) :
    List ((String × ℚ) × ℚ) → L2APIndex → List (String × ℚ) →
    List (String × ℚ) × L2APIndex
  | [], idx, acc => (acc, idx)
  | ((f, qv), rs4) :: rest, idx, acc =>
    if rs4 < theta then (acc, idx)  -- `break`
    else if ¬ dmem idx.inverted_index f then candGen theta exclude rest idx acc  -- `continue`
    else
      let pi := ddGetPostings idx f
      candGen theta exclude rest pi.2 (scanPostings theta rs4 qv exclude pi.1 acc)

/-- The min-heap of `(similarity, doc_id)` tuples, as a list sorted ascending
in Python's lexicographic tuple order; the head is `heap[0]`. -/
def tupLe (a b : ℚ × String) : Bool :=
  decide (a.1 < b.1) || (decide (a.1 = b.1) && decide (a.2 ≤ b.2))

/-- `heapq.heappush`. -/
def heapPush : List (ℚ × String) → (ℚ × String) → List (ℚ × String)
  | [], x => [x]
  | y :: rest, x => if tupLe x y then x :: y :: rest else y :: heapPush rest x

/-- `heapq.heapreplace`: pop the minimum, push the new element. -/
def heapReplace (h : List (ℚ × String)) (x : ℚ × String) : List (ℚ × String) :=
  heapPush h.tail x

/-- `heap[0][0]`, the smallest similarity in the heap (only read by the source
when the heap is non-empty, given `k ≥ 1`). -/
def heapMinSim (h : List (ℚ × String)) : ℚ :=
  ((h.head?).map (·.1)).getD 0

/-- The heap/theta update at the end of the verification loop (lines 331-338):
push when below capacity (raising theta to the heap minimum once full),
replace only on a strictly greater similarity. -/
def heapStep (k : Nat) (heap : List (ℚ × String)) (theta similarity : ℚ) (doc_id : String) :
    List (ℚ × String) × ℚ :=
  if heap.length < k then
    let h' := heapPush heap (similarity, doc_id)
    (h', if h'.length = k then max theta (heapMinSim h') else theta)
  else if heapMinSim heap < similarity then
    let h' := heapReplace heap (similarity, doc_id)
    (h', heapMinSim h')
  else (heap, theta)

/-- Verification phase (lines 306-338): walk the accumulator in insertion
order, skip excluded / zeroed / metadata-less documents, apply the pscore
filter, and update the heap. -/
def verifyPhase (k : Nat) (exclude : List String) (idx : L2APIndex) :
    List (String × ℚ) → List (ℚ × String) → ℚ → List (ℚ × String) × ℚ
  | [], heap, theta => (heap, theta)
  | (doc_id, dot_product) :: rest, heap, theta =>
    if doc_id ∈ exclude then verifyPhase k exclude idx rest heap theta
    else if dot_product = 0 then verifyPhase k exclude idx rest heap theta
    else
      match dget idx.doc_metadata doc_id with
      | none => verifyPhase k exclude idx rest heap theta
      | some (pscore, _max_value, _doc_norm) =>
        if dot_product + pscore < theta then verifyPhase k exclude idx rest heap theta
        else
          let ht := heapStep k heap theta dot_product doc_id
          verifyPhase k exclude idx rest ht.1 ht.2

/-- Final result sort (lines 341-343): map heap entries to `(doc_id, sim)` and
stable-sort by similarity descending. -/
def sortResultsDesc (l : List (String × ℚ)) : List (String × ℚ) :=
  l.insertionSort descVal

/-- The query's `(feature, value)` pairs in descending-value order, zipped
with their suffix norms (the state walked by the candidate-generation
loop). -/
def queryWalk (sqrt : ℚ → ℚ) (query_vector : List (String × ℚ)) :
    List ((String × ℚ) × ℚ) :=
  let query_features := L2APIndex.get_ordered_features query_vector
  query_features.zip (suffixNormList sqrt (sumSq query_vector) (query_features.map (·.2)))

/-- The whole candidate-generation phase: accumulator plus threaded index. -/
def l2apCand (sqrt : ℚ → ℚ) (query_vector : List (String × ℚ)) (index : L2APIndex)
    (t_min : ℚ) (exclude_doc_ids : List String) : List (String × ℚ) × L2APIndex :=
  candGen t_min exclude_doc_ids (queryWalk sqrt query_vector) index []

/-- `l2ap_knn` (lines 208-343).  Returns the ranked results together with the
index object as it stands after the query (the source mutates a shared index
in place; `defaultdict` semantics could in principle alter it). -/
def l2ap_knn (sqrt : ℚ → ℚ) (query_vector : List (String × ℚ)) (index : L2APIndex)
    (k : Nat) (t_min : ℚ) (exclude_doc_ids : List String) :
    List (String × ℚ) × L2APIndex :=
  if query_vector = [] then ([], index)
  else
    let theta := t_min
    let ai := l2apCand sqrt query_vector index theta exclude_doc_ids
    let ht := verifyPhase k exclude_doc_ids ai.2 ai.1 [] theta
    (sortResultsDesc (ht.1.map (fun p => (p.2, p.1))), ai.2)

/-! ## 4. Index management (`ProfileMatchingService`, lines 350-529) -/

/-- The Firestore document store, abstracted: a per-document lookup and a bulk
stream, each of which can fail (raise). -/
structure Store where
  getProfile : String → Except String (Option (List String))
  streamAll : Except String (List (String × List String))

/-- `ProfileMatchingService` state (lines 356-360). -/
structure MatchingService where
  index : L2APIndex
  index_built : Bool
  index_built_at : Option ℚ
  index_ttl_seconds : ℚ
deriving DecidableEq

def MatchingService.init : MatchingService := ⟨L2APIndex.empty, false, none, 30⟩

/-- `invalidate_index` (lines 362-368). -/
def MatchingService.invalidate_index (s : MatchingService) : MatchingService :=
  { s with index_built := false, index_built_at := none }

/-- `rebuild_index` (lines 416-437): stream all profiles and build; a store
failure propagates (`raise`). -/
def MatchingService.rebuild_index (sqrt : ℚ → ℚ) (store : Store) (now : ℚ)
    (s : MatchingService) : Except String MatchingService :=
  match store.streamAll with
  | .error e => .error e
  | .ok profiles =>
    .ok { s with
          index := L2APIndex.build_index sqrt profiles
          index_built := true
          index_built_at := some now }

/-- Removal half of `update_user_in_index` (lines 385-399): filter the uid out
of every posting list, delete feature lists that become empty, delete the
metadata entry, discard the id.  `feature_freq` is untouched, as in the
source. -/
def removeDocFromIndex (idx : L2APIndex) (uid : String) : L2APIndex :=
  { idx with
    inverted_index :=
      (idx.inverted_index.map (fun fp => (fp.1, fp.2.filter (fun p => ¬ p.1 == uid)))).filter
        (fun fp => ¬ fp.2 = [])
    doc_metadata := ddel idx.doc_metadata uid
    doc_ids := idx.doc_ids.filter (fun d => ¬ d == uid) }

/-- Re-sort the posting lists of the features present in the new vector
(lines 405-408). -/
def resortFeatures (idx : L2APIndex) (feats : List String) : L2APIndex :=
  { idx with
    inverted_index := idx.inverted_index.map
      (fun fp => if fp.1 ∈ feats then (fp.1, sortPostingsDescVal fp.2) else fp) }

/-- The in-place half of `update_user_in_index` (lines 384-408):
remove-then-reinsert on the live index, re-sorting affected features. -/
def incrementalUpdate (sqrt : ℚ → ℚ) (idx : L2APIndex) (uid : String)
    (interests : List String) : L2APIndex :=
  let idx1 := if uid ∈ idx.doc_ids then removeDocFromIndex idx uid else idx
  let vector := get_profile_vector sqrt interests
  if vector = [] then idx1
  else resortFeatures (idx1.add_document sqrt uid vector) (vector.map (·.1))

/-- `update_user_in_index` (lines 370-414): full rebuild when the index is not
built; otherwise remove-then-reinsert followed by unconditional
invalidation. -/
def MatchingService.update_user_in_index (sqrt : ℚ → ℚ) (store : Store) (now : ℚ)
    (s : MatchingService) (uid : String) (interests : List String) :
    Except String MatchingService :=
  if ¬ s.index_built then s.rebuild_index sqrt store now
  else
    .ok (MatchingService.invalidate_index
      { s with index := incrementalUpdate sqrt s.index uid interests })

/-- `_should_rebuild_index` (lines 439-454). -/
def MatchingService.should_rebuild_index (s : MatchingService) (now : ℚ) : Bool :=
  if ¬ s.index_built then true
  else
    match s.index_built_at with
    | some t => decide (now - t > s.index_ttl_seconds)
    | none => false

/-- `find_matches` (lines 456-501).  The implicit rebuild sits outside the
`try` block, so its failure propagates; the profile lookup sits inside the
`try`, whose handler returns `[]`. -/
def MatchingService.find_matches (sqrt : ℚ → ℚ) (store : Store) (now : ℚ)
    (s : MatchingService) (query_uid : String) (k : Nat) (t_min : ℚ)
    (exclude_self : Bool) : Except String (MatchingService × List (String × ℚ)) :=
  match (if s.should_rebuild_index now then s.rebuild_index sqrt store now else .ok s) with
  | .error e => .error e
  | .ok s1 =>
    match store.getProfile query_uid with
    | .error _ => .ok (s1, [])  -- `except Exception: ... return []`
    | .ok none => .ok (s1, [])  -- `if not user_doc.exists: return []`
    | .ok (some interests) =>
      let query_vector := get_profile_vector sqrt interests
      if query_vector = [] then .ok (s1, [])
      else
        let exclude := if exclude_self then [query_uid] else []
        let ri := l2ap_knn sqrt query_vector s1.index k t_min exclude
        .ok ({ s1 with index := ri.2 }, ri.1)

/-! ## Spec-side definition: the brute-force ranking (spec §8, Top-k
correctness) -/

/-- The value of document `d`'s posting in the list `ps` (0 when absent). -/
def psVal (ps : List Posting) (d : String) : ℚ :=
  ((ps.find? (fun p => p.1 == d)).map (fun p => p.2.1)).getD 0

/-- The stored value of document `d` at feature `f` in an inverted-index
association list (0 when absent). -/
def valAtL (ii : List (String × List Posting)) (f d : String) : ℚ :=
  match dget ii f with
  | none => 0
  | some ps => psVal ps d

/-- The stored value of document `d` at feature `f`, read off the index's
posting lists (0 when absent). -/
def valAt (idx : L2APIndex) (f d : String) : ℚ :=
  valAtL idx.inverted_index f d

/-- The sum of squares of all stored weights of document `d` across the
inverted index (the squared norm of `d`'s stored vector). -/
def docSumSqL (ii : List (String × List Posting)) (d : String) : ℚ :=
  (ii.map (fun fp => ((fp.2.filter (fun p => p.1 == d)).map (fun p => p.2.1 * p.2.1)).sum)).sum

def docSumSq (idx : L2APIndex) (d : String) : ℚ := docSumSqL idx.inverted_index d

/-- Remove document `d`'s postings from the first entry keyed `f` (an
accounting device for the Cauchy-Schwarz argument). -/
def eraseDocInFeature : List (String × List Posting) → String → String →
    List (String × List Posting)
  | [], _, _ => []
  | e :: rest, f, d =>
    if e.1 == f then (e.1, e.2.filter (fun p => ¬ p.1 == d)) :: rest
    else e :: eraseDocInFeature rest f d

/-- Modelled from the spec: the cosine similarity of the query against an
indexed document is the dot product of the query weights with the document's
stored weights. -/
def bruteSim (idx : L2APIndex) (query : List (String × ℚ)) (d : String) : ℚ :=
  (query.map (fun fv => fv.2 * valAt idx fv.1 d)).sum

/-- Modelled from the spec: the brute-force ranking — compute the similarity
of the query against every indexed document, stable-sort descending, keep the
`k` largest. -/
def bruteForceRanking (idx : L2APIndex) (query : List (String × ℚ)) (k : Nat) :
    List (String × ℚ) :=
  (sortResultsDesc (idx.doc_ids.map (fun d => (d, bruteSim idx query d)))).take k

/-! ## Concrete fixtures (used by witnesses and counterexamples)

All weights are chosen so that every square root that influences a branch
decision is a perfect rational square, hence computed exactly by `ratSqrt`
(and exactly representable in the source's floating point). -/

/-- Does document `x` occur in feature `f`'s posting list of the inverted
index `ii`? -/
def docPostedB (ii : List (String × List Posting)) (f x : String) : Bool :=
  match dget ii f with
  | none => false
  | some ps => ps.any (fun p => p.1 == x)

/-- One step of the pure top-k fold over `(doc, sim)` entries: the heap/theta
update of the verification loop stripped of theta (push below capacity,
replace on a strictly larger similarity, else leave unchanged). -/
def topkStep (k : Nat) (h : List (ℚ × String)) (e : String × ℚ) : List (ℚ × String) :=
  if h.length < k then heapPush h (e.2, e.1)
  else if heapMinSim h < e.2 then heapReplace h (e.2, e.1) else h

/-- Modelled from the spec (restricted): the brute-force ranking over the
documents whose cosine similarity against the query is non-zero. -/
def bruteForceRankingNZ (idx : L2APIndex) (query : List (String × ℚ)) (k : Nat) :
    List (String × ℚ) :=
  (sortResultsDesc
    ((idx.doc_ids.filter (fun d => decide (bruteSim idx query d ≠ 0))).map
      (fun d => (d, bruteSim idx query d)))).take k

/-- `H` (a heap of `(sim, doc)` pairs) holds exactly the `min k |P|`
highest-similarity entries of the pool `P` of `(doc, sim)` entries: right
length, all drawn from the pool, and every pool entry outside the heap is
strictly below every heap similarity. -/
def IsTopK (k : Nat) (P : List (String × ℚ)) (H : List (ℚ × String)) : Prop :=
  H.length = min k P.length ∧
    (∀ p ∈ H, (p.2, p.1) ∈ P) ∧
    (∀ e ∈ P, (e.2, e.1) ∈ H ∨ ∀ p ∈ H, e.2 < p.1)

/-- Document `x` occurs in some posting list of the inverted index `ii`. -/
def hasPostingL (ii : List (String × List Posting)) (x : String) : Prop :=
  ∃ fp ∈ ii, x ∈ fp.2.map (fun p => p.1)

/-- Spec §3 invariant, first half: every feature's posting list is sorted by
descending weight. -/
def PostingsSorted (idx : L2APIndex) : Prop :=
  ∀ fp ∈ idx.inverted_index, List.Pairwise descPostVal fp.2

/-- Spec §3 invariant, second half: the set of document ids with at least one
posting equals the set of document ids with a DocumentBound
(`doc_metadata` entry). -/
def IdsMatch (idx : L2APIndex) : Prop :=
  ∀ x : String, hasPostingL idx.inverted_index x ↔ dmem idx.doc_metadata x = true

/-- A Bool-valued test: does document `d` occur in some posting list of some
feature of `q`? -/
def docSharesFeatureB (idx : L2APIndex) (q : List (String × ℚ)) (d : String) : Bool :=
  q.any (fun fv =>
    match dget idx.inverted_index fv.1 with
    | none => false
    | some ps => ps.any (fun p => p.1 == d))

/-- A 36-feature document vector (value 1/5 each, norm 6/5): the features
shared with the C6 query sit at positions 1, 16 and 25 of the document's
sorted order, making their stored prefix norms 1/5, 4/5 and 1 (exact). -/
def c6doc : List (String × ℚ) :=
  [("f1", 1/5)] ++ ((List.range 14).map (fun i => (toString i ++ "x", (1:ℚ)/5))) ++
    [("f0", 1/5)] ++ ((List.range 8).map (fun i => (toString i ++ "y", (1:ℚ)/5))) ++
    [("f2", 1/5)] ++ ((List.range 11).map (fun i => (toString i ++ "z", (1:ℚ)/5)))

def c6idx : L2APIndex := L2APIndex.empty.add_document ratSqrt "d" c6doc

/-- C6 query: suffix norms 16/25 (approx, 0.64), 1/2 and 3/10 — the last two
exact. -/
def c6q : List (String × ℚ) := [("f0", 2/5), ("f1", 2/5), ("f2", 3/10)]

/-- A 16-feature document (value 1/5 each, norm 4/5), shared features at
document positions 16 (`f0`, prefix norm 4/5) and 1 (`f1`, prefix norm
1/5). -/
def c6wdoc : List (String × ℚ) :=
  [("f1", 1/5)] ++ ((List.range 14).map (fun i => (toString i ++ "x", (1:ℚ)/5))) ++
    [("f0", 1/5)]

def c6widx : L2APIndex := L2APIndex.empty.add_document ratSqrt "d" c6wdoc

def c6wq : List (String × ℚ) := [("f0", 2/5), ("f1", 2/5)]

/-!
# Theorems

General-purpose lemmas first, then one theorem per claim (with witnesses and
counterexamples where applicable).
-/

set_option maxRecDepth 100000

theorem ratSqrt_nonneg (q : ℚ) : 0 ≤ ratSqrt q := by
  unfold ratSqrt
  split
  · exact le_refl 0
  · positivity

/-! ## Dictionary lemmas -/

theorem dget_isSome_iff_dmem {α : Type} (d : List (String × α)) (k : String) :
    (dget d k).isSome = dmem d k := by
  unfold dget dmem
  cases d.find? (fun p => p.1 == k) <;> simp

theorem ddGetPostings_of_mem (idx : L2APIndex) (f : String)
    (h : dmem idx.inverted_index f = true) : (ddGetPostings idx f).2 = idx := by
  unfold ddGetPostings
  rcases hg : dget idx.inverted_index f with _ | l
  · rw [← dget_isSome_iff_dmem, hg] at h
    simp at h
  · rfl

/-! ## Deduplication lemmas -/

theorem dedupFirstAux_mem :
    ∀ (l seen : List String) (a : String),
      a ∈ dedupFirstAux l seen ↔ a ∈ l ∧ a ∉ seen := by
  intro l
  induction l with
  | nil => intro seen a; simp [dedupFirstAux]
  | cons b bs ih =>
    intro seen a
    rw [dedupFirstAux]
    by_cases hb : b ∈ seen
    · rw [if_pos hb, ih]
      constructor
      · rintro ⟨h1, h2⟩
        exact ⟨List.mem_cons_of_mem _ h1, h2⟩
      · rintro ⟨h1, h2⟩
        rcases List.mem_cons.mp h1 with rfl | h1
        · exact absurd hb h2
        · exact ⟨h1, h2⟩
    · rw [if_neg hb]
      simp only [List.mem_cons, ih, List.mem_cons]
      constructor
      · rintro (rfl | ⟨h1, h2⟩)
        · exact ⟨Or.inl rfl, hb⟩
        · exact ⟨Or.inr h1, fun hs => h2 (Or.inr hs)⟩
      · rintro ⟨rfl | h1, h2⟩
        · exact Or.inl rfl
        · by_cases hab : a = b
          · exact Or.inl hab
          · exact Or.inr ⟨h1, by simp [hab, h2]⟩

theorem dedupFirstAux_nodup :
    ∀ (l seen : List String), (dedupFirstAux l seen).Nodup := by
  intro l
  induction l with
  | nil => intro seen; simp [dedupFirstAux]
  | cons b bs ih =>
    intro seen
    rw [dedupFirstAux]
    by_cases hb : b ∈ seen
    · rw [if_pos hb]; exact ih seen
    · rw [if_neg hb]
      refine List.nodup_cons.mpr ⟨?_, ih (b :: seen)⟩
      intro hmem
      exact ((dedupFirstAux_mem bs (b :: seen) b).mp hmem).2 (List.mem_cons_self b seen)

theorem dedupFirst_nodup (l : List String) : (dedupFirst l).Nodup :=
  dedupFirstAux_nodup l []

theorem cleanDedup_nodup (l : List String) : (cleanDedup l).Nodup :=
  dedupFirst_nodup _

/-! ## Claim C7: the `normalize_interests` contract -/

theorem sumSq_map_const (u : List String) (c : ℚ) :
    sumSq (u.map (fun t => (t, c))) = u.length * (c * c) := by
  induction u with
  | nil => simp [sumSq]
  | cons a as ih =>
    simp only [List.map_cons, sumSq, List.sum_cons, List.length_cons] at *
    rw [ih]
    push_cast
    ring

/-- C7.  `normalize_interests` lower-cases and trims every tag, drops empty
strings, deduplicates with set semantics, gives every surviving tag the same
weight `1/‖·‖`, produces a unit vector (`Σ w² = 1`) for every non-empty
result, returns the empty vector for empty or all-empty input, and normalizes
`["hiking","hiking","camping"]` exactly like `["hiking","camping"]`.  The
abstract `sqrt` is assumed positive and exact at the one argument the code
feeds it (the number of unique tags). -/
theorem normalize_interests_contract (sqrt : ℚ → ℚ) (l : List String)
    (h : cleanDedup l ≠ [] →
      0 < sqrt ((cleanDedup l).length : ℚ) ∧
        sqrt ((cleanDedup l).length : ℚ) * sqrt ((cleanDedup l).length : ℚ) =
          ((cleanDedup l).length : ℚ)) :
    normalize_interests sqrt l =
        (cleanDedup l).map (fun t => (t, 1 / sqrt ((cleanDedup l).length : ℚ))) ∧
      (cleanDedup l).Nodup ∧
      sumSq (normalize_interests sqrt l) = (if cleanDedup l = [] then 0 else 1) ∧
      normalize_interests sqrt ([] : List String) = [] ∧
      (∀ sqrt' : ℚ → ℚ,
        normalize_interests sqrt' ["hiking", "hiking", "camping"] =
          normalize_interests sqrt' ["hiking", "camping"]) := by
  have hdup : ∀ sqrt' : ℚ → ℚ,
      normalize_interests sqrt' ["hiking", "hiking", "camping"] =
        normalize_interests sqrt' ["hiking", "camping"] := by
    intro sqrt'
    have hc : cleanDedup ["hiking", "hiking", "camping"] = cleanDedup ["hiking", "camping"] := by
      with_unfolding_all decide
    rw [normalize_interests, normalize_interests,
      if_neg (List.cons_ne_nil "hiking" _), if_neg (List.cons_ne_nil "hiking" _), hc]
  have hmain : normalize_interests sqrt l =
      (cleanDedup l).map (fun t => (t, 1 / sqrt ((cleanDedup l).length : ℚ))) := by
    rw [normalize_interests]
    by_cases hl : l = []
    · have : cleanDedup l = [] := by rw [hl]; rfl
      rw [if_pos hl, this]
      rfl
    · rw [if_neg hl]
      by_cases hu : cleanDedup l = []
      · rw [hu]; simp
      · simp only [hu, if_neg, if_false]
        obtain ⟨hpos, _⟩ := h hu
        have hnorm : sumSq ((cleanDedup l).map (fun t => (t, (1 : ℚ)))) =
            ((cleanDedup l).length : ℚ) := by
          rw [sumSq_map_const]; ring
        rw [hnorm, if_pos hpos, List.map_map]
        apply List.map_congr_left
        intro a _
        simp
  refine ⟨hmain, cleanDedup_nodup l, ?_, rfl, hdup⟩
  by_cases hu : cleanDedup l = []
  · rw [hmain, hu]
    simp [sumSq]
  · obtain ⟨hpos, hsq⟩ := h hu
    rw [hmain, if_neg hu, sumSq_map_const]
    have hne : ((cleanDedup l).length : ℚ) ≠ 0 :=
      Nat.cast_ne_zero.mpr (fun h0 => hu (List.length_eq_zero.mp h0))
    rw [div_mul_div_comm, one_mul, hsq]
    field_simp

/-- Witness for C7 on a concrete tag list with four unique survivors
(`ratSqrt` is exact at 4). -/
theorem normalize_interests_contract_witness :
    normalize_interests ratSqrt ["Hiking ", " hiking", "CAMPING", "climbing", "skiing", ""] =
        [("hiking", (1:ℚ)/2), ("camping", 1/2), ("climbing", 1/2), ("skiing", 1/2)] ∧
      sumSq (normalize_interests ratSqrt
        ["Hiking ", " hiking", "CAMPING", "climbing", "skiing", ""]) = 1 := by
  have h := normalize_interests_contract ratSqrt
    ["Hiking ", " hiking", "CAMPING", "climbing", "skiing", ""]
    (fun _ => by constructor <;> with_unfolding_all decide)
  refine ⟨?_, ?_⟩
  · rw [h.1]
    with_unfolding_all decide
  · rw [h.2.2.1]
    with_unfolding_all decide

/-! ## More dictionary lemmas -/

theorem dmem_iff_mem_keys {α : Type} (d : List (String × α)) (k : String) :
    dmem d k = true ↔ k ∈ d.map (·.1) := by
  induction d with
  | nil => simp [dmem]
  | cons p rest ih =>
    by_cases h : p.1 == k
    · unfold dmem
      rw [List.find?_cons_of_pos (a := p) _ h]
      simp only [Option.isSome_some, List.map_cons, List.mem_cons, true_iff]
      exact Or.inl (beq_iff_eq.mp h).symm
    · unfold dmem
      rw [List.find?_cons_of_neg (a := p) _ h]
      have ih' : (rest.find? (fun p => p.1 == k)).isSome = true ↔ k ∈ rest.map (·.1) := ih
      rw [ih']
      simp only [List.map_cons, List.mem_cons]
      constructor
      · exact Or.inr
      · rintro (heq | hm)
        · exact absurd (beq_iff_eq.mpr heq.symm) h
        · exact hm

theorem dget_mem {α : Type} (d : List (String × α)) (k : String) (v : α)
    (h : dget d k = some v) : (k, v) ∈ d := by
  unfold dget at h
  rcases hf : d.find? (fun p => p.1 == k) with _ | p
  · rw [hf] at h; cases h
  · rw [hf] at h
    have hm := List.mem_of_find?_eq_some hf
    have hp := List.find?_some hf
    obtain ⟨p1, p2⟩ := p
    have hk : p1 = k := beq_iff_eq.mp hp
    have hv : p2 = v := by simpa using h
    subst hk
    subst hv
    exact hm

theorem mem_keys_dset {α : Type} (d : List (String × α)) (k : String) (v : α) (x : String) :
    x ∈ (dset d k v).map (·.1) ↔ x ∈ d.map (·.1) ∨ x = k := by
  induction d with
  | nil => simp [dset]
  | cons p rest ih =>
    rw [dset]
    by_cases h : p.1 == k
    · rw [if_pos h]
      have hk : p.1 = k := beq_iff_eq.mp h
      simp only [List.map_cons, List.mem_cons, hk]
      tauto
    · rw [if_neg h]
      simp only [List.map_cons, List.mem_cons, ih]
      tauto

theorem dmem_dset {α : Type} (d : List (String × α)) (k : String) (v : α) (x : String) :
    dmem (dset d k v) x = true ↔ dmem d x = true ∨ x = k := by
  rw [dmem_iff_mem_keys, dmem_iff_mem_keys, mem_keys_dset]

theorem nodup_keys_dset {α : Type} (d : List (String × α)) (k : String) (v : α)
    (h : (d.map (·.1)).Nodup) : ((dset d k v).map (·.1)).Nodup := by
  induction d with
  | nil => simp [dset]
  | cons p rest ih =>
    rw [dset]
    rw [List.map_cons, List.nodup_cons] at h
    by_cases hk : p.1 == k
    · have hk' : p.1 = k := beq_iff_eq.mp hk
      rw [if_pos hk, List.map_cons, List.nodup_cons]
      exact ⟨by rw [← hk']; exact h.1, h.2⟩
    · rw [if_neg hk, List.map_cons, List.nodup_cons]
      refine ⟨?_, ih h.2⟩
      rw [mem_keys_dset]
      rintro (hm | heq)
      · exact h.1 hm
      · exact absurd (beq_iff_eq.mpr heq) (by simpa using hk)

theorem dget_eq_some_of_mem_nodup {α : Type} (d : List (String × α)) (k : String) (v : α)
    (hnd : (d.map (·.1)).Nodup) (hm : (k, v) ∈ d) : dget d k = some v := by
  induction d with
  | nil => cases hm
  | cons p rest ih =>
    rw [List.map_cons, List.nodup_cons] at hnd
    rcases List.mem_cons.mp hm with heq | hm'
    · unfold dget
      rw [← heq, List.find?_cons_of_pos (a := (k, v)) _ (by simp)]
      rfl
    · unfold dget
      have hne : ¬ ((fun q : String × α => q.1 == k) p = true) := by
        intro hb
        have hks : k ∈ rest.map (·.1) := List.mem_map.mpr ⟨(k, v), hm', rfl⟩
        rw [← beq_iff_eq.mp hb] at hks
        exact hnd.1 hks
      rw [List.find?_cons_of_neg (a := p) _ hne]
      exact ih hnd.2 hm'

/-! ## Heap membership lemmas -/

theorem mem_heapPush (h : List (ℚ × String)) (x p : ℚ × String) :
    p ∈ heapPush h x ↔ p ∈ h ∨ p = x := by
  induction h with
  | nil => simp [heapPush]
  | cons y rest ih =>
    rw [heapPush]
    by_cases hle : tupLe x y
    · simp only [if_pos hle, List.mem_cons]
      tauto
    · simp only [if_neg hle, List.mem_cons, ih]
      tauto

theorem mem_heapReplace (h : List (ℚ × String)) (x p : ℚ × String)
    (hp : p ∈ heapReplace h x) : p ∈ h ∨ p = x := by
  unfold heapReplace at hp
  rcases (mem_heapPush _ _ _).mp hp with hm | hx
  · exact Or.inl (List.mem_of_mem_tail hm)
  · exact Or.inr hx

theorem mem_heapStep (k : Nat) (h : List (ℚ × String)) (theta s : ℚ) (d : String)
    (p : ℚ × String) (hp : p ∈ (heapStep k h theta s d).1) : p ∈ h ∨ p = (s, d) := by
  unfold heapStep at hp
  split at hp
  · exact (mem_heapPush _ _ _).mp hp
  · split at hp
    · exact mem_heapReplace _ _ _ hp
    · exact Or.inl hp

/-! ## Phase-level origin lemmas -/

theorem ddGetPostings_spec (idx : L2APIndex) (f : String)
    (h : dmem idx.inverted_index f = true) :
    ∃ ps, dget idx.inverted_index f = some ps ∧ ddGetPostings idx f = (ps, idx) := by
  rcases hg : dget idx.inverted_index f with _ | ps
  · rw [← dget_isSome_iff_dmem, hg] at h
    cases h
  · exact ⟨ps, rfl, by rw [ddGetPostings, hg]⟩

theorem dmem_accumStep (theta rs4 qv : ℚ) (acc : List (String × ℚ)) (d0 : String)
    (v0 pn0 : ℚ) (d : String)
    (h : dmem (accumStep theta rs4 qv acc d0 v0 pn0) d = true) :
    dmem acc d = true ∨ d = d0 := by
  unfold accumStep at h
  dsimp only at h
  split at h
  · rcases (dmem_dset _ _ _ _).mp h with h1 | rfl
    · rcases (dmem_dset _ _ _ _).mp h1 with h2 | rfl
      · exact Or.inl h2
      · exact Or.inr rfl
    · exact Or.inr rfl
  · rcases (dmem_dset _ _ _ _).mp h with h1 | rfl
    · exact Or.inl h1
    · exact Or.inr rfl

theorem nodup_keys_accumStep (theta rs4 qv : ℚ) (acc : List (String × ℚ)) (d0 : String)
    (v0 pn0 : ℚ) (h : (acc.map (·.1)).Nodup) :
    ((accumStep theta rs4 qv acc d0 v0 pn0).map (·.1)).Nodup := by
  unfold accumStep
  dsimp only
  split
  · exact nodup_keys_dset _ _ _ (nodup_keys_dset _ _ _ h)
  · exact nodup_keys_dset _ _ _ h

theorem dmem_scanPostings (theta rs4 qv : ℚ) (ex : List String) :
    ∀ (ps : List Posting) (acc : List (String × ℚ)) (d : String),
      dmem (scanPostings theta rs4 qv ex ps acc) d = true →
      dmem acc d = true ∨ d ∈ ps.map (fun p => p.1) := by
  intro ps
  induction ps with
  | nil => intro acc d h; exact Or.inl h
  | cons p rest ih =>
    intro acc d h
    obtain ⟨d0, v0, pn0⟩ := p
    rw [scanPostings] at h
    split at h
    · rcases ih _ _ h with h1 | h2
      · exact Or.inl h1
      · exact Or.inr (List.mem_cons_of_mem _ h2)
    · split at h
      · rcases ih _ _ h with h1 | h2
        · exact Or.inl h1
        · exact Or.inr (List.mem_cons_of_mem _ h2)
      · rcases ih _ _ h with h1 | h2
        · rcases dmem_accumStep _ _ _ _ _ _ _ _ h1 with h2 | rfl
          · exact Or.inl h2
          · exact Or.inr (by simp)
        · exact Or.inr (List.mem_cons_of_mem _ h2)

theorem nodup_keys_scanPostings (theta rs4 qv : ℚ) (ex : List String) :
    ∀ (ps : List Posting) (acc : List (String × ℚ)),
      (acc.map (·.1)).Nodup → ((scanPostings theta rs4 qv ex ps acc).map (·.1)).Nodup := by
  intro ps
  induction ps with
  | nil => intro acc h; exact h
  | cons p rest ih =>
    intro acc h
    obtain ⟨d0, v0, pn0⟩ := p
    rw [scanPostings]
    split
    · exact ih _ h
    · split
      · exact ih _ h
      · exact ih _ (nodup_keys_accumStep _ _ _ _ _ _ _ h)

theorem dmem_candGen (theta : ℚ) (ex : List String) :
    ∀ (l : List ((String × ℚ) × ℚ)) (idx : L2APIndex) (acc : List (String × ℚ)) (d : String),
      dmem (candGen theta ex l idx acc).1 d = true →
      dmem acc d = true ∨
        ∃ fv : String × ℚ, fv ∈ l.map (·.1) ∧
          ∃ ps, dget idx.inverted_index fv.1 = some ps ∧ d ∈ ps.map (fun p => p.1) := by
  intro l
  induction l with
  | nil => intro idx acc d h; exact Or.inl h
  | cons hd rest ih =>
    intro idx acc d h
    obtain ⟨⟨f, qv⟩, rs4⟩ := hd
    rw [candGen] at h
    split at h
    · exact Or.inl h
    · split at h
      · rcases ih _ _ _ h with h1 | ⟨fv, hfv, ps, hps, hd'⟩
        · exact Or.inl h1
        · exact Or.inr ⟨fv, List.mem_cons_of_mem _ hfv, ps, hps, hd'⟩
      · rename_i hmem
        obtain ⟨ps, hget, heq⟩ := ddGetPostings_spec idx f (by simpa using hmem)
        rw [heq] at h
        rcases ih _ _ _ h with h1 | ⟨fv, hfv, ps', hps', hd'⟩
        · rcases dmem_scanPostings theta rs4 qv ex ps acc d h1 with h2 | h3
          · exact Or.inl h2
          · exact Or.inr ⟨(f, qv), by simp, ps, hget, h3⟩
        · exact Or.inr ⟨fv, List.mem_cons_of_mem _ hfv, ps', hps', hd'⟩

theorem nodup_keys_candGen (theta : ℚ) (ex : List String) :
    ∀ (l : List ((String × ℚ) × ℚ)) (idx : L2APIndex) (acc : List (String × ℚ)),
      (acc.map (·.1)).Nodup → ((candGen theta ex l idx acc).1.map (·.1)).Nodup := by
  intro l
  induction l with
  | nil => intro idx acc h; exact h
  | cons hd rest ih =>
    intro idx acc h
    obtain ⟨⟨f, qv⟩, rs4⟩ := hd
    rw [candGen]
    split
    · exact h
    · split
      · exact ih _ _ h
      · exact ih _ _ (nodup_keys_scanPostings _ _ _ _ _ _ h)

theorem verifyPhase_heap_mem (k : Nat) (ex : List String) (idx : L2APIndex) :
    ∀ (entries : List (String × ℚ)) (heap : List (ℚ × String)) (theta : ℚ)
      (p : ℚ × String), p ∈ (verifyPhase k ex idx entries heap theta).1 →
      p ∈ heap ∨ ((p.2, p.1) ∈ entries ∧ ¬ p.1 = 0 ∧ p.2 ∉ ex) := by
  intro entries
  induction entries with
  | nil => intro heap theta p hp; exact Or.inl hp
  | cons e rest ih =>
    intro heap theta p hp
    obtain ⟨doc, dot⟩ := e
    rw [verifyPhase] at hp
    split at hp
    · rcases ih _ _ _ hp with h1 | ⟨h2, h3, h4⟩
      · exact Or.inl h1
      · exact Or.inr ⟨List.mem_cons_of_mem _ h2, h3, h4⟩
    · split at hp
      · rcases ih _ _ _ hp with h1 | ⟨h2, h3, h4⟩
        · exact Or.inl h1
        · exact Or.inr ⟨List.mem_cons_of_mem _ h2, h3, h4⟩
      · rename_i hex hdot
        split at hp
        · rcases ih _ _ _ hp with h1 | ⟨h2, h3, h4⟩
          · exact Or.inl h1
          · exact Or.inr ⟨List.mem_cons_of_mem _ h2, h3, h4⟩
        · split at hp
          · rcases ih _ _ _ hp with h1 | ⟨h2, h3, h4⟩
            · exact Or.inl h1
            · exact Or.inr ⟨List.mem_cons_of_mem _ h2, h3, h4⟩
          · rcases ih _ _ _ hp with h1 | ⟨h2, h3, h4⟩
            · rcases mem_heapStep _ _ _ _ _ _ h1 with h5 | rfl
              · exact Or.inl h5
              · exact Or.inr ⟨by simp, hdot, hex⟩
            · exact Or.inr ⟨List.mem_cons_of_mem _ h2, h3, h4⟩

/-- Results of `l2ap_knn` come from heap entries: each returned `(doc, sim)`
is a non-zero accumulator entry of a non-excluded document. -/
theorem l2ap_knn_result_origin (sqrt : ℚ → ℚ) (q : List (String × ℚ)) (idx : L2APIndex)
    (k : Nat) (t : ℚ) (ex : List String) (p : String × ℚ)
    (hp : p ∈ (l2ap_knn sqrt q idx k t ex).1) :
    (p.1, p.2) ∈ (l2apCand sqrt q idx t ex).1 ∧ ¬ p.2 = 0 ∧ p.1 ∉ ex := by
  rw [l2ap_knn] at hp
  split at hp
  · cases hp
  · simp only at hp
    rw [sortResultsDesc] at hp
    rw [List.mem_insertionSort] at hp
    obtain ⟨hq, hmem, heq⟩ := List.mem_map.mp hp
    rcases verifyPhase_heap_mem _ _ _ _ _ _ _ hmem with h1 | ⟨h2, h3, h4⟩
    · cases h1
    · rw [← heq]
      exact ⟨h2, h3, h4⟩

/-! ## Claim C2: the minimum-similarity threshold -/

/-- Counterexample to C2 as stated: one indexed document (`D`, interests
`["a"]`), query `normalize(["a","b","c","d"])`, `k = 1`,
`minSimilarity = 0.7`.  The similarity of `D` is `0.5 < 0.7`, the pscore
filter passes (`0.5 + 1 ≥ 0.7`) and the heap is below capacity, so `D` is
returned even though its similarity is below the threshold. -/
theorem l2ap_knn_below_threshold_counterexample :
    (l2ap_knn ratSqrt (normalize_interests ratSqrt ["a", "b", "c", "d"])
        (L2APIndex.build_index ratSqrt [("D", ["a"])]) 1 (7/10) []).1 = [("D", 1/2)] ∧
      ((1 : ℚ)/2 < 7/10) := by
  with_unfolding_all decide

/-- C2 (amended).  Every `(id, similarity)` pair returned by `l2ap_knn` has a
non-zero accumulated similarity — but it may fall below `minSimilarity` while
the heap is below capacity, since admission to an underfull heap checks only
`dot + pscore ≥ θ`.  A document sharing no feature with the query never
appears in the results, for any `minSimilarity`. -/
theorem l2ap_knn_threshold_amended (sqrt : ℚ → ℚ) (q : List (String × ℚ))
    (idx : L2APIndex) (k : Nat) (t : ℚ) (ex : List String) :
    (∀ p ∈ (l2ap_knn sqrt q idx k t ex).1, p.2 ≠ 0) ∧
      (∀ d, docSharesFeatureB idx q d = false →
        d ∉ (l2ap_knn sqrt q idx k t ex).1.map (·.1)) := by
  constructor
  · intro p hp
    exact (l2ap_knn_result_origin sqrt q idx k t ex p hp).2.1
  · intro d hshare hd
    obtain ⟨p, hp, hpd⟩ := List.mem_map.mp hd
    obtain ⟨hacc, _, _⟩ := l2ap_knn_result_origin sqrt q idx k t ex p hp
    have hdm : dmem (l2apCand sqrt q idx t ex).1 p.1 = true := by
      rw [dmem_iff_mem_keys]
      exact List.mem_map.mpr ⟨(p.1, p.2), hacc, rfl⟩
    rw [l2apCand] at hdm
    rcases dmem_candGen _ _ _ _ _ _ hdm with h1 | ⟨fv, hfv, ps, hps, hdps⟩
    · cases h1
    · -- fv is a feature of the (sorted) query; transport to q and contradict
      have hfvq : fv ∈ q := by
        obtain ⟨pr, hpr, hpr1⟩ := List.mem_map.mp hfv
        have := List.of_mem_zip hpr
        rw [hpr1] at this
        have h2 := this.1
        rw [L2APIndex.get_ordered_features, sortPairsDescVal, List.mem_insertionSort] at h2
        exact h2
      obtain ⟨pp, hpp, hpp1⟩ := List.mem_map.mp hdps
      have h1 := List.any_eq_false.mp hshare fv hfvq
      rw [hps] at h1
      apply h1
      apply List.any_eq_true.mpr
      refine ⟨pp, hpp, ?_⟩
      rw [hpd] at hpp1
      exact beq_iff_eq.mpr hpp1

/-- Witness for C2 (amended): document `E` shares no feature with the query
and is absent from the results; the returned similarity is non-zero. -/
theorem l2ap_knn_threshold_amended_witness :
    docSharesFeatureB (L2APIndex.build_index ratSqrt [("D", ["a"]), ("E", ["zz"])])
        (normalize_interests ratSqrt ["a"]) "E" = false ∧
      "E" ∉ (l2ap_knn ratSqrt (normalize_interests ratSqrt ["a"])
        (L2APIndex.build_index ratSqrt [("D", ["a"]), ("E", ["zz"])]) 5 (1/10) []).1.map (·.1) := by
  have h := l2ap_knn_threshold_amended ratSqrt (normalize_interests ratSqrt ["a"])
    (L2APIndex.build_index ratSqrt [("D", ["a"]), ("E", ["zz"])]) 5 (1/10) []
  exact ⟨by with_unfolding_all decide, h.2 "E" (by with_unfolding_all decide)⟩

/-! ## Claim C6: dropped candidates and re-entry -/

/-- Counterexample to C6 as stated: with `θ = 0.29` and the crafted index,
document `d` is accumulated at the first query feature (partial score 2/25),
zeroed out (dropped) by the early-pruning rule at the second feature — yet
the third query feature readmits it as a fresh candidate
(`suffixNorm × prefixNorm = 0.3 ≥ θ`), and it reaches the verification phase
and the final results with the undercounted similarity 3/50. -/
theorem dropped_candidate_reenters_counterexample :
    (candGen (29/100) [] ((queryWalk ratSqrt c6q).take 1) c6idx []).1 = [("d", 2/25)] ∧
      (candGen (29/100) [] ((queryWalk ratSqrt c6q).take 2) c6idx []).1 = [("d", 0)] ∧
      (l2ap_knn ratSqrt c6q c6idx 1 (29/100) []).1 = [("d", 3/50)] := by
  refine ⟨?_, ?_, ?_⟩ <;> with_unfolding_all decide

/-- C6 (amended).  A document whose accumulator is zero (or absent) at the
end of candidate generation is excluded from the verification phase and from
the final results; a zeroed-out document stays excluded only if no later
query feature readmits it as a new candidate. -/
theorem dropped_candidate_amended (sqrt : ℚ → ℚ) (q : List (String × ℚ))
    (idx : L2APIndex) (k : Nat) (t : ℚ) (ex : List String) (d : String)
    (hacc : ∀ v : ℚ, dget (l2apCand sqrt q idx t ex).1 d = some v → v = 0) :
    d ∉ (l2ap_knn sqrt q idx k t ex).1.map (·.1) := by
  intro hd
  obtain ⟨p, hp, hpd⟩ := List.mem_map.mp hd
  obtain ⟨hmem, hnz, _⟩ := l2ap_knn_result_origin sqrt q idx k t ex p hp
  have hnd : ((l2apCand sqrt q idx t ex).1.map (·.1)).Nodup := by
    rw [l2apCand]
    exact nodup_keys_candGen _ _ _ _ _ (by simp)
  have hget := dget_eq_some_of_mem_nodup _ _ _ hnd hmem
  rw [hpd] at hget
  exact hnz (hacc p.2 (by rw [← hpd] at hget ⊢; exact hget))

/-- Witness for C6 (amended) on a concrete query whose only candidate is
dropped at the last query feature and never readmitted: the accumulator ends
at zero and the results are empty. -/
theorem dropped_candidate_amended_witness :
    (l2apCand ratSqrt c6wq c6widx (29/100) []).1 = [("d", 0)] ∧
      "d" ∉ (l2ap_knn ratSqrt c6wq c6widx 1 (29/100) []).1.map (·.1) := by
  have h0 : (l2apCand ratSqrt c6wq c6widx (29/100) []).1 = [("d", 0)] := by
    with_unfolding_all decide
  refine ⟨h0, ?_⟩
  apply dropped_candidate_amended
  intro v hv
  rw [h0] at hv
  have h1 : dget [("d", (0 : ℚ))] "d" = some 0 := by with_unfolding_all decide
  rw [h1] at hv
  exact (Option.some.inj hv).symm

/-! ## Claim C9: `l2ap_knn` never mutates the index it queries -/

theorem candGen_preserves_index (theta : ℚ) (exclude : List String) :
    ∀ (l : List ((String × ℚ) × ℚ)) (idx : L2APIndex) (acc : List (String × ℚ)),
      (candGen theta exclude l idx acc).2 = idx := by
  intro l
  induction l with
  | nil => intro idx acc; rfl
  | cons hd rest ih =>
    intro idx acc
    obtain ⟨⟨f, qv⟩, rs4⟩ := hd
    rw [candGen]
    split
    · rfl
    · split
      · exact ih idx acc
      · rename_i hmem
        rw [ih]
        exact ddGetPostings_of_mem idx f (by simpa using hmem)

/-- C9.  `l2ap_knn` is read-only on the index: the inverted index, the
document metadata, the feature frequencies and the document-id set after a
query are all identical to their values before it; in particular the guarded
`defaultdict` lookup of an absent query feature never inserts an empty
posting list. -/
theorem l2ap_knn_preserves_index (sqrt : ℚ → ℚ) (query : List (String × ℚ))
    (idx : L2APIndex) (k : Nat) (t_min : ℚ) (exclude : List String) :
    (l2ap_knn sqrt query idx k t_min exclude).2 = idx := by
  unfold l2ap_knn
  split
  · rfl
  · exact candGen_preserves_index _ _ _ _ _

/-! ## Claim C8: strict comparison against the heap minimum -/

/-- C8.  When the heap already holds `k` entries, a verified similarity equal
to the current heap minimum leaves the heap (and theta) unchanged — insertion
happens only on a strictly greater similarity; conversely any step that
changes a full heap had a strictly greater similarity. -/
theorem heapStep_strict (k : Nat) (heap : List (ℚ × String)) (theta sim : ℚ)
    (d : String) (hfull : heap.length = k) :
    (sim = heapMinSim heap → heapStep k heap theta sim d = (heap, theta)) ∧
      ((heapStep k heap theta sim d).1 ≠ heap → heapMinSim heap < sim) := by
  constructor
  · intro he
    unfold heapStep
    rw [hfull]
    simp [he]
  · intro hch
    unfold heapStep at hch
    rw [hfull] at hch
    simp only [lt_irrefl, if_false] at hch
    by_cases hlt : heapMinSim heap < sim
    · exact hlt
    · simp [hlt] at hch

/-- Witness for C8 at a concrete full heap: with `k = 2` and minimum
similarity `1/2`, a similarity of exactly `1/2` is not inserted. -/
theorem heapStep_strict_witness :
    ([((1:ℚ)/2, "a"), (3/4, "b")] : List (ℚ × String)).length = 2 ∧
      heapStep 2 [((1:ℚ)/2, "a"), (3/4, "b")] (1/2) (1/2) "c" =
        ([((1:ℚ)/2, "a"), (3/4, "b")], 1/2) := by
  refine ⟨by with_unfolding_all decide, ?_⟩
  exact (heapStep_strict 2 [((1:ℚ)/2, "a"), (3/4, "b")] (1/2) (1/2) "c"
    (by with_unfolding_all decide)).1 (by with_unfolding_all decide)

/-! ## Claim C3: backing-store failures — rebuild propagates, but
`find_matches` swallows lookup failures -/

/-- Counterexample to C3 as stated: with a Fresh index and a store whose
profile lookup raises, `find_matches` returns a normal (non-error) result
carrying an empty list — the failure is silently converted, not
propagated. -/
theorem find_matches_swallows_lookup_failure :
    (MatchingService.find_matches ratSqrt
        ⟨fun _ => Except.error "store unreachable", Except.ok []⟩ 0
        ⟨L2APIndex.empty, true, some 0, 30⟩ "u" 10 0 true).toOption.map
      (fun p => p.2) = some [] := by
  with_unfolding_all decide

/-- C3 (amended).  A store failure during a rebuild — whether a direct
`rebuild_index` call or the implicit rebuild at the start of `find_matches` —
propagates to the caller as an error; but a store failure during
`find_matches`' profile resolution is caught and silently converted into an
empty result list (with the service returned in its post-rebuild state). -/
theorem backing_store_failure_amended (sqrt : ℚ → ℚ) (store : Store) (now : ℚ)
    (s : MatchingService) (uid : String) (k : Nat) (t_min : ℚ) (exclude_self : Bool)
    (e : String) (hstream : store.streamAll = Except.error e) :
    s.rebuild_index sqrt store now = Except.error e ∧
      (s.should_rebuild_index now = true →
        MatchingService.find_matches sqrt store now s uid k t_min exclude_self =
          Except.error e) ∧
      (∀ store' : Store, s.should_rebuild_index now = false →
        store'.getProfile uid = Except.error e →
        MatchingService.find_matches sqrt store' now s uid k t_min exclude_self =
          Except.ok (s, [])) := by
  have hreb : s.rebuild_index sqrt store now = Except.error e := by
    unfold MatchingService.rebuild_index
    rw [hstream]
  refine ⟨hreb, ?_, ?_⟩
  · intro hsr
    unfold MatchingService.find_matches
    rw [if_pos hsr, hreb]
  · intro store' hsr hget
    unfold MatchingService.find_matches
    rw [if_neg (by simp [hsr]), hget]

/-- Witness for C3 (amended) at a concrete failing store, in both the
stale (propagating) and fresh (swallowing) configurations. -/
theorem backing_store_failure_amended_witness :
    MatchingService.rebuild_index ratSqrt ⟨fun _ => Except.error "down", Except.error "down"⟩ 0
        MatchingService.init = Except.error "down" ∧
      MatchingService.find_matches ratSqrt ⟨fun _ => Except.error "down", Except.error "down"⟩ 0
        MatchingService.init "u" 10 0 true = Except.error "down" ∧
      MatchingService.find_matches ratSqrt ⟨fun _ => Except.error "down", Except.error "down"⟩ 0
        ⟨L2APIndex.empty, true, some 0, 30⟩ "u" 10 0 true =
        Except.ok (⟨L2APIndex.empty, true, some 0, 30⟩, []) := by
  have h1 := backing_store_failure_amended ratSqrt
    ⟨fun _ => Except.error "down", Except.error "down"⟩ 0 MatchingService.init
    "u" 10 0 true "down" rfl
  have h2 := backing_store_failure_amended ratSqrt
    ⟨fun _ => Except.error "down", Except.error "down"⟩ 0
    ⟨L2APIndex.empty, true, some 0, 30⟩ "u" 10 0 true "down" rfl
  exact ⟨h1.1, h1.2.1 (by with_unfolding_all decide),
    h2.2.2 ⟨fun _ => Except.error "down", Except.error "down"⟩
      (by with_unfolding_all decide) rfl⟩

/-! ## Claim C4: `update_user_in_index` and the Stale marker -/

/-- Counterexample to C4 as stated: calling `update_user_in_index` while the
index is Stale (`index_built = false`) is not a no-op that leaves the Stale
marker — it performs a full rebuild, mutating the index (the document appears
in `doc_ids`) and leaving the index Fresh (`index_built = true`). -/
theorem update_user_in_index_stale_counterexample :
    (MatchingService.update_user_in_index ratSqrt
        ⟨fun _ => Except.ok none, Except.ok [("u", ["a"])]⟩ 0
        MatchingService.init "u" ["a"]).toOption.map
      (fun s => (s.index_built, s.index.doc_ids)) = some (true, ["u"]) := by
  with_unfolding_all decide

/-- C4 (amended).  If the index is Fresh when `upsert` is called, the call
performs the incremental remove-then-reinsert and then unconditionally marks
the index Stale; but if the index is already Stale, the call instead performs
a full rebuild from the store (propagating its failure), leaving the index
Fresh on success — not a no-op, and not Stale. -/
theorem update_user_in_index_amended (sqrt : ℚ → ℚ) (store : Store) (now : ℚ)
    (s : MatchingService) (uid : String) (interests : List String) :
    (s.index_built = true →
      MatchingService.update_user_in_index sqrt store now s uid interests =
        Except.ok (MatchingService.invalidate_index
          { s with index := incrementalUpdate sqrt s.index uid interests }) ∧
      ∀ s', MatchingService.update_user_in_index sqrt store now s uid interests =
          Except.ok s' → s'.index_built = false) ∧
      (s.index_built = false →
        MatchingService.update_user_in_index sqrt store now s uid interests =
          s.rebuild_index sqrt store now ∧
        ∀ profiles, store.streamAll = Except.ok profiles →
          MatchingService.update_user_in_index sqrt store now s uid interests =
            Except.ok { s with
              index := L2APIndex.build_index sqrt profiles
              index_built := true
              index_built_at := some now }) := by
  constructor
  · intro hb
    have heq : MatchingService.update_user_in_index sqrt store now s uid interests =
        Except.ok (MatchingService.invalidate_index
          { s with index := incrementalUpdate sqrt s.index uid interests }) := by
      unfold MatchingService.update_user_in_index
      rw [if_neg (by simp [hb])]
    refine ⟨heq, ?_⟩
    intro s' hs'
    rw [heq] at hs'
    cases hs'
    rfl
  · intro hb
    have heq : MatchingService.update_user_in_index sqrt store now s uid interests =
        s.rebuild_index sqrt store now := by
      unfold MatchingService.update_user_in_index
      rw [if_pos (by simp [hb])]
    refine ⟨heq, ?_⟩
    intro profiles hp
    rw [heq]
    unfold MatchingService.rebuild_index
    rw [hp]

/-! ## Index invariant lemmas (for C5) -/

theorem length_prefixNormList (sqrt : ℚ → ℚ) :
    ∀ (a : ℚ) (l : List ℚ), (prefixNormList sqrt a l).length = l.length := by
  intro a l
  induction l generalizing a with
  | nil => rfl
  | cons v rest ih => simp [prefixNormList, ih]

theorem mem_dset {α : Type} (d : List (String × α)) (k : String) (v : α)
    (p : String × α) (hp : p ∈ dset d k v) : p ∈ d ∨ p = (k, v) := by
  induction d with
  | nil => simpa [dset] using hp
  | cons q rest ih =>
    rw [dset] at hp
    split at hp
    · rcases List.mem_cons.mp hp with rfl | hm
      · exact Or.inr rfl
      · exact Or.inl (List.mem_cons_of_mem _ hm)
    · rcases List.mem_cons.mp hp with rfl | hm
      · exact Or.inl (List.mem_cons_self _ _)
      · rcases ih hm with hm' | rfl
        · exact Or.inl (List.mem_cons_of_mem _ hm')
        · exact Or.inr rfl

theorem hasPostingL_nil (x : String) : ¬ hasPostingL [] x := by
  rintro ⟨fp, hfp, _⟩
  cases hfp

theorem hasPostingL_cons (p : String × List Posting) (ii : List (String × List Posting))
    (x : String) :
    hasPostingL (p :: ii) x ↔ x ∈ p.2.map (fun q => q.1) ∨ hasPostingL ii x := by
  unfold hasPostingL
  constructor
  · rintro ⟨fp, hfp, hx⟩
    rcases List.mem_cons.mp hfp with rfl | h
    · exact Or.inl hx
    · exact Or.inr ⟨fp, h, hx⟩
  · rintro (hx | ⟨fp, hfp, hx⟩)
    · exact ⟨p, List.mem_cons_self _ _, hx⟩
    · exact ⟨fp, List.mem_cons_of_mem _ hfp, hx⟩

theorem hasPostingL_append (ii1 ii2 : List (String × List Posting)) (x : String) :
    hasPostingL (ii1 ++ ii2) x ↔ hasPostingL ii1 x ∨ hasPostingL ii2 x := by
  unfold hasPostingL
  constructor
  · rintro ⟨fp, hfp, hx⟩
    rcases List.mem_append.mp hfp with h | h
    · exact Or.inl ⟨fp, h, hx⟩
    · exact Or.inr ⟨fp, h, hx⟩
  · rintro (⟨fp, hfp, hx⟩ | ⟨fp, hfp, hx⟩)
    · exact ⟨fp, List.mem_append.mpr (Or.inl hfp), hx⟩
    · exact ⟨fp, List.mem_append.mpr (Or.inr hfp), hx⟩

theorem hasPostingL_dset_append (f : String) (post : Posting) (x : String) :
    ∀ (ii : List (String × List Posting)) (l : List Posting),
      dget ii f = some l →
      (hasPostingL (dset ii f (l ++ [post])) x ↔ hasPostingL ii x ∨ x = post.1) := by
  intro ii
  induction ii with
  | nil => intro l hl; cases hl
  | cons p0 rest ih =>
    obtain ⟨p01, p02⟩ := p0
    intro l hl
    by_cases hp : (p01 == f) = true
    · have hl' : p02 = l := by
        unfold dget at hl
        rw [List.find?_cons_of_pos (a := (p01, p02)) _ hp] at hl
        simpa using hl
      rw [dset, if_pos hp, hasPostingL_cons, hasPostingL_cons]
      subst hl'
      simp only [List.map_append, List.mem_append]
      constructor
      · rintro ((h | h) | h)
        · exact Or.inl (Or.inl h)
        · simp only [List.map_cons, List.map_nil, List.mem_singleton] at h
          exact Or.inr h
        · exact Or.inl (Or.inr h)
      · rintro ((h | h) | rfl)
        · exact Or.inl (Or.inl h)
        · exact Or.inr h
        · refine Or.inl (Or.inr ?_)
          simp
    · have hl' : dget rest f = some l := by
        unfold dget at hl ⊢
        rwa [List.find?_cons_of_neg (a := (p01, p02)) _ hp] at hl
      rw [dset, if_neg hp, hasPostingL_cons, hasPostingL_cons, ih l hl']
      tauto

theorem hasPostingL_ddAppend (ii : List (String × List Posting)) (f : String)
    (post : Posting) (x : String) :
    hasPostingL (ddAppendPosting ii f post) x ↔ hasPostingL ii x ∨ x = post.1 := by
  unfold ddAppendPosting
  rcases hget : dget ii f with _ | l
  · rw [hasPostingL_append, hasPostingL_cons]
    constructor
    · rintro (h | (h | h))
      · exact Or.inl h
      · simp only [List.map_cons, List.map_nil, List.mem_singleton] at h
        exact Or.inr h
      · exact absurd h (hasPostingL_nil x)
    · rintro (h | rfl)
      · exact Or.inl h
      · refine Or.inr (Or.inl ?_)
        simp
  · exact hasPostingL_dset_append f post x ii l hget

theorem hasPostingL_foldAppend (doc_id : String) (x : String) :
    ∀ (L : List ((String × ℚ) × ℚ)) (ii : List (String × List Posting)),
      hasPostingL
          (L.foldl (fun ii2 fp => ddAppendPosting ii2 fp.1.1 (doc_id, fp.1.2, fp.2)) ii) x ↔
        hasPostingL ii x ∨ (x = doc_id ∧ L ≠ []) := by
  intro L
  induction L with
  | nil => intro ii; simp
  | cons a L ih =>
    intro ii
    rw [List.foldl_cons, ih, hasPostingL_ddAppend]
    constructor
    · rintro ((h | rfl) | ⟨rfl, _⟩)
      · exact Or.inl h
      · exact Or.inr ⟨rfl, by simp⟩
      · exact Or.inr ⟨rfl, by simp⟩
    · rintro (h | ⟨rfl, _⟩)
      · exact Or.inl (Or.inl h)
      · exact Or.inl (Or.inr rfl)

theorem dmem_ddel {α : Type} (d : List (String × α)) (k x : String) :
    dmem (ddel d k) x = true ↔ dmem d x = true ∧ x ≠ k := by
  rw [dmem_iff_mem_keys, dmem_iff_mem_keys]
  unfold ddel
  constructor
  · intro h
    obtain ⟨p, hp, hpx⟩ := List.mem_map.mp h
    obtain ⟨hpd, hpk⟩ := List.mem_filter.mp hp
    have hpk' : ¬ (p.1 == k) = true := of_decide_eq_true hpk
    refine ⟨List.mem_map.mpr ⟨p, hpd, hpx⟩, ?_⟩
    intro heq
    apply hpk'
    rw [beq_iff_eq, hpx]
    exact heq
  · rintro ⟨h, hne⟩
    obtain ⟨p, hp, hpx⟩ := List.mem_map.mp h
    refine List.mem_map.mpr ⟨p, List.mem_filter.mpr ⟨hp, ?_⟩, hpx⟩
    apply decide_eq_true
    intro hc
    have hxk : x = k := by
      rw [← hpx]
      exact beq_iff_eq.mp hc
    exact hne hxk

/-- Witness for C4 (amended), exercising both the Fresh and the Stale entry
states on concrete data. -/
theorem update_user_in_index_amended_witness :
    MatchingService.update_user_in_index ratSqrt ⟨fun _ => Except.ok none, Except.ok []⟩ 0
        ⟨L2APIndex.empty, true, some 0, 30⟩ "u" ["a"] =
        Except.ok (MatchingService.invalidate_index
          ⟨incrementalUpdate ratSqrt L2APIndex.empty "u" ["a"], true, some 0, 30⟩) ∧
      MatchingService.update_user_in_index ratSqrt
        ⟨fun _ => Except.ok none, Except.ok [("u", ["a"])]⟩ 0 MatchingService.init "u" ["a"] =
        Except.ok ⟨L2APIndex.build_index ratSqrt [("u", ["a"])], true, some 0, 30⟩ := by
  constructor
  · exact ((update_user_in_index_amended ratSqrt ⟨fun _ => Except.ok none, Except.ok []⟩ 0
      ⟨L2APIndex.empty, true, some 0, 30⟩ "u" ["a"]).1 rfl).1
  · exact ((update_user_in_index_amended ratSqrt
      ⟨fun _ => Except.ok none, Except.ok [("u", ["a"])]⟩ 0
      MatchingService.init "u" ["a"]).2 rfl).2 [("u", ["a"])] rfl

theorem hasPostingL_removeDoc (idx : L2APIndex) (uid x : String) :
    hasPostingL (removeDocFromIndex idx uid).inverted_index x ↔
      hasPostingL idx.inverted_index x ∧ x ≠ uid := by
  unfold removeDocFromIndex hasPostingL
  dsimp only
  constructor
  · rintro ⟨fp, hfp, hx⟩
    obtain ⟨hfp1, _⟩ := List.mem_filter.mp hfp
    obtain ⟨fq, hfq, hfqe⟩ := List.mem_map.mp hfp1
    obtain ⟨pp, hpp, hppx⟩ := List.mem_map.mp hx
    rw [← hfqe] at hpp
    dsimp only at hpp
    obtain ⟨hpp1, hpp2⟩ := List.mem_filter.mp hpp
    have hne : pp.1 ≠ uid := fun hc => (of_decide_eq_true hpp2) (beq_iff_eq.mpr hc)
    exact ⟨⟨fq, hfq, List.mem_map.mpr ⟨pp, hpp1, hppx⟩⟩, by rw [← hppx]; exact hne⟩
  · rintro ⟨⟨fp, hfp, hx⟩, hne⟩
    obtain ⟨pp, hpp, hppx⟩ := List.mem_map.mp hx
    have hkeep : pp ∈ fp.2.filter (fun p => ¬ p.1 == uid) := by
      refine List.mem_filter.mpr ⟨hpp, ?_⟩
      apply decide_eq_true
      intro hc
      exact hne (by rw [← hppx]; exact beq_iff_eq.mp hc)
    refine ⟨(fp.1, fp.2.filter fun p => ¬ p.1 == uid), ?_,
      List.mem_map.mpr ⟨pp, hkeep, hppx⟩⟩
    refine List.mem_filter.mpr ⟨List.mem_map.mpr ⟨fp, hfp, rfl⟩, ?_⟩
    apply decide_eq_true
    intro hc
    dsimp only at hc
    rw [hc] at hkeep
    cases hkeep

theorem postingsSorted_removeDoc (idx : L2APIndex) (uid : String)
    (h : PostingsSorted idx) : PostingsSorted (removeDocFromIndex idx uid) := by
  intro fp hfp
  obtain ⟨hfp1, _⟩ := List.mem_filter.mp hfp
  obtain ⟨fq, hfq, hfqe⟩ := List.mem_map.mp hfp1
  rw [← hfqe]
  exact (h fq hfq).sublist (List.filter_sublist _)

theorem idsMatch_removeDoc (idx : L2APIndex) (uid : String) (h : IdsMatch idx) :
    IdsMatch (removeDocFromIndex idx uid) := by
  intro x
  rw [hasPostingL_removeDoc]
  have hmd : (removeDocFromIndex idx uid).doc_metadata = ddel idx.doc_metadata uid := rfl
  rw [hmd, dmem_ddel, h x]

theorem hasPostingL_resortFeatures (idx : L2APIndex) (feats : List String) (x : String) :
    hasPostingL (resortFeatures idx feats).inverted_index x ↔
      hasPostingL idx.inverted_index x := by
  unfold resortFeatures
  dsimp only
  constructor
  · rintro ⟨fp, hfp, hx⟩
    obtain ⟨fq, hfq, hfqe⟩ := List.mem_map.mp hfp
    by_cases hmem : fq.1 ∈ feats
    · rw [if_pos hmem] at hfqe
      rw [← hfqe] at hx
      dsimp only at hx
      obtain ⟨pp, hpp, hppx⟩ := List.mem_map.mp hx
      rw [sortPostingsDescVal, List.mem_insertionSort] at hpp
      exact ⟨fq, hfq, List.mem_map.mpr ⟨pp, hpp, hppx⟩⟩
    · rw [if_neg hmem] at hfqe
      rw [← hfqe] at hx
      exact ⟨fq, hfq, hx⟩
  · rintro ⟨fp, hfp, hx⟩
    by_cases hmem : fp.1 ∈ feats
    · refine ⟨(fp.1, sortPostingsDescVal fp.2),
        List.mem_map.mpr ⟨fp, hfp, by rw [if_pos hmem]⟩, ?_⟩
      obtain ⟨pp, hpp, hppx⟩ := List.mem_map.mp hx
      refine List.mem_map.mpr ⟨pp, ?_, hppx⟩
      dsimp only
      rw [sortPostingsDescVal, List.mem_insertionSort]
      exact hpp
    · exact ⟨fp, List.mem_map.mpr ⟨fp, hfp, by rw [if_neg hmem]⟩, hx⟩

theorem postingsSorted_resortFeatures (idx : L2APIndex) (feats : List String)
    (h : ∀ fp ∈ idx.inverted_index, fp.1 ∉ feats → List.Pairwise descPostVal fp.2) :
    PostingsSorted (resortFeatures idx feats) := by
  intro fp hfp
  obtain ⟨fq, hfq, hfqe⟩ := List.mem_map.mp hfp
  by_cases hmem : fq.1 ∈ feats
  · rw [if_pos hmem] at hfqe
    rw [← hfqe]
    exact List.sorted_insertionSort descPostVal fq.2
  · rw [if_neg hmem] at hfqe
    rw [← hfqe]
    exact h fq hfq hmem

theorem zip_pnorms_length (sqrt : ℚ → ℚ) (vector : List (String × ℚ)) :
    ((sortPairsDescVal vector).zip
        (prefixNormList sqrt 0 ((sortPairsDescVal vector).map (·.2)))).length =
      vector.length := by
  rw [List.length_zip, length_prefixNormList, List.length_map, Nat.min_self,
    sortPairsDescVal]
  exact (List.perm_insertionSort descVal vector).length_eq

theorem hasPostingL_add_document (sqrt : ℚ → ℚ) (idx : L2APIndex) (doc_id : String)
    (vector : List (String × ℚ)) (x : String) :
    hasPostingL (idx.add_document sqrt doc_id vector).inverted_index x ↔
      hasPostingL idx.inverted_index x ∨
        (x = doc_id ∧ ¬ vector = [] ∧ ¬ sqrt (sumSq vector) = 0) := by
  by_cases hv : vector = []
  · rw [L2APIndex.add_document, if_pos hv]
    tauto
  · rw [L2APIndex.add_document, if_neg hv]
    by_cases hn : sqrt (sumSq vector) = 0
    · rw [if_pos hn]
      tauto
    · rw [if_neg hn]
      dsimp only
      rw [hasPostingL_foldAppend]
      have hL : ((sortPairsDescVal vector).zip
          (prefixNormList sqrt 0 ((sortPairsDescVal vector).map (·.2)))) ≠ [] := by
        intro hc
        have hlen := zip_pnorms_length sqrt vector
        rw [hc] at hlen
        exact hv (List.length_eq_zero.mp hlen.symm)
      constructor
      · rintro (h | ⟨rfl, _⟩)
        · exact Or.inl h
        · exact Or.inr ⟨rfl, hv, hn⟩
      · rintro (h | ⟨rfl, _, _⟩)
        · exact Or.inl h
        · exact Or.inr ⟨rfl, hL⟩

theorem dmem_metadata_add_document (sqrt : ℚ → ℚ) (idx : L2APIndex) (doc_id : String)
    (vector : List (String × ℚ)) (x : String) :
    dmem (idx.add_document sqrt doc_id vector).doc_metadata x = true ↔
      dmem idx.doc_metadata x = true ∨
        (x = doc_id ∧ ¬ vector = [] ∧ ¬ sqrt (sumSq vector) = 0) := by
  by_cases hv : vector = []
  · rw [L2APIndex.add_document, if_pos hv]
    tauto
  · rw [L2APIndex.add_document, if_neg hv]
    by_cases hn : sqrt (sumSq vector) = 0
    · rw [if_pos hn]
      tauto
    · rw [if_neg hn]
      dsimp only
      rw [dmem_dset]
      tauto

theorem idsMatch_add_document (sqrt : ℚ → ℚ) (idx : L2APIndex) (doc_id : String)
    (vector : List (String × ℚ)) (h : IdsMatch idx) :
    IdsMatch (idx.add_document sqrt doc_id vector) := by
  intro x
  rw [hasPostingL_add_document, dmem_metadata_add_document, h x]

theorem mem_ddAppend_of_ne (ii : List (String × List Posting)) (f : String)
    (post : Posting) (fp : String × List Posting)
    (h : fp ∈ ddAppendPosting ii f post) (hne : fp.1 ≠ f) : fp ∈ ii := by
  unfold ddAppendPosting at h
  rcases hget : dget ii f with _ | l
  · rw [hget] at h
    rcases List.mem_append.mp h with h1 | h1
    · exact h1
    · rw [List.mem_singleton] at h1
      rw [h1] at hne
      exact absurd rfl hne
  · rw [hget] at h
    rcases mem_dset _ _ _ _ h with h1 | h1
    · exact h1
    · rw [h1] at hne
      exact absurd rfl hne

theorem mem_foldAppend_of_ne (doc_id : String) :
    ∀ (L : List ((String × ℚ) × ℚ)) (ii : List (String × List Posting))
      (fp : String × List Posting),
      fp ∈ L.foldl (fun ii2 a => ddAppendPosting ii2 a.1.1 (doc_id, a.1.2, a.2)) ii →
      fp.1 ∉ L.map (·.1.1) → fp ∈ ii := by
  intro L
  induction L with
  | nil => intro ii fp h _; exact h
  | cons a L ih =>
    intro ii fp h hne
    rw [List.foldl_cons] at h
    have h1 := ih _ fp h (fun hc => hne (by simp [hc]))
    exact mem_ddAppend_of_ne _ _ _ _ h1 (fun hc => hne (by simp [hc]))

theorem mem_add_document_of_ne (sqrt : ℚ → ℚ) (idx : L2APIndex) (doc_id : String)
    (vector : List (String × ℚ)) (fp : String × List Posting)
    (h : fp ∈ (idx.add_document sqrt doc_id vector).inverted_index)
    (hne : fp.1 ∉ vector.map (·.1)) : fp ∈ idx.inverted_index := by
  by_cases hv : vector = []
  · rwa [L2APIndex.add_document, if_pos hv] at h
  · rw [L2APIndex.add_document, if_neg hv] at h
    by_cases hn : sqrt (sumSq vector) = 0
    · rwa [if_pos hn] at h
    · rw [if_neg hn] at h
      dsimp only at h
      refine mem_foldAppend_of_ne doc_id _ _ fp h ?_
      intro hc
      apply hne
      have hzip : (((sortPairsDescVal vector).zip
          (prefixNormList sqrt 0 ((sortPairsDescVal vector).map (·.2)))).map (·.1)) =
          sortPairsDescVal vector := by
        apply List.map_fst_zip
        rw [length_prefixNormList, List.length_map]
      obtain ⟨pr, hpr, hpr1⟩ := List.mem_map.mp hc
      have hpr' : pr.1 ∈ (((sortPairsDescVal vector).zip
          (prefixNormList sqrt 0 ((sortPairsDescVal vector).map (·.2)))).map (·.1)) :=
        List.mem_map.mpr ⟨pr, hpr, rfl⟩
      rw [hzip] at hpr'
      rw [sortPairsDescVal, List.mem_insertionSort] at hpr'
      exact List.mem_map.mpr ⟨pr.1, hpr', hpr1⟩

theorem idsMatch_empty : IdsMatch L2APIndex.empty := by
  intro x
  constructor
  · rintro ⟨fp, hfp, _⟩
    cases hfp
  · intro h
    cases h

theorem hasPostingL_sortAll (ii : List (String × List Posting)) (x : String) :
    hasPostingL (ii.map (fun fp => (fp.1, sortPostingsDescVal fp.2))) x ↔
      hasPostingL ii x := by
  constructor
  · rintro ⟨fp, hfp, hx⟩
    obtain ⟨fq, hfq, hfqe⟩ := List.mem_map.mp hfp
    rw [← hfqe] at hx
    dsimp only at hx
    obtain ⟨pp, hpp, hppx⟩ := List.mem_map.mp hx
    rw [sortPostingsDescVal, List.mem_insertionSort] at hpp
    exact ⟨fq, hfq, List.mem_map.mpr ⟨pp, hpp, hppx⟩⟩
  · rintro ⟨fp, hfp, hx⟩
    refine ⟨(fp.1, sortPostingsDescVal fp.2), List.mem_map.mpr ⟨fp, hfp, rfl⟩, ?_⟩
    obtain ⟨pp, hpp, hppx⟩ := List.mem_map.mp hx
    refine List.mem_map.mpr ⟨pp, ?_, hppx⟩
    dsimp only
    rw [sortPostingsDescVal, List.mem_insertionSort]
    exact hpp

theorem idsMatch_build_index (sqrt : ℚ → ℚ) (profiles : List (String × List String)) :
    IdsMatch (L2APIndex.build_index sqrt profiles) := by
  have hfold : ∀ (ps : List (String × List String)) (idx : L2APIndex), IdsMatch idx →
      IdsMatch (ps.foldl
        (fun idx p =>
          let vector := get_profile_vector sqrt p.2
          if vector = [] then idx else idx.add_document sqrt p.1 vector)
        idx) := by
    intro ps
    induction ps with
    | nil => intro idx h; exact h
    | cons p rest ih =>
      intro idx h
      rw [List.foldl_cons]
      apply ih
      dsimp only
      split
      · exact h
      · exact idsMatch_add_document sqrt idx p.1 _ h
  intro x
  rw [L2APIndex.build_index]
  dsimp only
  rw [hasPostingL_sortAll]
  exact hfold profiles L2APIndex.empty idsMatch_empty x

theorem postingsSorted_build_index (sqrt : ℚ → ℚ) (profiles : List (String × List String)) :
    PostingsSorted (L2APIndex.build_index sqrt profiles) := by
  intro fp hfp
  rw [L2APIndex.build_index] at hfp
  dsimp only at hfp
  obtain ⟨fq, _, hfqe⟩ := List.mem_map.mp hfp
  rw [← hfqe]
  exact List.sorted_insertionSort descPostVal fq.2

theorem invariants_incrementalUpdate (sqrt : ℚ → ℚ) (idx : L2APIndex) (uid : String)
    (interests : List String) (hs : PostingsSorted idx) (hm : IdsMatch idx) :
    PostingsSorted (incrementalUpdate sqrt idx uid interests) ∧
      IdsMatch (incrementalUpdate sqrt idx uid interests) := by
  unfold incrementalUpdate
  dsimp only
  have hs1 : PostingsSorted (if uid ∈ idx.doc_ids then removeDocFromIndex idx uid else idx) := by
    split
    · exact postingsSorted_removeDoc idx uid hs
    · exact hs
  have hm1 : IdsMatch (if uid ∈ idx.doc_ids then removeDocFromIndex idx uid else idx) := by
    split
    · exact idsMatch_removeDoc idx uid hm
    · exact hm
  split
  · exact ⟨hs1, hm1⟩
  · constructor
    · apply postingsSorted_resortFeatures
      intro fp hfp hnf
      exact hs1 fp (mem_add_document_of_ne sqrt _ uid _ fp hfp hnf)
    · intro x
      rw [hasPostingL_resortFeatures]
      have hmd : (resortFeatures
          (L2APIndex.add_document sqrt
            (if uid ∈ idx.doc_ids then removeDocFromIndex idx uid else idx) uid
            (get_profile_vector sqrt interests))
          ((get_profile_vector sqrt interests).map (·.1))).doc_metadata =
          (L2APIndex.add_document sqrt
            (if uid ∈ idx.doc_ids then removeDocFromIndex idx uid else idx) uid
            (get_profile_vector sqrt interests)).doc_metadata := rfl
      rw [hmd, hasPostingL_add_document, dmem_metadata_add_document, hm1 x]

/-! ## Claim C5: the index invariants -/

/-- C5.  After `build_index`, every posting list is sorted by descending
weight and the set of documents with a posting equals the set with a
`doc_metadata` entry; and `update_user_in_index` on a built index preserves
both invariants (stated both for the pure incremental step and through the
service call). -/
theorem index_invariants (sqrt : ℚ → ℚ) (profiles : List (String × List String))
    (idx : L2APIndex) (uid : String) (interests : List String) (store : Store)
    (now : ℚ) (s : MatchingService) :
    (PostingsSorted (L2APIndex.build_index sqrt profiles) ∧
        IdsMatch (L2APIndex.build_index sqrt profiles)) ∧
      (PostingsSorted idx → IdsMatch idx →
        PostingsSorted (incrementalUpdate sqrt idx uid interests) ∧
          IdsMatch (incrementalUpdate sqrt idx uid interests)) ∧
      (s.index_built = true → PostingsSorted s.index → IdsMatch s.index →
        ∀ s', MatchingService.update_user_in_index sqrt store now s uid interests =
          Except.ok s' → PostingsSorted s'.index ∧ IdsMatch s'.index) := by
  refine ⟨⟨postingsSorted_build_index sqrt profiles, idsMatch_build_index sqrt profiles⟩,
    fun hs hm => invariants_incrementalUpdate sqrt idx uid interests hs hm, ?_⟩
  intro hb hs hm s' hs'
  rw [MatchingService.update_user_in_index, if_neg (by simp [hb])] at hs'
  cases hs'
  exact invariants_incrementalUpdate sqrt s.index uid interests hs hm

/-- Witness for C5: the invariants hold for a concretely built two-profile
index and are preserved by a concrete incremental update (the hypotheses
discharged by the theorem's own build clause). -/
theorem index_invariants_witness :
    PostingsSorted (incrementalUpdate ratSqrt
        (L2APIndex.build_index ratSqrt [("u", ["a", "b"]), ("v", ["a"])]) "u" ["c"]) ∧
      IdsMatch (incrementalUpdate ratSqrt
        (L2APIndex.build_index ratSqrt [("u", ["a", "b"]), ("v", ["a"])]) "u" ["c"]) := by
  have hbase := (index_invariants ratSqrt [("u", ["a", "b"]), ("v", ["a"])]
    (L2APIndex.build_index ratSqrt [("u", ["a", "b"]), ("v", ["a"])]) "u" ["c"]
    ⟨fun _ => Except.ok none, Except.ok []⟩ 0 MatchingService.init).1
  exact (index_invariants ratSqrt [("u", ["a", "b"]), ("v", ["a"])]
    (L2APIndex.build_index ratSqrt [("u", ["a", "b"]), ("v", ["a"])]) "u" ["c"]
    ⟨fun _ => Except.ok none, Except.ok []⟩ 0 MatchingService.init).2.1 hbase.1 hbase.2

/-! ## Value-bound lemmas (for C10 and C1) -/

theorem length_suffixNormList (sqrt : ℚ → ℚ) :
    ∀ (a : ℚ) (l : List ℚ), (suffixNormList sqrt a l).length = l.length := by
  intro a l
  induction l generalizing a with
  | nil => rfl
  | cons v rest ih => simp [suffixNormList, ih]

theorem dget_dset_self {α : Type} (d : List (String × α)) (k : String) (v : α) :
    dget (dset d k v) k = some v := by
  induction d with
  | nil =>
    unfold dset dget
    rw [List.find?_cons_of_pos (a := (k, v)) _ (by simp)]
    rfl
  | cons p rest ih =>
    obtain ⟨p1, p2⟩ := p
    rw [dset]
    by_cases hp : (p1 == k) = true
    · rw [if_pos hp]
      unfold dget
      rw [List.find?_cons_of_pos (a := (k, v)) _ (by simp)]
      rfl
    · rw [if_neg hp]
      unfold dget
      rw [List.find?_cons_of_neg (a := (p1, p2)) _ hp]
      exact ih

theorem dget_dset_ne {α : Type} (d : List (String × α)) (k x : String) (v : α)
    (hne : x ≠ k) : dget (dset d k v) x = dget d x := by
  induction d with
  | nil =>
    unfold dset dget
    rw [List.find?_cons_of_neg (a := (k, v)) _ (by simpa using fun hc => hne hc.symm)]
  | cons p rest ih =>
    obtain ⟨p1, p2⟩ := p
    rw [dset]
    by_cases hp : (p1 == k) = true
    · rw [if_pos hp]
      unfold dget
      rw [List.find?_cons_of_neg (a := (k, v)) _ (by simpa using fun hc => hne hc.symm)]
      rw [List.find?_cons_of_neg (a := (p1, p2)) _
        (by simpa using fun hc => hne (by rw [← hc]; exact (beq_iff_eq.mp hp).symm ▸ rfl))]
    · rw [if_neg hp]
      unfold dget
      by_cases hx : (p1 == x) = true
      · rw [List.find?_cons_of_pos (a := (p1, p2)) _ hx,
          List.find?_cons_of_pos (a := (p1, p2)) _ hx]
      · rw [List.find?_cons_of_neg (a := (p1, p2)) _ hx,
          List.find?_cons_of_neg (a := (p1, p2)) _ hx]
        exact ih

theorem psVal_nonneg (ps : List Posting) (d : String)
    (hnn : ∀ p ∈ ps, 0 ≤ p.2.1) : 0 ≤ psVal ps d := by
  unfold psVal
  rcases hf : ps.find? (fun p => p.1 == d) with _ | p
  · rw [hf]
    simp
  · rw [hf]
    simpa using hnn p (List.mem_of_find?_eq_some hf)

theorem valAtL_nonneg (ii : List (String × List Posting)) (f d : String)
    (hinn : ∀ fp ∈ ii, ∀ p ∈ fp.2, 0 ≤ p.2.1) : 0 ≤ valAtL ii f d := by
  unfold valAtL
  rcases hg : dget ii f with _ | ps
  · exact le_refl 0
  · exact psVal_nonneg ps d (fun p hp => hinn (f, ps) (dget_mem ii f ps hg) p hp)

theorem psVal_eq_zero_of_not_mem (ps : List Posting) (d : String)
    (h : d ∉ ps.map (fun p => p.1)) : psVal ps d = 0 := by
  unfold psVal
  rcases hf : ps.find? (fun p => p.1 == d) with _ | p
  · rw [hf]
    rfl
  · have hps := List.find?_some hf
    exact absurd (List.mem_map.mpr ⟨p, List.mem_of_find?_eq_some hf,
      beq_iff_eq.mp hps⟩) h

theorem psVal_cons_self (d0 : String) (v0 pn0 : ℚ) (rest : List Posting) :
    psVal ((d0, v0, pn0) :: rest) d0 = v0 := by
  unfold psVal
  rw [List.find?_cons_of_pos (a := (d0, v0, pn0)) _ (by simp)]
  rfl

theorem psVal_cons_ne (d0 : String) (v0 pn0 : ℚ) (rest : List Posting) (d : String)
    (hne : d ≠ d0) : psVal ((d0, v0, pn0) :: rest) d = psVal rest d := by
  unfold psVal
  rw [List.find?_cons_of_neg (a := (d0, v0, pn0)) _
    (by simpa using fun hc => hne hc.symm)]

theorem dget_accumStep_ne (theta rs4 qv : ℚ) (acc : List (String × ℚ)) (d0 : String)
    (v0 pn0 : ℚ) (d : String) (hne : d ≠ d0) :
    dget (accumStep theta rs4 qv acc d0 v0 pn0) d = dget acc d := by
  unfold accumStep
  dsimp only
  split
  · rw [dget_dset_ne _ _ _ _ hne, dget_dset_ne _ _ _ _ hne]
  · rw [dget_dset_ne _ _ _ _ hne]

theorem dget_accumStep_self (theta rs4 qv : ℚ) (acc : List (String × ℚ)) (d0 : String)
    (v0 pn0 : ℚ) :
    dget (accumStep theta rs4 qv acc d0 v0 pn0) d0 = some 0 ∨
      dget (accumStep theta rs4 qv acc d0 v0 pn0) d0 =
        some ((dget acc d0).getD 0 + qv * v0) := by
  unfold accumStep
  dsimp only
  split
  · exact Or.inl (dget_dset_self _ _ _)
  · exact Or.inr (dget_dset_self _ _ _)

theorem scan_value_bound (theta rs4 qv : ℚ) (ex : List String) :
    ∀ (ps : List Posting) (acc : List (String × ℚ)) (d : String),
      (ps.map (fun p => p.1)).Nodup → (∀ p ∈ ps, 0 ≤ p.2.1) → 0 ≤ qv →
      0 ≤ (dget acc d).getD 0 →
      0 ≤ (dget (scanPostings theta rs4 qv ex ps acc) d).getD 0 ∧
        (dget (scanPostings theta rs4 qv ex ps acc) d).getD 0 ≤
          (dget acc d).getD 0 + qv * psVal ps d := by
  intro ps
  induction ps with
  | nil =>
    intro acc d _ _ _ hacc
    rw [scanPostings]
    refine ⟨hacc, ?_⟩
    have h0 : psVal ([] : List Posting) d = 0 := rfl
    rw [h0, mul_zero, add_zero]
  | cons p rest ih =>
    intro acc d hnd hnn hqv hacc
    obtain ⟨d0, v0, pn0⟩ := p
    rw [List.map_cons, List.nodup_cons] at hnd
    have hv0 : 0 ≤ v0 := by simpa using hnn (d0, v0, pn0) (List.mem_cons_self _ _)
    have hrest_nn : ∀ p ∈ rest, 0 ≤ p.2.1 := fun p hp => hnn p (List.mem_cons_of_mem _ hp)
    by_cases hd : d = d0
    · subst hd
      have hz : psVal rest d = 0 := psVal_eq_zero_of_not_mem rest d hnd.1
      rw [scanPostings]
      split
      · obtain ⟨h1, h2⟩ := ih acc d hnd.2 hrest_nn hqv hacc
        rw [hz] at h2
        refine ⟨h1, ?_⟩
        rw [psVal_cons_self]
        nlinarith
      · split
        · obtain ⟨h1, h2⟩ := ih acc d hnd.2 hrest_nn hqv hacc
          rw [hz] at h2
          refine ⟨h1, ?_⟩
          rw [psVal_cons_self]
          nlinarith
        · have hstep : 0 ≤ (dget (accumStep theta rs4 qv acc d v0 pn0) d).getD 0 ∧
              (dget (accumStep theta rs4 qv acc d v0 pn0) d).getD 0 ≤
                (dget acc d).getD 0 + qv * v0 := by
            rcases dget_accumStep_self theta rs4 qv acc d v0 pn0 with h | h <;> rw [h]
            · constructor
              · simp
              · simp only [Option.getD_some]
                nlinarith
            · constructor
              · simp only [Option.getD_some]
                nlinarith
              · simp
          obtain ⟨h1, h2⟩ := ih _ d hnd.2 hrest_nn hqv hstep.1
          rw [hz] at h2
          refine ⟨h1, ?_⟩
          rw [psVal_cons_self]
          nlinarith [hstep.2]
    · have hpv : psVal ((d0, v0, pn0) :: rest) d = psVal rest d := psVal_cons_ne _ _ _ _ _ hd
      rw [scanPostings]
      split
      · obtain ⟨h1, h2⟩ := ih acc d hnd.2 hrest_nn hqv hacc
        rw [hpv]
        exact ⟨h1, h2⟩
      · split
        · obtain ⟨h1, h2⟩ := ih acc d hnd.2 hrest_nn hqv hacc
          rw [hpv]
          exact ⟨h1, h2⟩
        · have hacc' : (dget (accumStep theta rs4 qv acc d0 v0 pn0) d).getD 0 =
              (dget acc d).getD 0 := by
            rw [dget_accumStep_ne _ _ _ _ _ _ _ _ hd]
          obtain ⟨h1, h2⟩ := ih (accumStep theta rs4 qv acc d0 v0 pn0) d hnd.2 hrest_nn hqv
            (by rw [hacc']; exact hacc)
          rw [hacc'] at h2
          rw [hpv]
          exact ⟨h1, h2⟩

theorem candGen_value_bound (theta : ℚ) (ex : List String) :
    ∀ (l : List ((String × ℚ) × ℚ)) (idx : L2APIndex) (acc : List (String × ℚ)) (d : String),
      (∀ a ∈ l, 0 ≤ a.1.2) →
      (∀ fp ∈ idx.inverted_index, ∀ p ∈ fp.2, 0 ≤ p.2.1) →
      (∀ fp ∈ idx.inverted_index, (fp.2.map (fun p => p.1)).Nodup) →
      0 ≤ (dget acc d).getD 0 →
      0 ≤ (dget (candGen theta ex l idx acc).1 d).getD 0 ∧
        (dget (candGen theta ex l idx acc).1 d).getD 0 ≤
          (dget acc d).getD 0 +
            (l.map (fun a => a.1.2 * valAtL idx.inverted_index a.1.1 d)).sum := by
  intro l
  induction l with
  | nil =>
    intro idx acc d _ _ _ hacc
    rw [candGen]
    exact ⟨hacc, by simp⟩
  | cons hd rest ih =>
    intro idx acc d hqnn hinn hifnd hacc
    obtain ⟨⟨f, qv⟩, rs4⟩ := hd
    have hqv : 0 ≤ qv := by simpa using hqnn ((f, qv), rs4) (List.mem_cons_self _ _)
    have hrest_q : ∀ a ∈ rest, 0 ≤ a.1.2 := fun a ha => hqnn a (List.mem_cons_of_mem _ ha)
    have hterms : 0 ≤ ((((f, qv), rs4) :: rest).map
        (fun a => a.1.2 * valAtL idx.inverted_index a.1.1 d)).sum := by
      apply List.sum_nonneg
      intro x hx
      obtain ⟨a, ha, rfl⟩ := List.mem_map.mp hx
      exact mul_nonneg (hqnn a ha) (valAtL_nonneg _ _ _ hinn)
    rw [candGen]
    split
    · exact ⟨hacc, by nlinarith⟩
    · split
      · rename_i hmem
        have hval : valAtL idx.inverted_index f d = 0 := by
          unfold valAtL
          rcases hg : dget idx.inverted_index f with _ | ps
          · rfl
          · exfalso
            apply hmem
            rw [← dget_isSome_iff_dmem, hg]
            simp
        obtain ⟨h1, h2⟩ := ih idx acc d hrest_q hinn hifnd hacc
        refine ⟨h1, ?_⟩
        rw [List.map_cons, List.sum_cons, hval]
        nlinarith
      · rename_i hmem
        obtain ⟨ps, hget, heq⟩ := ddGetPostings_spec idx f (by simpa using hmem)
        rw [heq]
        have hpair := dget_mem _ _ _ hget
        have hs := scan_value_bound theta rs4 qv ex ps acc d
          (hifnd (f, ps) hpair) (fun p hp => hinn (f, ps) hpair p hp) hqv hacc
        obtain ⟨h1, h2⟩ := ih idx (scanPostings theta rs4 qv ex ps acc) d hrest_q hinn hifnd hs.1
        refine ⟨h1, ?_⟩
        have hval : valAtL idx.inverted_index f d = psVal ps d := by
          unfold valAtL
          rw [hget]
        rw [List.map_cons, List.sum_cons, hval]
        nlinarith [hs.2]

theorem psValSq_le_filter_sum (ps : List Posting) (d : String) :
    psVal ps d * psVal ps d ≤
      ((ps.filter (fun p => p.1 == d)).map (fun p => p.2.1 * p.2.1)).sum := by
  unfold psVal
  rcases hf : ps.find? (fun p => p.1 == d) with _ | p
  · rw [hf]
    simp only [Option.map_none', Option.getD_none, mul_zero]
    apply List.sum_nonneg
    intro x hx
    obtain ⟨q, _, rfl⟩ := List.mem_map.mp hx
    exact mul_self_nonneg _
  · rw [hf]
    simp only [Option.map_some', Option.getD_some]
    have hps := List.find?_some hf
    have hmem : p ∈ ps.filter (fun p => p.1 == d) :=
      List.mem_filter.mpr ⟨List.mem_of_find?_eq_some hf, hps⟩
    have hval : p.2.1 * p.2.1 ∈ (ps.filter (fun p => p.1 == d)).map (fun p => p.2.1 * p.2.1) :=
      List.mem_map.mpr ⟨p, hmem, rfl⟩
    apply List.single_le_sum _ _ hval
    intro x hx
    obtain ⟨q, _, rfl⟩ := List.mem_map.mp hx
    exact mul_self_nonneg _

theorem valAtL_erase_ne (f d f' : String) (hne : f' ≠ f) :
    ∀ ii : List (String × List Posting),
      valAtL (eraseDocInFeature ii f d) f' d = valAtL ii f' d := by
  intro ii
  induction ii with
  | nil => rfl
  | cons e rest ih =>
    obtain ⟨e1, e2⟩ := e
    rw [eraseDocInFeature]
    by_cases he : (e1 == f) = true
    · rw [if_pos he]
      have he1 : e1 = f := beq_iff_eq.mp he
      have hne1 : ¬ (e1 == f') = true := by
        simpa using fun hc => hne (by rw [← hc, he1])
      unfold valAtL dget
      rw [List.find?_cons_of_neg (a := (e1, e2.filter (fun p => ¬ p.1 == d))) _ hne1,
        List.find?_cons_of_neg (a := (e1, e2)) _ hne1]
    · rw [if_neg he]
      by_cases he' : (e1 == f') = true
      · unfold valAtL dget
        rw [List.find?_cons_of_pos (a := (e1, e2)) _ he',
          List.find?_cons_of_pos (a := (e1, e2)) _ he']
      · unfold valAtL dget
        rw [List.find?_cons_of_neg (a := (e1, e2)) _ he',
          List.find?_cons_of_neg (a := (e1, e2)) _ he']
        exact ih

theorem docSumSqL_nonneg (ii : List (String × List Posting)) (d : String) :
    0 ≤ docSumSqL ii d := by
  apply List.sum_nonneg
  intro x hx
  obtain ⟨fp, _, rfl⟩ := List.mem_map.mp hx
  apply List.sum_nonneg
  intro y hy
  obtain ⟨q, _, rfl⟩ := List.mem_map.mp hy
  exact mul_self_nonneg _

theorem docSumSqL_erase (f d : String) :
    ∀ ii : List (String × List Posting),
      docSumSqL (eraseDocInFeature ii f d) d + valAtL ii f d * valAtL ii f d ≤
        docSumSqL ii d := by
  intro ii
  induction ii with
  | nil =>
    have h0 : valAtL [] f d = 0 := rfl
    rw [h0]
    simp [docSumSqL, eraseDocInFeature]
  | cons e rest ih =>
    obtain ⟨e1, e2⟩ := e
    rw [eraseDocInFeature]
    by_cases he : (e1 == f) = true
    · rw [if_pos he]
      have hval : valAtL ((e1, e2) :: rest) f d = psVal e2 d := by
        unfold valAtL dget
        rw [List.find?_cons_of_pos (a := (e1, e2)) _ he]
        rfl
      rw [hval]
      have hzero : ((e2.filter (fun p => ¬ p.1 == d)).filter (fun p => p.1 == d)) = [] := by
        apply List.filter_eq_nil_iff.mpr
        intro p hp
        have h2 := (List.mem_filter.mp hp).2
        simpa using of_decide_eq_true h2
      unfold docSumSqL
      rw [List.map_cons, List.sum_cons, List.map_cons, List.sum_cons]
      dsimp only
      rw [hzero]
      have hterm := psValSq_le_filter_sum e2 d
      simp only [List.map_nil, List.sum_nil, zero_add]
      linarith
    · rw [if_neg he]
      have hval : valAtL ((e1, e2) :: rest) f d = valAtL rest f d := by
        unfold valAtL dget
        rw [List.find?_cons_of_neg (a := (e1, e2)) _ he]
      rw [hval]
      unfold docSumSqL
      rw [List.map_cons, List.sum_cons, List.map_cons, List.sum_cons]
      have ih' := ih
      unfold docSumSqL at ih'
      linarith

theorem sum_valAtSq_le (d : String) :
    ∀ (q : List (String × ℚ)) (ii : List (String × List Posting)),
      (q.map (·.1)).Nodup →
      ((q.map (fun fv => valAtL ii fv.1 d * valAtL ii fv.1 d)).sum ≤ docSumSqL ii d) := by
  intro q
  induction q with
  | nil =>
    intro ii _
    simpa using docSumSqL_nonneg ii d
  | cons fv q ih =>
    intro ii hnd
    rw [List.map_cons, List.nodup_cons] at hnd
    rw [List.map_cons, List.sum_cons]
    have hcongr : (q.map (fun fw => valAtL ii fw.1 d * valAtL ii fw.1 d)).sum =
        (q.map (fun fw => valAtL (eraseDocInFeature ii fv.1 d) fw.1 d *
          valAtL (eraseDocInFeature ii fv.1 d) fw.1 d)).sum := by
      congr 1
      apply List.map_congr_left
      intro fw hfw
      have hne : fw.1 ≠ fv.1 := by
        intro hc
        exact hnd.1 (List.mem_map.mpr ⟨fw, hfw, hc⟩)
      rw [valAtL_erase_ne fv.1 d fw.1 hne ii]
    rw [hcongr]
    have h1 := ih (eraseDocInFeature ii fv.1 d) hnd.2
    have h2 := docSumSqL_erase fv.1 d ii
    linarith

theorem list_cauchy_schwarz :
    ∀ l : List (ℚ × ℚ), (∀ p ∈ l, 0 ≤ p.1 ∧ 0 ≤ p.2) →
      ((l.map (fun p => p.1 * p.2)).sum) * ((l.map (fun p => p.1 * p.2)).sum) ≤
        (l.map (fun p => p.1 * p.1)).sum * (l.map (fun p => p.2 * p.2)).sum := by
  intro l
  induction l with
  | nil => intro _; simp
  | cons p rest ih =>
    intro hnn
    have hp := hnn p (List.mem_cons_self _ _)
    have hrest := fun q hq => hnn q (List.mem_cons_of_mem _ hq)
    have ih' := ih hrest
    have hA : 0 ≤ (rest.map (fun p => p.1 * p.1)).sum := by
      apply List.sum_nonneg
      intro x hx
      obtain ⟨q, _, rfl⟩ := List.mem_map.mp hx
      exact mul_self_nonneg _
    have hB : 0 ≤ (rest.map (fun p => p.2 * p.2)).sum := by
      apply List.sum_nonneg
      intro x hx
      obtain ⟨q, _, rfl⟩ := List.mem_map.mp hx
      exact mul_self_nonneg _
    have hs : 0 ≤ (rest.map (fun p => p.1 * p.2)).sum := by
      apply List.sum_nonneg
      intro x hx
      obtain ⟨q, hq, rfl⟩ := List.mem_map.mp hx
      exact mul_nonneg (hrest q hq).1 (hrest q hq).2
    simp only [List.map_cons, List.sum_cons]
    rcases eq_or_lt_of_le hA with hA0 | hApos
    · have hS0 : (rest.map (fun p => p.1 * p.2)).sum = 0 := by nlinarith [ih']
      rw [← hA0, hS0]
      nlinarith [mul_nonneg (mul_nonneg hp.1 hp.1) hB]
    · nlinarith [ih', sq_nonneg (p.1 * (rest.map (fun p => p.1 * p.2)).sum -
        (rest.map (fun p => p.1 * p.1)).sum * p.2),
        sq_nonneg p.1, hApos, hB, mul_nonneg hp.1 hp.2, hs]

/-- Under unit-normalized non-negative vectors, the brute-force dot product of
the query against any document lies in `[0, 1]`. -/
theorem bruteSim_bounds (idx : L2APIndex) (q : List (String × ℚ)) (d : String)
    (hqnn : ∀ fv ∈ q, 0 ≤ fv.2) (hqn : sumSq q = 1) (hqnd : (q.map (·.1)).Nodup)
    (hinn : ∀ fp ∈ idx.inverted_index, ∀ p ∈ fp.2, 0 ≤ p.2.1)
    (hiunit : docSumSq idx d ≤ 1) :
    0 ≤ bruteSim idx q d ∧ bruteSim idx q d ≤ 1 := by
  have hbnn : 0 ≤ bruteSim idx q d := by
    apply List.sum_nonneg
    intro x hx
    obtain ⟨fv, hfv, rfl⟩ := List.mem_map.mp hx
    exact mul_nonneg (hqnn fv hfv) (valAtL_nonneg _ _ _ hinn)
  refine ⟨hbnn, ?_⟩
  have hcs := list_cauchy_schwarz (q.map (fun fv => (fv.2, valAtL idx.inverted_index fv.1 d)))
    (by
      intro p hp
      obtain ⟨fv, hfv, rfl⟩ := List.mem_map.mp hp
      exact ⟨hqnn fv hfv, valAtL_nonneg _ _ _ hinn⟩)
  rw [List.map_map, List.map_map, List.map_map] at hcs
  have he1 : (q.map ((fun p : ℚ × ℚ => p.1 * p.2) ∘
      fun fv => (fv.2, valAtL idx.inverted_index fv.1 d))).sum = bruteSim idx q d := rfl
  have he2 : (q.map ((fun p : ℚ × ℚ => p.1 * p.1) ∘
      fun fv => (fv.2, valAtL idx.inverted_index fv.1 d))).sum = sumSq q := rfl
  have he3 : (q.map ((fun p : ℚ × ℚ => p.2 * p.2) ∘
      fun fv => (fv.2, valAtL idx.inverted_index fv.1 d))).sum =
      (q.map (fun fv => valAtL idx.inverted_index fv.1 d *
        valAtL idx.inverted_index fv.1 d)).sum := rfl
  rw [he1, he2, he3, hqn, one_mul] at hcs
  have hv := sum_valAtSq_le d q idx.inverted_index hqnd
  have hu : docSumSqL idx.inverted_index d ≤ 1 := hiunit
  nlinarith

/-! ## Heap-distinctness lemmas (for C10) -/

theorem perm_heapPush (x : ℚ × String) :
    ∀ h : List (ℚ × String), List.Perm (heapPush h x) (x :: h) := by
  intro h
  induction h with
  | nil => rfl
  | cons y rest ih =>
    rw [heapPush]
    split
    · rfl
    · exact (List.Perm.cons y ih).trans (List.Perm.swap x y rest)

theorem heapStep_shape (k : Nat) (heap : List (ℚ × String)) (theta s : ℚ) (d : String) :
    (heapStep k heap theta s d).1 = heap ∨
      List.Perm (heapStep k heap theta s d).1 ((s, d) :: heap) ∨
      List.Perm (heapStep k heap theta s d).1 ((s, d) :: heap.tail) := by
  unfold heapStep
  split
  · exact Or.inr (Or.inl (perm_heapPush _ _))
  · split
    · exact Or.inr (Or.inr (perm_heapPush _ _))
    · exact Or.inl rfl

theorem verify_docs_nodup (k : Nat) (ex : List String) (idx : L2APIndex) :
    ∀ (entries : List (String × ℚ)) (heap : List (ℚ × String)) (theta : ℚ),
      (entries.map (·.1)).Nodup → (heap.map (·.2)).Nodup →
      (∀ p ∈ heap, p.2 ∉ entries.map (·.1)) →
      ((verifyPhase k ex idx entries heap theta).1.map (·.2)).Nodup := by
  intro entries
  induction entries with
  | nil => intro heap theta _ hh _; exact hh
  | cons e rest ih =>
    intro heap theta hend hh hdisj
    obtain ⟨doc, dot⟩ := e
    rw [List.map_cons, List.nodup_cons] at hend
    have hdisj' : ∀ p ∈ heap, p.2 ∉ rest.map (·.1) := by
      intro p hp hc
      exact hdisj p hp (List.mem_cons_of_mem _ hc)
    rw [verifyPhase]
    split
    · exact ih heap theta hend.2 hh hdisj'
    · split
      · exact ih heap theta hend.2 hh hdisj'
      · split
        · exact ih heap theta hend.2 hh hdisj'
        · split
          · exact ih heap theta hend.2 hh hdisj'
          · have hdocfresh : ∀ p ∈ heap, p.2 ≠ doc := by
              intro p hp hc
              exact hdisj p hp (by rw [hc]; exact List.mem_cons_self _ _)
            have hmem_sub : ∀ p ∈ (heapStep k heap theta dot doc).1,
                p ∈ heap ∨ p = (dot, doc) := fun p hp => mem_heapStep _ _ _ _ _ p hp
            have hh' : (((heapStep k heap theta dot doc).1).map (·.2)).Nodup := by
              rcases heapStep_shape k heap theta dot doc with hsh | hsh | hsh
              · rw [hsh]; exact hh
              · rw [List.Perm.nodup_iff (List.Perm.map _ hsh)]
                rw [List.map_cons]
                refine List.nodup_cons.mpr ⟨?_, hh⟩
                intro hc
                obtain ⟨p, hp, hpd⟩ := List.mem_map.mp hc
                exact hdocfresh p hp hpd
              · rw [List.Perm.nodup_iff (List.Perm.map _ hsh)]
                rw [List.map_cons]
                have htl : (heap.tail.map (·.2)).Nodup :=
                  hh.sublist ((List.tail_sublist heap).map _)
                refine List.nodup_cons.mpr ⟨?_, htl⟩
                intro hc
                obtain ⟨p, hp, hpd⟩ := List.mem_map.mp hc
                exact hdocfresh p (List.mem_of_mem_tail hp) hpd
            have hdisj'' : ∀ p ∈ (heapStep k heap theta dot doc).1,
                p.2 ∉ rest.map (·.1) := by
              intro p hp
              rcases hmem_sub p hp with hp' | rfl
              · exact hdisj' p hp'
              · exact hend.1
            exact ih _ _ hend.2 hh' hdisj''

theorem queryWalk_sum (sqrt : ℚ → ℚ) (q : List (String × ℚ)) (idx : L2APIndex) (d : String) :
    ((queryWalk sqrt q).map (fun a => a.1.2 * valAtL idx.inverted_index a.1.1 d)).sum =
      bruteSim idx q d := by
  unfold queryWalk
  dsimp only
  have hlen : (L2APIndex.get_ordered_features q).length ≤
      (suffixNormList sqrt (sumSq q) ((L2APIndex.get_ordered_features q).map (·.2))).length := by
    rw [length_suffixNormList, List.length_map]
  have hmap : (((L2APIndex.get_ordered_features q).zip
      (suffixNormList sqrt (sumSq q)
        ((L2APIndex.get_ordered_features q).map (·.2)))).map Prod.fst) =
      L2APIndex.get_ordered_features q := List.map_fst_zip _ _ hlen
  have hcomp : ((L2APIndex.get_ordered_features q).zip
      (suffixNormList sqrt (sumSq q)
        ((L2APIndex.get_ordered_features q).map (·.2)))).map
        (fun a => a.1.2 * valAtL idx.inverted_index a.1.1 d) =
      (L2APIndex.get_ordered_features q).map
        (fun fv => fv.2 * valAtL idx.inverted_index fv.1 d) := by
    rw [show (fun a : (String × ℚ) × ℚ => a.1.2 * valAtL idx.inverted_index a.1.1 d) =
        ((fun fv : String × ℚ => fv.2 * valAtL idx.inverted_index fv.1 d) ∘ Prod.fst) from rfl]
    rw [← List.map_map, hmap]
  rw [hcomp]
  have hperm : List.Perm
      ((L2APIndex.get_ordered_features q).map
        (fun fv => fv.2 * valAtL idx.inverted_index fv.1 d))
      (q.map (fun fv => fv.2 * valAtL idx.inverted_index fv.1 d)) :=
    List.Perm.map _ (List.perm_insertionSort descVal q)
  exact hperm.sum_eq

/-! ## Claim C10: result bounds and distinctness -/

/-- C10.  For an index whose stored vectors are unit-normalized with
non-negative weights (each document's stored squared weights sum to at most 1,
with per-feature posting lists mentioning a document at most once) and a
unit-normalized non-negative query (with distinct features), every similarity
returned by `l2ap_knn` lies in `[0, 1]`, and no document id appears twice in
the returned list. -/
theorem l2ap_knn_bounds (sqrt : ℚ → ℚ) (q : List (String × ℚ)) (idx : L2APIndex)
    (k : Nat) (t : ℚ) (ex : List String)
    (hqnn : ∀ fv ∈ q, 0 ≤ fv.2) (hqn : sumSq q = 1) (hqnd : (q.map (·.1)).Nodup)
    (hinn : ∀ fp ∈ idx.inverted_index, ∀ p ∈ fp.2, 0 ≤ p.2.1)
    (hifnd : ∀ fp ∈ idx.inverted_index, (fp.2.map (fun p => p.1)).Nodup)
    (hiunit : ∀ fp ∈ idx.inverted_index, ∀ p ∈ fp.2, docSumSq idx p.1 ≤ 1) :
    (∀ p ∈ (l2ap_knn sqrt q idx k t ex).1, 0 ≤ p.2 ∧ p.2 ≤ 1) ∧
      ((l2ap_knn sqrt q idx k t ex).1.map (·.1)).Nodup := by
  constructor
  · intro p hp
    obtain ⟨hmem, _, _⟩ := l2ap_knn_result_origin sqrt q idx k t ex p hp
    have hnd : ((l2apCand sqrt q idx t ex).1.map (·.1)).Nodup := by
      rw [l2apCand]
      exact nodup_keys_candGen _ _ _ _ _ (by simp)
    have hdm : dmem (l2apCand sqrt q idx t ex).1 p.1 = true := by
      rw [dmem_iff_mem_keys]
      exact List.mem_map.mpr ⟨(p.1, p.2), hmem, rfl⟩
    rw [l2apCand] at hdm
    have hu : docSumSq idx p.1 ≤ 1 := by
      rcases dmem_candGen _ _ _ _ _ _ hdm with h0 | ⟨fv, _, ps, hps, hdps⟩
      · simp [dmem] at h0
      · obtain ⟨pp, hpp, hpp1⟩ := List.mem_map.mp hdps
        have hfpmem := dget_mem _ _ _ hps
        have hun := hiunit (fv.1, ps) hfpmem pp hpp
        rwa [hpp1] at hun
    have hget := dget_eq_some_of_mem_nodup _ _ _ hnd hmem
    have hwalknn : ∀ a ∈ queryWalk sqrt q, 0 ≤ a.1.2 := by
      intro a ha
      have h1 := (List.of_mem_zip ha).1
      rw [L2APIndex.get_ordered_features, sortPairsDescVal, List.mem_insertionSort] at h1
      exact hqnn a.1 h1
    have hbound := candGen_value_bound t ex (queryWalk sqrt q) idx [] p.1
      hwalknn hinn hifnd (by rw [show dget ([] : List (String × ℚ)) p.1 = none from rfl]; simp)
    rw [show dget ([] : List (String × ℚ)) p.1 = none from rfl] at hbound
    simp only [Option.getD_none, zero_add] at hbound
    have hcand : (candGen t ex (queryWalk sqrt q) idx []).1 = (l2apCand sqrt q idx t ex).1 := rfl
    rw [hcand, hget] at hbound
    simp only [Option.getD_some] at hbound
    have hsum := queryWalk_sum sqrt q idx p.1
    have hbs := bruteSim_bounds idx q p.1 hqnn hqn hqnd hinn hu
    constructor
    · exact hbound.1
    · calc p.2 ≤ ((queryWalk sqrt q).map
          (fun a => a.1.2 * valAtL idx.inverted_index a.1.1 p.1)).sum := hbound.2
        _ = bruteSim idx q p.1 := hsum
        _ ≤ 1 := hbs.2
  · rw [l2ap_knn]
    split
    · simp
    · dsimp only
      have hperm : List.Perm
          (sortResultsDesc
            ((verifyPhase k ex (l2apCand sqrt q idx t ex).2 (l2apCand sqrt q idx t ex).1 [] t).1.map
              (fun p => (p.2, p.1))))
          ((verifyPhase k ex (l2apCand sqrt q idx t ex).2 (l2apCand sqrt q idx t ex).1 [] t).1.map
            (fun p => (p.2, p.1))) := List.perm_insertionSort descVal _
      rw [List.Perm.nodup_iff (List.Perm.map _ hperm)]
      rw [List.map_map]
      have hnd : (((l2apCand sqrt q idx t ex).1).map (·.1)).Nodup := by
        rw [l2apCand]
        exact nodup_keys_candGen _ _ _ _ _ (by simp)
      have hv := verify_docs_nodup k ex (l2apCand sqrt q idx t ex).2
        (l2apCand sqrt q idx t ex).1 [] t hnd (by simp) (by simp)
      exact hv

/-- Witness for C10 on a concretely built index (profiles produce
unit-normalized non-negative vectors) and a unit query. -/
theorem l2ap_knn_bounds_witness :
    (∀ p ∈ (l2ap_knn ratSqrt [("a", (3:ℚ)/5), ("b", 4/5)]
        (L2APIndex.build_index ratSqrt [("D", ["a"]), ("E", ["a", "b", "c", "d"])])
        2 0 []).1, 0 ≤ p.2 ∧ p.2 ≤ 1) ∧
      ((l2ap_knn ratSqrt [("a", (3:ℚ)/5), ("b", 4/5)]
        (L2APIndex.build_index ratSqrt [("D", ["a"]), ("E", ["a", "b", "c", "d"])])
        2 0 []).1.map (·.1)).Nodup := by
  apply l2ap_knn_bounds
  · with_unfolding_all decide
  · with_unfolding_all decide
  · with_unfolding_all decide
  · with_unfolding_all decide
  · with_unfolding_all decide
  · with_unfolding_all decide

/-! ## Claim C1: L2AP versus brute force -/

/-- Counterexample to C1 as stated: on an index holding documents `A` (tag
`x`) and `B` (tag `y`) and the unit query for tag `x` with `k = 2` and
`minSimilarity = 0`, `l2ap_knn` returns only `[("A", 1)]` while the
brute-force ranking over every indexed document returns
`[("A", 1), ("B", 0)]`: a document sharing no feature with the query never
becomes a candidate, so zero-similarity documents are missing from the
output. -/
theorem l2ap_vs_bruteforce_counterexample :
    (l2ap_knn ratSqrt (normalize_interests ratSqrt ["x"])
        (L2APIndex.build_index ratSqrt [("A", ["x"]), ("B", ["y"])]) 2 0 []).1 ≠
      bruteForceRanking (L2APIndex.build_index ratSqrt [("A", ["x"]), ("B", ["y"])])
        (normalize_interests ratSqrt ["x"]) 2 := by
  with_unfolding_all decide

theorem normalize_vals_nonneg (sqrt : ℚ → ℚ) (l : List String) :
    ∀ fv ∈ normalize_interests sqrt l, 0 ≤ fv.2 := by
  intro fv hfv
  simp only [normalize_interests] at hfv
  split at hfv
  · cases hfv
  · split at hfv
    · cases hfv
    · split at hfv
      · rename_i hpos
        obtain ⟨p, hp, rfl⟩ := List.mem_map.mp hfv
        obtain ⟨t, _, rfl⟩ := List.mem_map.mp hp
        exact le_of_lt (div_pos one_pos hpos)
      · obtain ⟨t, _, rfl⟩ := List.mem_map.mp hfv
        exact zero_le_one

theorem tagged_scaled_keys (u : List String) (N : ℚ) :
    ((u.map (fun t => (t, (1:ℚ)))).map (fun p => (p.1, p.2 / N))).map (fun p => p.1) = u := by
  induction u with
  | nil => rfl
  | cons a as ih => simp only [List.map_cons, ih]

theorem tagged_keys (u : List String) :
    (u.map (fun t => (t, (1:ℚ)))).map (fun p => p.1) = u := by
  induction u with
  | nil => rfl
  | cons a as ih => simp only [List.map_cons, ih]

theorem normalize_keys_nodup (sqrt : ℚ → ℚ) (l : List String) :
    ((normalize_interests sqrt l).map (·.1)).Nodup := by
  simp only [normalize_interests]
  split
  · simp
  · split
    · simp
    · split
      · rw [tagged_scaled_keys]
        exact cleanDedup_nodup l
      · rw [tagged_keys]
        exact cleanDedup_nodup l

theorem profile_vector_vals_nonneg (sqrt : ℚ → ℚ) (l : List String) :
    ∀ fv ∈ get_profile_vector sqrt l, 0 ≤ fv.2 := by
  intro fv hfv
  rw [get_profile_vector] at hfv
  split at hfv
  · cases hfv
  · exact normalize_vals_nonneg sqrt l fv hfv

theorem profile_vector_keys_nodup (sqrt : ℚ → ℚ) (l : List String) :
    ((get_profile_vector sqrt l).map (·.1)).Nodup := by
  rw [get_profile_vector]
  split
  · simp
  · exact normalize_keys_nodup sqrt l

theorem mem_prefixNormList (sqrt : ℚ → ℚ) :
    ∀ (a : ℚ) (l : List ℚ) (x : ℚ), x ∈ prefixNormList sqrt a l → ∃ y, x = sqrt y := by
  intro a l
  induction l generalizing a with
  | nil => intro x hx; cases hx
  | cons v rest ih =>
    intro x hx
    simp only [prefixNormList] at hx
    rcases List.mem_cons.mp hx with rfl | hx'
    · exact ⟨a + v * v, rfl⟩
    · exact ih _ x hx'

theorem mem_suffixNormList (sqrt : ℚ → ℚ) :
    ∀ (a : ℚ) (l : List ℚ) (x : ℚ), x ∈ suffixNormList sqrt a l → ∃ y, x = sqrt y := by
  intro a l
  induction l generalizing a with
  | nil => intro x hx; cases hx
  | cons v rest ih =>
    intro x hx
    rw [suffixNormList] at hx
    rcases List.mem_cons.mp hx with rfl | hx'
    · exact ⟨a, rfl⟩
    · exact ih _ x hx'

theorem le_foldl_max : ∀ (l : List ℚ) (a : ℚ), a ≤ l.foldl max a := by
  intro l
  induction l with
  | nil => intro a; exact le_refl a
  | cons x xs ih => intro a; exact le_trans (le_max_left a x) (ih (max a x))

theorem pscoreOf_nonneg (vals pnorms : List ℚ) : 0 ≤ pscoreOf vals pnorms :=
  le_foldl_max _ 0

theorem mem_setAdd (ids : List String) (d x : String) :
    x ∈ setAdd ids d ↔ x ∈ ids ∨ x = d := by
  unfold setAdd
  split
  · rename_i h
    constructor
    · exact Or.inl
    · rintro (h1 | rfl)
      · exact h1
      · exact h
  · simp

theorem nodup_setAdd (ids : List String) (d : String) (h : ids.Nodup) :
    (setAdd ids d).Nodup := by
  unfold setAdd
  split
  · exact h
  · rename_i hd
    simp [List.nodup_append, h, hd]

theorem postings_pred_ddAppend {Q : Posting → Prop} (ii : List (String × List Posting))
    (f : String) (p : Posting)
    (hii : ∀ fp ∈ ii, ∀ q ∈ fp.2, Q q) (hp : Q p) :
    ∀ fp ∈ ddAppendPosting ii f p, ∀ q ∈ fp.2, Q q := by
  intro fp hfp q hq
  rw [ddAppendPosting] at hfp
  rcases hg : dget ii f with _ | l
  · rw [hg] at hfp
    rcases List.mem_append.mp hfp with h1 | h2
    · exact hii fp h1 q hq
    · rw [List.mem_singleton.mp h2] at hq
      rw [List.mem_singleton.mp hq]
      exact hp
  · rw [hg] at hfp
    rcases mem_dset _ _ _ _ hfp with h1 | h1
    · exact hii fp h1 q hq
    · rw [h1] at hq
      rcases List.mem_append.mp hq with h2 | h3
      · exact hii (f, l) (dget_mem _ _ _ hg) q h2
      · rw [List.mem_singleton.mp h3]
        exact hp

theorem postings_pred_fold {Q : Posting → Prop} (doc_id : String) :
    ∀ (L : List ((String × ℚ) × ℚ)) (ii : List (String × List Posting)),
      (∀ fp ∈ ii, ∀ q ∈ fp.2, Q q) →
      (∀ a ∈ L, Q (doc_id, a.1.2, a.2)) →
      ∀ fp ∈ L.foldl (fun ii0 a => ddAppendPosting ii0 a.1.1 (doc_id, a.1.2, a.2)) ii,
        ∀ q ∈ fp.2, Q q := by
  intro L
  induction L with
  | nil => intro ii hii _; exact hii
  | cons a rest ih =>
    intro ii hii hL
    rw [List.foldl_cons]
    exact ih _ (postings_pred_ddAppend _ _ _ hii (hL a (List.mem_cons_self _ _)))
      (fun b hb => hL b (List.mem_cons_of_mem _ hb))

theorem postings_pred_add_document {Q : Posting → Prop} (sqrt : ℚ → ℚ) (idx : L2APIndex)
    (doc_id : String) (vector : List (String × ℚ))
    (hii : ∀ fp ∈ idx.inverted_index, ∀ q ∈ fp.2, Q q)
    (hnew : ∀ (v pn : ℚ), (∃ fv ∈ vector, fv.2 = v) → (∃ y, pn = sqrt y) →
      Q (doc_id, v, pn)) :
    ∀ fp ∈ (idx.add_document sqrt doc_id vector).inverted_index, ∀ q ∈ fp.2, Q q := by
  rw [L2APIndex.add_document]
  split
  · exact hii
  · dsimp only
    split
    · exact hii
    · dsimp only
      apply postings_pred_fold doc_id _ _ hii
      intro a ha
      obtain ⟨a1, a2⟩ := a
      have hz := List.of_mem_zip ha
      have h1 : a1 ∈ sortPairsDescVal vector := hz.1
      have h2 : ∃ y, a2 = sqrt y := mem_prefixNormList sqrt _ _ _ hz.2
      rw [sortPairsDescVal, List.mem_insertionSort] at h1
      exact hnew a1.2 a2 ⟨a1, h1, rfl⟩ h2

theorem buildFold_cons (sqrt : ℚ → ℚ) (p : String × List String)
    (rest : List (String × List String)) (idx : L2APIndex) :
    buildFold sqrt (p :: rest) idx =
      buildFold sqrt rest
        (if get_profile_vector sqrt p.2 = [] then idx
         else idx.add_document sqrt p.1 (get_profile_vector sqrt p.2)) := rfl

theorem build_postings_nonneg (sqrt : ℚ → ℚ) (profiles : List (String × List String))
    (hsq : ∀ x, 0 ≤ sqrt x) :
    ∀ fp ∈ (L2APIndex.build_index sqrt profiles).inverted_index, ∀ p ∈ fp.2,
      0 ≤ p.2.1 ∧ 0 ≤ p.2.2 := by
  have hfold : ∀ (ps : List (String × List String)) (idx : L2APIndex),
      (∀ fp ∈ idx.inverted_index, ∀ q ∈ fp.2, 0 ≤ q.2.1 ∧ 0 ≤ q.2.2) →
      ∀ fp ∈ (buildFold sqrt ps idx).inverted_index, ∀ q ∈ fp.2,
        0 ≤ q.2.1 ∧ 0 ≤ q.2.2 := by
    intro ps
    induction ps with
    | nil => intro idx h; exact h
    | cons p rest ih =>
      intro idx h
      rw [buildFold_cons]
      apply ih
      split
      · exact h
      · apply postings_pred_add_document sqrt idx p.1 _ h
        rintro v pn ⟨fv, hfv, rfl⟩ ⟨y, rfl⟩
        exact ⟨profile_vector_vals_nonneg sqrt p.2 fv hfv, hsq y⟩
  intro fp hfp p hp
  have hii : (L2APIndex.build_index sqrt profiles).inverted_index =
      (buildFold sqrt profiles L2APIndex.empty).inverted_index.map
        (fun fp => (fp.1, sortPostingsDescVal fp.2)) := rfl
  rw [hii] at hfp
  obtain ⟨fq, hfq, hfqe⟩ := List.mem_map.mp hfp
  have hp' : p ∈ fq.2 := by
    rw [← hfqe] at hp
    dsimp only at hp
    rw [sortPostingsDescVal, List.mem_insertionSort] at hp
    exact hp
  exact hfold profiles L2APIndex.empty
    (fun fp hfp => absurd hfp (List.not_mem_nil fp)) fq hfq p hp'

theorem ddAppend_fold_docs_nodup (doc_id : String) :
    ∀ (L : List ((String × ℚ) × ℚ)) (ii : List (String × List Posting)),
      (L.map (fun a => a.1.1)).Nodup →
      (∀ fp ∈ ii, (fp.2.map (fun p => p.1)).Nodup) →
      (∀ fp ∈ ii, fp.1 ∈ L.map (fun a => a.1.1) → doc_id ∉ fp.2.map (fun p => p.1)) →
      ∀ fp ∈ L.foldl (fun ii0 a => ddAppendPosting ii0 a.1.1 (doc_id, a.1.2, a.2)) ii,
        (fp.2.map (fun p => p.1)).Nodup := by
  intro L
  induction L with
  | nil => intro ii _ hnd _; exact hnd
  | cons a rest ih =>
    intro ii hLnd hnd hfresh
    rw [List.foldl_cons]
    rw [List.map_cons, List.nodup_cons] at hLnd
    have hnd' : ∀ fp ∈ ddAppendPosting ii a.1.1 (doc_id, a.1.2, a.2),
        (fp.2.map (fun p => p.1)).Nodup := by
      intro fp hfp
      rw [ddAppendPosting] at hfp
      rcases hg : dget ii a.1.1 with _ | l
      · rw [hg] at hfp
        rcases List.mem_append.mp hfp with h1 | h2
        · exact hnd fp h1
        · rw [List.mem_singleton.mp h2]
          simp
      · rw [hg] at hfp
        rcases mem_dset _ _ _ _ hfp with h1 | h1
        · exact hnd fp h1
        · rw [h1]
          dsimp only
          rw [List.map_append]
          have hl : (l.map (fun p => p.1)).Nodup := hnd (a.1.1, l) (dget_mem _ _ _ hg)
          have hni : doc_id ∉ l.map (fun p => p.1) :=
            hfresh (a.1.1, l) (dget_mem _ _ _ hg)
              (List.mem_map.mpr ⟨a, List.mem_cons_self _ _, rfl⟩)
          simp [List.nodup_append, hl, hni]
    have hfresh' : ∀ fp ∈ ddAppendPosting ii a.1.1 (doc_id, a.1.2, a.2),
        fp.1 ∈ rest.map (fun b => b.1.1) → doc_id ∉ fp.2.map (fun p => p.1) := by
      intro fp hfp hmem
      have hne : fp.1 ≠ a.1.1 := by
        intro hc
        exact hLnd.1 (by rw [← hc]; exact hmem)
      have h1 : fp ∈ ii := mem_ddAppend_of_ne ii a.1.1 _ fp hfp hne
      exact hfresh fp h1 (List.mem_cons_of_mem _ hmem)
    exact ih _ hLnd.2 hnd' hfresh'

theorem buildFold_invariants (sqrt : ℚ → ℚ) :
    ∀ (ps : List (String × List String)) (idx : L2APIndex),
      (ps.map (·.1)).Nodup →
      (∀ x ∈ ps.map (·.1), x ∉ idx.doc_ids) →
      (∀ fp ∈ idx.inverted_index, ∀ p ∈ fp.2, p.1 ∈ idx.doc_ids) →
      idx.doc_ids.Nodup →
      (∀ fp ∈ idx.inverted_index, (fp.2.map (fun p => p.1)).Nodup) →
      (∀ e ∈ idx.doc_metadata, 0 ≤ e.2.1) →
      (∀ fp ∈ (buildFold sqrt ps idx).inverted_index, ∀ p ∈ fp.2,
          p.1 ∈ (buildFold sqrt ps idx).doc_ids) ∧
        (buildFold sqrt ps idx).doc_ids.Nodup ∧
        (∀ fp ∈ (buildFold sqrt ps idx).inverted_index,
          (fp.2.map (fun p => p.1)).Nodup) ∧
        (∀ e ∈ (buildFold sqrt ps idx).doc_metadata, 0 ≤ e.2.1) := by
  intro ps
  induction ps with
  | nil => intro idx _ _ h1 h2 h3 h4; exact ⟨h1, h2, h3, h4⟩
  | cons p rest ih =>
    intro idx hknd hdisj h1 h2 h3 h4
    rw [List.map_cons, List.nodup_cons] at hknd
    rw [buildFold_cons]
    by_cases hv : get_profile_vector sqrt p.2 = []
    · rw [if_pos hv]
      exact ih idx hknd.2 (fun x hx => hdisj x (List.mem_cons_of_mem _ hx)) h1 h2 h3 h4
    · rw [if_neg hv]
      by_cases hn : sqrt (sumSq (get_profile_vector sqrt p.2)) = 0
      · have hadd : idx.add_document sqrt p.1 (get_profile_vector sqrt p.2) = idx := by
          rw [L2APIndex.add_document, if_neg hv]
          dsimp only
          rw [if_pos hn]
        rw [hadd]
        exact ih idx hknd.2 (fun x hx => hdisj x (List.mem_cons_of_mem _ hx)) h1 h2 h3 h4
      · have hadd : idx.add_document sqrt p.1 (get_profile_vector sqrt p.2) =
            { inverted_index :=
                (((sortPairsDescVal (get_profile_vector sqrt p.2)).zip
                  (prefixNormList sqrt 0
                    ((sortPairsDescVal (get_profile_vector sqrt p.2)).map (·.2)))).foldl
                  (fun ii fp => ddAppendPosting ii fp.1.1 (p.1, fp.1.2, fp.2))
                  idx.inverted_index)
              doc_metadata := dset idx.doc_metadata p.1
                (pscoreOf ((sortPairsDescVal (get_profile_vector sqrt p.2)).map (·.2))
                  (prefixNormList sqrt 0
                    ((sortPairsDescVal (get_profile_vector sqrt p.2)).map (·.2))),
                 ((get_profile_vector sqrt p.2).map (·.2)).foldl max
                   (((get_profile_vector sqrt p.2).map (·.2)).headI),
                 sqrt (sumSq (get_profile_vector sqrt p.2)))
              feature_freq := ((sortPairsDescVal (get_profile_vector sqrt p.2)).foldl
                (fun ff fv => ddBumpFreq ff fv.1) idx.feature_freq)
              doc_ids := setAdd idx.doc_ids p.1 } := by
          rw [L2APIndex.add_document, if_neg hv]
          dsimp only
          rw [if_neg hn]
        rw [hadd]
        have hpm : p.1 ∈ (p :: rest).map (·.1) :=
          List.mem_map.mpr ⟨p, List.mem_cons_self _ _, rfl⟩
        have hfeats : (((sortPairsDescVal (get_profile_vector sqrt p.2)).zip
            (prefixNormList sqrt 0
              ((sortPairsDescVal (get_profile_vector sqrt p.2)).map (·.2)))).map
            (fun a => a.1.1)).Nodup := by
          rw [show (fun a : (String × ℚ) × ℚ => a.1.1) =
              ((fun fv : String × ℚ => fv.1) ∘ Prod.fst) from rfl]
          rw [← List.map_map]
          rw [List.map_fst_zip _ _ (by
            rw [length_prefixNormList, List.length_map])]
          have hperm : List.Perm
              ((sortPairsDescVal (get_profile_vector sqrt p.2)).map (fun fv => fv.1))
              ((get_profile_vector sqrt p.2).map (fun fv => fv.1)) :=
            List.Perm.map _ (List.perm_insertionSort descVal _)
          rw [List.Perm.nodup_iff hperm]
          exact profile_vector_keys_nodup sqrt p.2
        refine ih _ hknd.2 ?_ ?_ ?_ ?_ ?_
        · intro x hx
          rw [mem_setAdd]
          rintro (hc | rfl)
          · exact hdisj x (List.mem_cons_of_mem _ hx) hc
          · exact hknd.1 hx
        · intro fp hfp q hq
          exact postings_pred_fold (Q := fun q0 => q0.1 ∈ setAdd idx.doc_ids p.1) p.1 _
            idx.inverted_index
            (fun fp0 hfp0 q0 hq0 => (mem_setAdd _ _ _).mpr (Or.inl (h1 fp0 hfp0 q0 hq0)))
            (fun a _ => (mem_setAdd _ _ _).mpr (Or.inr rfl)) fp hfp q hq
        · exact nodup_setAdd _ _ h2
        · intro fp hfp
          refine ddAppend_fold_docs_nodup p.1 _ idx.inverted_index hfeats h3
            (fun fp0 hfp0 _ hc => ?_) fp hfp
          obtain ⟨q0, hq0, hq0e⟩ := List.mem_map.mp hc
          have hin : p.1 ∈ idx.doc_ids := by
            rw [← hq0e]
            exact h1 fp0 hfp0 q0 hq0
          exact hdisj p.1 hpm hin
        · intro e he
          rcases mem_dset _ _ _ _ he with h5 | h5
          · exact h4 e h5
          · rw [h5]
            exact pscoreOf_nonneg _ _

theorem build_index_struct (sqrt : ℚ → ℚ) (profiles : List (String × List String))
    (hnd : (profiles.map (·.1)).Nodup) :
    (∀ fp ∈ (L2APIndex.build_index sqrt profiles).inverted_index, ∀ p ∈ fp.2,
        p.1 ∈ (L2APIndex.build_index sqrt profiles).doc_ids) ∧
      (L2APIndex.build_index sqrt profiles).doc_ids.Nodup ∧
      (∀ fp ∈ (L2APIndex.build_index sqrt profiles).inverted_index,
        (fp.2.map (fun p => p.1)).Nodup) ∧
      (∀ e ∈ (L2APIndex.build_index sqrt profiles).doc_metadata, 0 ≤ e.2.1) := by
  obtain ⟨h1, h2, h3, h4⟩ := buildFold_invariants sqrt profiles L2APIndex.empty hnd
    (fun x _ => List.not_mem_nil x)
    (fun fp hfp => absurd hfp (List.not_mem_nil fp))
    List.nodup_nil
    (fun fp hfp => absurd hfp (List.not_mem_nil fp))
    (fun e he => absurd he (List.not_mem_nil e))
  have hii : (L2APIndex.build_index sqrt profiles).inverted_index =
      (buildFold sqrt profiles L2APIndex.empty).inverted_index.map
        (fun fp => (fp.1, sortPostingsDescVal fp.2)) := rfl
  have hids : (L2APIndex.build_index sqrt profiles).doc_ids =
      (buildFold sqrt profiles L2APIndex.empty).doc_ids := rfl
  have hmd : (L2APIndex.build_index sqrt profiles).doc_metadata =
      (buildFold sqrt profiles L2APIndex.empty).doc_metadata := rfl
  refine ⟨?_, ?_, ?_, ?_⟩
  · intro fp hfp q hq
    rw [hii] at hfp
    obtain ⟨fq, hfq, hfqe⟩ := List.mem_map.mp hfp
    rw [hids]
    have hq' : q ∈ fq.2 := by
      rw [← hfqe] at hq
      dsimp only at hq
      rw [sortPostingsDescVal, List.mem_insertionSort] at hq
      exact hq
    exact h1 fq hfq q hq'
  · rw [hids]
    exact h2
  · intro fp hfp
    rw [hii] at hfp
    obtain ⟨fq, hfq, hfqe⟩ := List.mem_map.mp hfp
    rw [← hfqe]
    dsimp only
    have hperm : List.Perm ((sortPostingsDescVal fq.2).map (fun p => p.1))
        (fq.2.map (fun p => p.1)) :=
      List.Perm.map _ (List.perm_insertionSort descPostVal fq.2)
    rw [List.Perm.nodup_iff hperm]
    exact h3 fq hfq
  · rw [hmd]
    exact h4

/-! ## C1: exact accumulation when `theta = 0` and everything is non-negative -/

theorem getD_nonneg_of_all (acc : List (String × ℚ)) (x : String)
    (h : ∀ (y : String) (v : ℚ), dget acc y = some v → 0 ≤ v) :
    0 ≤ (dget acc x).getD 0 := by
  rcases hg : dget acc x with _ | v
  · simp
  · simpa using h x v hg

theorem scan_exact (rs4 qv : ℚ) :
    ∀ (ps : List Posting) (acc : List (String × ℚ)),
      (ps.map (fun p => p.1)).Nodup →
      (∀ p ∈ ps, 0 ≤ p.2.1 ∧ 0 ≤ p.2.2) →
      0 ≤ qv → 0 ≤ rs4 →
      (∀ (y : String) (v : ℚ), dget acc y = some v → 0 ≤ v) →
      (∀ (y : String) (v : ℚ), dget (scanPostings 0 rs4 qv [] ps acc) y = some v → 0 ≤ v) ∧
        ∀ x : String,
          dget (scanPostings 0 rs4 qv [] ps acc) x =
            if x ∈ ps.map (fun p => p.1)
            then some ((dget acc x).getD 0 + qv * psVal ps x)
            else dget acc x := by
  intro ps
  induction ps with
  | nil =>
    intro acc _ _ _ _ hacc
    rw [scanPostings]
    refine ⟨hacc, fun x => ?_⟩
    rw [if_neg (by simp)]
  | cons p rest ih =>
    intro acc hnd hnn hqv hrs hacc
    obtain ⟨d0, v0, pn0⟩ := p
    rw [List.map_cons, List.nodup_cons] at hnd
    have hv0 : 0 ≤ v0 := (hnn (d0, v0, pn0) (List.mem_cons_self _ _)).1
    have hpn0 : 0 ≤ pn0 := (hnn (d0, v0, pn0) (List.mem_cons_self _ _)).2
    have hrest : ∀ p ∈ rest, 0 ≤ p.2.1 ∧ 0 ≤ p.2.2 :=
      fun p hp => hnn p (List.mem_cons_of_mem _ hp)
    rw [scanPostings]
    rw [if_neg (List.not_mem_nil d0)]
    rw [if_neg (fun hc => absurd hc.2 (not_lt.mpr (mul_nonneg hrs hpn0)))]
    have hstep : accumStep 0 rs4 qv acc d0 v0 pn0 =
        dset acc d0 ((dget acc d0).getD 0 + qv * v0) := by
      rw [accumStep]
      rw [if_neg]
      intro hlt
      have h0 : 0 ≤ (dget acc d0).getD 0 := getD_nonneg_of_all acc d0 hacc
      nlinarith [mul_nonneg hrs hpn0, mul_nonneg hqv hv0]
    rw [hstep]
    have hacc' : ∀ (y : String) (v : ℚ),
        dget (dset acc d0 ((dget acc d0).getD 0 + qv * v0)) y = some v → 0 ≤ v := by
      intro y v hg
      by_cases hy : y = d0
      · subst hy
        rw [dget_dset_self] at hg
        have h0 : 0 ≤ (dget acc y).getD 0 := getD_nonneg_of_all acc y hacc
        cases hg
        exact add_nonneg h0 (mul_nonneg hqv hv0)
      · rw [dget_dset_ne _ _ _ _ hy] at hg
        exact hacc y v hg
    obtain ⟨hpos, heq⟩ := ih _ hnd.2 hrest hqv hrs hacc'
    refine ⟨hpos, fun x => ?_⟩
    rw [heq x, List.map_cons]
    by_cases hx : x = d0
    · subst hx
      rw [if_neg hnd.1, if_pos (List.mem_cons_self _ _), dget_dset_self,
        psVal_cons_self]
    · rw [dget_dset_ne _ _ _ _ hx, psVal_cons_ne _ _ _ _ _ hx]
      by_cases hxr : x ∈ rest.map (fun p => p.1)
      · rw [if_pos hxr, if_pos (List.mem_cons_of_mem _ hxr)]
      · rw [if_neg hxr, if_neg (by
          intro hc
          rcases List.mem_cons.mp hc with h5 | h5
          · exact hx h5
          · exact hxr h5)]

theorem bor_true_left {a b : Bool} (h : a = true) : (a || b) = true := by
  rw [h]
  rfl

theorem bor_true_right {a b : Bool} (h : b = true) : (a || b) = true := by
  rw [h]
  simp

theorem docPostedB_true_iff (ii : List (String × List Posting)) (f x : String)
    (ps : List Posting) (hget : dget ii f = some ps) :
    docPostedB ii f x = true ↔ x ∈ ps.map (fun p => p.1) := by
  simp only [docPostedB, hget, List.any_eq_true]
  constructor
  · rintro ⟨p, hp, hpe⟩
    exact List.mem_map.mpr ⟨p, hp, beq_iff_eq.mp hpe⟩
  · intro hx
    obtain ⟨p, hp, hpe⟩ := List.mem_map.mp hx
    exact ⟨p, hp, beq_iff_eq.mpr hpe⟩

theorem docPostedB_false_of_none (ii : List (String × List Posting)) (f x : String)
    (hget : dget ii f = none) : docPostedB ii f x = false := by
  simp only [docPostedB, hget]

theorem candGen_exact :
    ∀ (l : List ((String × ℚ) × ℚ)) (idx : L2APIndex) (acc : List (String × ℚ)),
      (∀ a ∈ l, 0 ≤ a.1.2 ∧ 0 ≤ a.2) →
      (∀ fp ∈ idx.inverted_index, ∀ p ∈ fp.2, 0 ≤ p.2.1 ∧ 0 ≤ p.2.2) →
      (∀ fp ∈ idx.inverted_index, (fp.2.map (fun p => p.1)).Nodup) →
      (∀ (y : String) (v : ℚ), dget acc y = some v → 0 ≤ v) →
      ∀ x : String,
        dget (candGen 0 [] l idx acc).1 x =
          if (dmem acc x || l.any (fun a => docPostedB idx.inverted_index a.1.1 x)) = true
          then some ((dget acc x).getD 0 +
            (l.map (fun a => a.1.2 * valAtL idx.inverted_index a.1.1 x)).sum)
          else none := by
  intro l
  induction l with
  | nil =>
    intro idx acc _ _ _ hacc x
    rw [candGen]
    simp only [List.any_nil, Bool.or_false, List.map_nil, List.sum_nil, add_zero]
    rcases hg : dget acc x with _ | v
    · rw [if_neg (by rw [← dget_isSome_iff_dmem, hg]; simp)]
    · rw [if_pos (by rw [← dget_isSome_iff_dmem, hg]; rfl)]
      rfl
  | cons hd rest ih =>
    intro idx acc hl hinn hifnd hacc x
    obtain ⟨⟨f, qv⟩, rs4⟩ := hd
    have hqv : 0 ≤ qv := (hl _ (List.mem_cons_self _ _)).1
    have hrs : 0 ≤ rs4 := (hl _ (List.mem_cons_self _ _)).2
    have hlrest : ∀ a ∈ rest, 0 ≤ a.1.2 ∧ 0 ≤ a.2 :=
      fun a ha => hl a (List.mem_cons_of_mem _ ha)
    rw [candGen]
    rw [if_neg (not_lt.mpr hrs)]
    by_cases hf : dmem idx.inverted_index f = true
    · rw [if_neg (not_not_intro hf)]
      obtain ⟨ps, hget, heq⟩ := ddGetPostings_spec idx f hf
      dsimp only
      rw [heq]
      dsimp only
      obtain ⟨hs_pos, hs_eq⟩ := scan_exact rs4 qv ps acc
        (hifnd (f, ps) (dget_mem _ _ _ hget))
        (fun p hp => hinn (f, ps) (dget_mem _ _ _ hget) p hp) hqv hrs hacc
      rw [ih idx _ hlrest hinn hifnd hs_pos x]
      have hvalAtL : valAtL idx.inverted_index f x = psVal ps x := by
        unfold valAtL
        rw [hget]
      have hdm : dmem (scanPostings 0 rs4 qv [] ps acc) x = true ↔
          (dmem acc x = true ∨ x ∈ ps.map (fun p => p.1)) := by
        rw [← dget_isSome_iff_dmem, ← dget_isSome_iff_dmem, hs_eq x]
        by_cases hx : x ∈ ps.map (fun p => p.1)
        · rw [if_pos hx]
          simp [hx]
        · rw [if_neg hx]
          simp [hx]
      rw [List.any_cons, List.map_cons, List.sum_cons]
      by_cases hx : x ∈ ps.map (fun p => p.1)
      · rw [if_pos (bor_true_left (hdm.mpr (Or.inr hx)))]
        rw [if_pos (bor_true_right (bor_true_left
          ((docPostedB_true_iff _ _ _ ps hget).mpr hx)))]
        rw [hs_eq x, if_pos hx]
        rw [Option.getD_some, hvalAtL]
        rw [add_assoc]
      · have hdmeq : dmem (scanPostings 0 rs4 qv [] ps acc) x = dmem acc x := by
          rw [← dget_isSome_iff_dmem, ← dget_isSome_iff_dmem, hs_eq x, if_neg hx]
        have hpb : docPostedB idx.inverted_index f x = false := by
          rcases Bool.eq_false_or_eq_true (docPostedB idx.inverted_index f x) with h5 | h5
          · exact absurd ((docPostedB_true_iff _ _ _ ps hget).mp h5) hx
          · exact h5
        rw [hdmeq, hpb, Bool.false_or, hs_eq x, if_neg hx, hvalAtL,
          psVal_eq_zero_of_not_mem ps x hx, mul_zero, zero_add]
    · rw [if_pos hf]
      rw [ih idx acc hlrest hinn hifnd hacc x]
      have hnone : dget idx.inverted_index f = none := by
        rcases hg : dget idx.inverted_index f with _ | ps
        · rfl
        · rw [← dget_isSome_iff_dmem, hg] at hf
          exact absurd rfl hf
      have hpb : docPostedB idx.inverted_index f x = false :=
        docPostedB_false_of_none _ _ _ hnone
      have hval : valAtL idx.inverted_index f x = 0 := by
        unfold valAtL
        rw [hnone]
      rw [List.any_cons, List.map_cons, List.sum_cons, hpb, Bool.false_or, hval,
        mul_zero, zero_add]

/-! ## C1: the verification loop as a pure top-k fold -/

theorem tupLe_total (a b : ℚ × String) : tupLe a b = true ∨ tupLe b a = true := by
  simp only [tupLe, Bool.or_eq_true, Bool.and_eq_true, decide_eq_true_eq]
  rcases lt_trichotomy a.1 b.1 with h | h | h
  · exact Or.inl (Or.inl h)
  · rcases le_total a.2 b.2 with h2 | h2
    · exact Or.inl (Or.inr ⟨h, h2⟩)
    · exact Or.inr (Or.inr ⟨h.symm, h2⟩)
  · exact Or.inr (Or.inl h)

theorem tupLe_trans (a b c : ℚ × String) (h1 : tupLe a b = true) (h2 : tupLe b c = true) :
    tupLe a c = true := by
  simp only [tupLe, Bool.or_eq_true, Bool.and_eq_true, decide_eq_true_eq] at h1 h2 ⊢
  rcases h1 with h1 | ⟨h1e, h1s⟩ <;> rcases h2 with h2 | ⟨h2e, h2s⟩
  · exact Or.inl (lt_trans h1 h2)
  · exact Or.inl (h2e ▸ h1)
  · exact Or.inl (h1e ▸ h2)
  · exact Or.inr ⟨h1e.trans h2e, le_trans h1s h2s⟩

theorem tupLe_fst_le (a b : ℚ × String) (h : tupLe a b = true) : a.1 ≤ b.1 := by
  simp only [tupLe, Bool.or_eq_true, Bool.and_eq_true, decide_eq_true_eq] at h
  rcases h with h | ⟨h, _⟩
  · exact le_of_lt h
  · exact le_of_eq h

theorem pairwise_heapPush (x : ℚ × String) :
    ∀ h : List (ℚ × String), List.Pairwise (fun a b => tupLe a b = true) h →
      List.Pairwise (fun a b => tupLe a b = true) (heapPush h x) := by
  intro h
  induction h with
  | nil => intro _; exact List.pairwise_singleton _ _
  | cons y rest ih =>
    intro hp
    rw [List.pairwise_cons] at hp
    rw [heapPush]
    split
    · rename_i hxy
      rw [List.pairwise_cons]
      refine ⟨?_, List.pairwise_cons.mpr hp⟩
      intro z hz
      rcases List.mem_cons.mp hz with rfl | hz'
      · exact hxy
      · exact tupLe_trans x y z hxy (hp.1 z hz')
    · rename_i hxy
      have hyx : tupLe y x = true := by
        rcases tupLe_total x y with h1 | h1
        · exact absurd h1 hxy
        · exact h1
      rw [List.pairwise_cons]
      refine ⟨?_, ih hp.2⟩
      intro z hz
      rcases (mem_heapPush rest x z).mp hz with hz' | rfl
      · exact hp.1 z hz'
      · exact hyx

theorem length_heapPush (h : List (ℚ × String)) (x : ℚ × String) :
    (heapPush h x).length = h.length + 1 :=
  (perm_heapPush x h).length_eq

theorem heapMinSim_le (heap : List (ℚ × String))
    (hs : List.Pairwise (fun a b => tupLe a b = true) heap) :
    ∀ p ∈ heap, heapMinSim heap ≤ p.1 := by
  intro p hp
  cases heap with
  | nil => cases hp
  | cons h0 rest =>
    rcases List.mem_cons.mp hp with rfl | hp'
    · exact le_refl _
    · exact tupLe_fst_le h0 p ((List.pairwise_cons.mp hs).1 p hp')

theorem heapMinSim_mem (heap : List (ℚ × String)) (hne : heap ≠ []) :
    ∃ p ∈ heap, p.1 = heapMinSim heap := by
  cases heap with
  | nil => exact absurd rfl hne
  | cons h0 rest => exact ⟨h0, List.mem_cons_self _ _, rfl⟩

theorem verify_eq_topkFold (k : Nat) (idx : L2APIndex) (hk : 1 ≤ k) :
    ∀ (entries : List (String × ℚ)) (heap : List (ℚ × String)) (theta : ℚ),
      (∀ e ∈ entries, 0 ≤ e.2 ∧ ∃ md, dget idx.doc_metadata e.1 = some md ∧ 0 ≤ md.1) →
      List.Pairwise (fun a b => tupLe a b = true) heap →
      (∀ p ∈ heap, 0 ≤ p.1) →
      heap.length ≤ k →
      (heap.length = k → theta = heapMinSim heap) →
      (heap.length < k → theta = 0) →
      (verifyPhase k [] idx entries heap theta).1 =
        (entries.filter (fun e => decide (¬ e.2 = 0))).foldl (topkStep k) heap := by
  intro entries
  induction entries with
  | nil => intro heap theta _ _ _ _ _ _; rfl
  | cons e rest ih =>
    intro heap theta hmd hsort hnn hlen hth1 hth2
    obtain ⟨doc, dot⟩ := e
    obtain ⟨hdot_nn, md, hmdget, hps⟩ := hmd (doc, dot) (List.mem_cons_self _ _)
    obtain ⟨ps0, mv0, n0⟩ := md
    have hmd_rest : ∀ e ∈ rest,
        0 ≤ e.2 ∧ ∃ md, dget idx.doc_metadata e.1 = some md ∧ 0 ≤ md.1 :=
      fun e he => hmd e (List.mem_cons_of_mem _ he)
    rw [verifyPhase]
    rw [if_neg (List.not_mem_nil doc)]
    by_cases hz : dot = 0
    · rw [if_pos hz]
      have hcond : ¬ ((decide (¬ ((doc, dot).2 = 0))) = true) := by simp [hz]
      rw [List.filter_cons, if_neg hcond]
      exact ih heap theta hmd_rest hsort hnn hlen hth1 hth2
    · rw [if_neg hz]
      rw [hmdget]
      dsimp only
      have hcond : (decide (¬ ((doc, dot).2 = 0))) = true := by simp [hz]
      rw [List.filter_cons, if_pos hcond, List.foldl_cons]
      by_cases hfull : heap.length < k
      · have ht0 : theta = 0 := hth2 hfull
        rw [if_neg (by rw [ht0]; exact not_lt.mpr (add_nonneg hdot_nn hps))]
        have hstep : heapStep k heap theta dot doc =
            (heapPush heap (dot, doc),
             if (heapPush heap (dot, doc)).length = k then
               max theta (heapMinSim (heapPush heap (dot, doc))) else theta) := by
          rw [heapStep, if_pos hfull]
        have htop : topkStep k heap (doc, dot) = heapPush heap (dot, doc) := by
          rw [topkStep, if_pos hfull]
        rw [hstep, htop]
        dsimp only
        have hnn' : ∀ p ∈ heapPush heap (dot, doc), 0 ≤ p.1 := by
          intro p hp
          rcases (mem_heapPush heap (dot, doc) p).mp hp with hp' | rfl
          · exact hnn p hp'
          · exact hdot_nn
        have hlen' : (heapPush heap (dot, doc)).length ≤ k := by
          rw [length_heapPush]
          omega
        by_cases hlk : (heapPush heap (dot, doc)).length = k
        · rw [if_pos hlk, ht0]
          have hne : heapPush heap (dot, doc) ≠ [] := by
            intro hc
            rw [hc] at hlk
            simp at hlk
            omega
          have hmin_nn : 0 ≤ heapMinSim (heapPush heap (dot, doc)) := by
            obtain ⟨p, hp, hpe⟩ := heapMinSim_mem _ hne
            rw [← hpe]
            exact hnn' p hp
          rw [max_eq_right hmin_nn]
          exact ih _ _ hmd_rest (pairwise_heapPush _ _ hsort) hnn' hlen'
            (fun _ => rfl) (fun hlt => absurd hlk (Nat.ne_of_lt hlt))
        · rw [if_neg hlk, ht0]
          exact ih _ _ hmd_rest (pairwise_heapPush _ _ hsort) hnn' hlen'
            (fun hc => absurd hc hlk) (fun _ => rfl)
      · have hlenk : heap.length = k := Nat.le_antisymm hlen (not_lt.mp hfull)
        have hthk : theta = heapMinSim heap := hth1 hlenk
        have hne : heap ≠ [] := by
          intro hc
          rw [hc] at hlenk
          simp at hlenk
          omega
        by_cases hrep : heapMinSim heap < dot
        · rw [if_neg (by
            rw [hthk]
            exact not_lt.mpr (le_of_lt (lt_of_lt_of_le hrep
              (le_add_of_nonneg_right hps))))]
          have hstep : heapStep k heap theta dot doc =
              (heapReplace heap (dot, doc), heapMinSim (heapReplace heap (dot, doc))) := by
            rw [heapStep, if_neg hfull, if_pos hrep]
          have htop : topkStep k heap (doc, dot) = heapReplace heap (dot, doc) := by
            rw [topkStep, if_neg hfull, if_pos hrep]
          rw [hstep, htop]
          dsimp only
          have hsort' : List.Pairwise (fun a b => tupLe a b = true)
              (heapReplace heap (dot, doc)) := by
            rw [heapReplace]
            exact pairwise_heapPush _ _ hsort.tail
          have hnn' : ∀ p ∈ heapReplace heap (dot, doc), 0 ≤ p.1 := by
            intro p hp
            rcases mem_heapReplace heap (dot, doc) p hp with hp' | rfl
            · exact hnn p hp'
            · exact hdot_nn
          have hlen' : (heapReplace heap (dot, doc)).length = k := by
            rw [heapReplace, length_heapPush]
            have := List.length_tail_add_one heap (by
              cases heap with
              | nil => exact absurd rfl hne
              | cons a b => simp)
            omega
          exact ih _ _ hmd_rest hsort' hnn' (le_of_eq hlen')
            (fun _ => rfl) (fun hlt => absurd hlen' (Nat.ne_of_lt hlt))
        · have htop : topkStep k heap (doc, dot) = heap := by
            rw [topkStep, if_neg hfull, if_neg hrep]
          rw [htop]
          by_cases hskip : dot + ps0 < theta
          · rw [if_pos hskip]
            exact ih heap theta hmd_rest hsort hnn hlen hth1 hth2
          · rw [if_neg hskip]
            have hstep : heapStep k heap theta dot doc = (heap, theta) := by
              rw [heapStep, if_neg hfull, if_neg hrep]
            rw [hstep]
            dsimp only
            exact ih heap theta hmd_rest hsort hnn hlen hth1 hth2

/-! ## C1: the pure fold computes the top-k set -/

theorem swap_pair_inj : Function.Injective (fun p : ℚ × String => (p.2, p.1)) := by
  intro a b h
  obtain ⟨a1, a2⟩ := a
  obtain ⟨b1, b2⟩ := b
  simp only [Prod.mk.injEq] at h
  rw [h.1, h.2]

theorem topkFold_topk (k : Nat) (hk : 1 ≤ k) :
    ∀ P : List (String × ℚ),
      P.Nodup →
      (∀ e1 ∈ P, ∀ e2 ∈ P, e1.2 = e2.2 → e1 = e2) →
      IsTopK k P (P.foldl (topkStep k) []) ∧
        List.Pairwise (fun a b => tupLe a b = true) (P.foldl (topkStep k) []) ∧
        (P.foldl (topkStep k) []).Nodup := by
  intro P
  induction P using List.reverseRecOn with
  | nil =>
    intro _ _
    refine ⟨⟨by simp, ?_, ?_⟩, List.Pairwise.nil, List.nodup_nil⟩
    · intro p hp
      cases hp
    · intro e he
      cases he
  | append_singleton l a ih =>
    intro hnd hinj
    have hndl : l.Nodup := hnd.sublist (List.sublist_append_left l [a])
    have hal : a ∉ l := by
      intro hc
      rcases List.nodup_append.mp hnd with ⟨_, _, hdisj⟩
      exact hdisj hc (List.mem_singleton_self a)
    have hinjl : ∀ e1 ∈ l, ∀ e2 ∈ l, e1.2 = e2.2 → e1 = e2 := fun e1 h1 e2 h2 =>
      hinj e1 (List.mem_append_left _ h1) e2 (List.mem_append_left _ h2)
    obtain ⟨⟨hlen, hsub, hdom⟩, hsort, hnodup⟩ := ih hndl hinjl
    rw [List.foldl_append, List.foldl_cons, List.foldl_nil]
    generalize hH : l.foldl (topkStep k) [] = H at hlen hsub hdom hsort hnodup
    have hamem : a ∈ l ++ [a] := List.mem_append_right _ (List.mem_singleton_self a)
    by_cases hfull : H.length < k
    · have hl_lt : l.length < k := by
        rcases Nat.lt_or_ge l.length k with h | h
        · exact h
        · rw [hlen, Nat.min_eq_left h] at hfull
          omega
      have hlen_eq : H.length = l.length := by
        rw [hlen, Nat.min_eq_right (le_of_lt hl_lt)]
      have hsubl : (H.map (fun p => (p.2, p.1))) ⊆ l := by
        intro x hx
        obtain ⟨p, hp, rfl⟩ := List.mem_map.mp hx
        exact hsub p hp
      have hmapnd : (H.map (fun p => (p.2, p.1))).Nodup := hnodup.map swap_pair_inj
      have hperm : List.Perm (H.map (fun p => (p.2, p.1))) l :=
        (hmapnd.subperm hsubl).perm_of_length_le (by rw [List.length_map]; omega)
      have hmem_all : ∀ e ∈ l, (e.2, e.1) ∈ H := by
        intro e he
        have hmm : e ∈ H.map (fun p => (p.2, p.1)) := hperm.mem_iff.mpr he
        obtain ⟨p, hp, hpe⟩ := List.mem_map.mp hmm
        rw [← hpe]
        simpa using hp
      have htop : topkStep k H a = heapPush H (a.2, a.1) := by
        rw [topkStep, if_pos hfull]
      rw [htop]
      refine ⟨⟨?_, ?_, ?_⟩, pairwise_heapPush _ _ hsort, ?_⟩
      · rw [length_heapPush, hlen_eq, List.length_append, List.length_singleton,
          Nat.min_eq_right (by omega : l.length + 1 ≤ k)]
      · intro p hp
        rcases (mem_heapPush H (a.2, a.1) p).mp hp with hp' | rfl
        · exact List.mem_append_left _ (hsub p hp')
        · exact hamem
      · intro e he
        rcases List.mem_append.mp he with he' | he'
        · exact Or.inl ((mem_heapPush _ _ _).mpr (Or.inl (hmem_all e he')))
        · rw [List.mem_singleton.mp he']
          exact Or.inl ((mem_heapPush _ _ _).mpr (Or.inr rfl))
      · rw [(perm_heapPush (a.2, a.1) H).nodup_iff]
        refine List.nodup_cons.mpr ⟨?_, hnodup⟩
        intro hc
        exact hal (hsub _ hc)
    · have hHk : H.length = k := by
        have hle : H.length ≤ k := by
          rw [hlen]
          exact Nat.min_le_left _ _
        omega
      have hlk : k ≤ l.length := by
        by_contra hc
        push_neg at hc
        rw [hlen, Nat.min_eq_right (le_of_lt hc)] at hHk
        omega
      have hne : H ≠ [] := by
        intro hc
        rw [hc] at hHk
        simp at hHk
        omega
      obtain ⟨h0, Ht, rfl⟩ : ∃ h0 Ht, H = h0 :: Ht := by
        cases H with
        | nil => exact absurd rfl hne
        | cons x xs => exact ⟨x, xs, rfl⟩
      have hh0_all : ∀ p ∈ Ht, tupLe h0 p = true := (List.pairwise_cons.mp hsort).1
      have hsort_t : List.Pairwise (fun a b => tupLe a b = true) Ht :=
        (List.pairwise_cons.mp hsort).2
      have hh0_nin : h0 ∉ Ht := (List.nodup_cons.mp hnodup).1
      by_cases hrep : heapMinSim (h0 :: Ht) < a.2
      · have htop : topkStep k (h0 :: Ht) a = heapPush Ht (a.2, a.1) := by
          rw [topkStep, if_neg hfull, if_pos hrep]
          rfl
        rw [htop]
        refine ⟨⟨?_, ?_, ?_⟩, pairwise_heapPush _ _ hsort_t, ?_⟩
        · rw [length_heapPush, List.length_append, List.length_singleton,
            Nat.min_eq_left (by omega : k ≤ l.length + 1)]
          have hlc : (h0 :: Ht).length = k := hHk
          rw [List.length_cons] at hlc
          omega
        · intro p hp
          rcases (mem_heapPush Ht (a.2, a.1) p).mp hp with hp' | rfl
          · exact List.mem_append_left _ (hsub p (List.mem_cons_of_mem _ hp'))
          · exact hamem
        · intro e he
          rcases List.mem_append.mp he with he' | he'
          · rcases hdom e he' with hin | hdm
            · rcases List.mem_cons.mp hin with heq | hin'
              · refine Or.inr (fun p hp => ?_)
                have he2 : e.2 = h0.1 := congrArg Prod.fst heq
                rcases (mem_heapPush Ht (a.2, a.1) p).mp hp with hp' | rfl
                · have hle : h0.1 ≤ p.1 := tupLe_fst_le h0 p (hh0_all p hp')
                  rcases lt_or_eq_of_le hle with hlt | heqq
                  · rw [he2]
                    exact hlt
                  · exfalso
                    have hswap_h0 : (h0.2, h0.1) ∈ l := hsub h0 (List.mem_cons_self _ _)
                    have hswap_p : (p.2, p.1) ∈ l := hsub p (List.mem_cons_of_mem _ hp')
                    have heq2 : ((h0.2, h0.1) : String × ℚ) = (p.2, p.1) :=
                      hinjl _ hswap_h0 _ hswap_p heqq
                    have c1 : h0.2 = p.2 := congrArg Prod.fst heq2
                    have c2 : h0.1 = p.1 := congrArg Prod.snd heq2
                    have hp0 : h0 = p := by
                      obtain ⟨x1, x2⟩ := h0
                      obtain ⟨y1, y2⟩ := p
                      dsimp only at c1 c2
                      rw [c1, c2]
                    exact hh0_nin (hp0 ▸ hp')
                · rw [he2]
                  exact hrep
              · exact Or.inl ((mem_heapPush _ _ _).mpr (Or.inl hin'))
            · refine Or.inr (fun p hp => ?_)
              rcases (mem_heapPush Ht (a.2, a.1) p).mp hp with hp' | rfl
              · exact hdm p (List.mem_cons_of_mem _ hp')
              · exact lt_trans (hdm h0 (List.mem_cons_self _ _)) hrep
          · rw [List.mem_singleton.mp he']
            exact Or.inl ((mem_heapPush _ _ _).mpr (Or.inr rfl))
        · rw [(perm_heapPush (a.2, a.1) Ht).nodup_iff]
          refine List.nodup_cons.mpr ⟨?_, (List.nodup_cons.mp hnodup).2⟩
          intro hc
          exact hal (hsub _ (List.mem_cons_of_mem _ hc))
      · have htop : topkStep k (h0 :: Ht) a = h0 :: Ht := by
          rw [topkStep, if_neg hfull, if_neg hrep]
        rw [htop]
        push_neg at hrep
        refine ⟨⟨?_, ?_, ?_⟩, hsort, hnodup⟩
        · rw [List.length_append, List.length_singleton,
            Nat.min_eq_left (by omega : k ≤ l.length + 1)]
          exact hHk
        · intro p hp
          exact List.mem_append_left _ (hsub p hp)
        · intro e he
          rcases List.mem_append.mp he with he' | he'
          · rcases hdom e he' with hin | hdm
            · exact Or.inl hin
            · exact Or.inr hdm
          · rw [List.mem_singleton.mp he']
            rcases lt_or_eq_of_le hrep with hlt | heqq
            · refine Or.inr (fun p hp => ?_)
              exact lt_of_lt_of_le hlt (heapMinSim_le _ hsort p hp)
            · refine Or.inl ?_
              have hswap_h0 : ((h0.2, h0.1) : String × ℚ) ∈ l ++ [a] :=
                List.mem_append_left _ (hsub h0 (List.mem_cons_self _ _))
              have heq2 : a = (h0.2, h0.1) := hinj a hamem _ hswap_h0 heqq
              rw [heq2]
              exact List.mem_cons_self _ _

/-! ## C1: the sorted prefix is the unique top-k selection -/

theorem map_fst_tag_general {β : Type} (g : String → β) (u : List String) :
    (u.map (fun d => (d, g d))).map (fun p => p.1) = u := by
  induction u with
  | nil => rfl
  | cons a as ih => simp only [List.map_cons, ih]

theorem take_sortDesc_topk (k : Nat) (P : List (String × ℚ))
    (hinj : ∀ e1 ∈ P, ∀ e2 ∈ P, e1.2 = e2.2 → e1 = e2) :
    ((sortResultsDesc P).take k).length = min k P.length ∧
      (∀ x ∈ (sortResultsDesc P).take k, x ∈ P) ∧
      (∀ e ∈ P, e ∈ (sortResultsDesc P).take k ∨
        ∀ s ∈ (sortResultsDesc P).take k, e.2 < s.2) := by
  have hperm : List.Perm (sortResultsDesc P) P := List.perm_insertionSort descVal P
  have hsorted : List.Pairwise descVal (sortResultsDesc P) :=
    List.sorted_insertionSort descVal P
  refine ⟨?_, ?_, ?_⟩
  · rw [List.length_take, hperm.length_eq]
  · intro x hx
    exact hperm.subset (List.take_subset _ _ hx)
  · intro e he
    have heL : e ∈ sortResultsDesc P := hperm.mem_iff.mpr he
    by_cases hin : e ∈ (sortResultsDesc P).take k
    · exact Or.inl hin
    · refine Or.inr (fun s hs => ?_)
      have hedrop : e ∈ (sortResultsDesc P).drop k := by
        rw [← List.take_append_drop k (sortResultsDesc P)] at heL
        rcases List.mem_append.mp heL with h | h
        · exact absurd h hin
        · exact h
      have hrel : descVal s e := hsorted.rel_of_mem_take_of_mem_drop hs hedrop
      rcases lt_or_eq_of_le hrel with hlt | heqq
      · exact hlt
      · exfalso
        have hsP : s ∈ P := hperm.subset (List.take_subset _ _ hs)
        have hes : e = s := hinj e he s hsP heqq
        rw [← hes] at hs
        exact hin hs

theorem pairwise_strict_desc (P L : List (String × ℚ))
    (hLP : ∀ x ∈ L, x ∈ P)
    (hinj : ∀ e1 ∈ P, ∀ e2 ∈ P, e1.2 = e2.2 → e1 = e2)
    (hnd : L.Nodup) (hs : List.Pairwise descVal L) :
    List.Pairwise (fun a b => b.2 < a.2) L := by
  have hand := hs.and hnd
  refine hand.imp_of_mem ?_
  intro a b ha hb hab
  rcases lt_or_eq_of_le hab.1 with hlt | heqq
  · exact hlt
  · exfalso
    exact hab.2 ((hinj a (hLP a ha) b (hLP b hb) heqq.symm))

theorem topk_subset (k : Nat) (P S1 S2 : List (String × ℚ))
    (h1len : S1.length = min k P.length) (h1sub : ∀ x ∈ S1, x ∈ P)
    (h2len : S2.length = min k P.length) (h2sub : ∀ x ∈ S2, x ∈ P)
    (h1dom : ∀ e ∈ P, e ∈ S1 ∨ ∀ p ∈ S1, e.2 < p.2)
    (h2dom : ∀ e ∈ P, e ∈ S2 ∨ ∀ p ∈ S2, e.2 < p.2)
    (h2nd : S2.Nodup) :
    ∀ x ∈ S1, x ∈ S2 := by
  intro x hx1
  by_contra hx2
  have hxdom : ∀ p ∈ S2, x.2 < p.2 := by
    rcases h2dom x (h1sub x hx1) with h | h
    · exact absurd h hx2
    · exact h
  by_cases hss : ∀ y ∈ S2, y ∈ S1
  · have hsubc : (x :: S2) ⊆ S1 := by
      intro z hz
      rcases List.mem_cons.mp hz with rfl | hz'
      · exact hx1
      · exact hss z hz'
    have hndc : (x :: S2).Nodup := List.nodup_cons.mpr ⟨hx2, h2nd⟩
    have hle := (hndc.subperm hsubc).length_le
    rw [List.length_cons, h1len, h2len] at hle
    omega
  · push_neg at hss
    obtain ⟨y, hy2, hy1⟩ := hss
    have hydom : ∀ p ∈ S1, y.2 < p.2 := by
      rcases h1dom y (h2sub y hy2) with h | h
      · exact absurd h hy1
      · exact h
    exact absurd (lt_trans (hydom x hx1) (hxdom y hy2)) (lt_irrefl _)

theorem strict_desc_eq : ∀ (l1 l2 : List (String × ℚ)),
    List.Pairwise (fun a b => b.2 < a.2) l1 →
    List.Pairwise (fun a b => b.2 < a.2) l2 →
    (∀ x, x ∈ l1 ↔ x ∈ l2) → l1 = l2 := by
  intro l1
  induction l1 with
  | nil =>
    intro l2 _ _ hiff
    cases l2 with
    | nil => rfl
    | cons b t2 => exact absurd ((hiff b).mpr (List.mem_cons_self _ _)) (List.not_mem_nil b)
  | cons a t1 ih =>
    intro l2 h1 h2 hiff
    cases l2 with
    | nil => exact absurd ((hiff a).mp (List.mem_cons_self _ _)) (List.not_mem_nil a)
    | cons b t2 =>
      rw [List.pairwise_cons] at h1 h2
      have hab : a = b := by
        rcases List.mem_cons.mp ((hiff a).mp (List.mem_cons_self _ _)) with h | h
        · exact h
        · rcases List.mem_cons.mp ((hiff b).mpr (List.mem_cons_self _ _)) with h' | h'
          · exact h'.symm
          · exact absurd (lt_trans (h2.1 a h) (h1.1 b h')) (lt_irrefl _)
      subst hab
      congr 1
      apply ih t2 h1.2 h2.2
      intro x
      constructor
      · intro hx
        have hxa : x.2 < a.2 := h1.1 x hx
        rcases List.mem_cons.mp ((hiff x).mp (List.mem_cons_of_mem _ hx)) with rfl | h
        · exact absurd hxa (lt_irrefl _)
        · exact h
      · intro hx
        have hxa : x.2 < a.2 := h2.1 x hx
        rcases List.mem_cons.mp ((hiff x).mpr (List.mem_cons_of_mem _ hx)) with rfl | h
        · exact absurd hxa (lt_irrefl _)
        · exact h

theorem l2ap_topk_abstract (sqrt : ℚ → ℚ) (q : List (String × ℚ)) (idx : L2APIndex)
    (k : Nat) (hk : 1 ≤ k)
    (hsq : ∀ x, 0 ≤ sqrt x)
    (hqne : q ≠ [])
    (hqnn : ∀ fv ∈ q, 0 ≤ fv.2)
    (hinn : ∀ fp ∈ idx.inverted_index, ∀ p ∈ fp.2, 0 ≤ p.2.1 ∧ 0 ≤ p.2.2)
    (hifnd : ∀ fp ∈ idx.inverted_index, (fp.2.map (fun p => p.1)).Nodup)
    (hdocsub : ∀ fp ∈ idx.inverted_index, ∀ p ∈ fp.2, p.1 ∈ idx.doc_ids)
    (hidnd : idx.doc_ids.Nodup)
    (hmdps : ∀ e ∈ idx.doc_metadata, 0 ≤ e.2.1)
    (hids : IdsMatch idx)
    (hdist : ∀ d1 ∈ idx.doc_ids, ∀ d2 ∈ idx.doc_ids,
      bruteSim idx q d1 = bruteSim idx q d2 → d1 = d2) :
    (l2ap_knn sqrt q idx k 0 []).1 = bruteForceRankingNZ idx q k := by
  have hwalk : ∀ a ∈ queryWalk sqrt q, 0 ≤ a.1.2 ∧ 0 ≤ a.2 := by
    intro a ha
    have h1 := (List.of_mem_zip ha).1
    have h2 := (List.of_mem_zip ha).2
    rw [L2APIndex.get_ordered_features, sortPairsDescVal, List.mem_insertionSort] at h1
    obtain ⟨y, hy⟩ := mem_suffixNormList sqrt _ _ _ h2
    exact ⟨hqnn a.1 h1, hy ▸ hsq y⟩
  have hA : ∀ x : String,
      dget (candGen 0 [] (queryWalk sqrt q) idx []).1 x =
        if ((queryWalk sqrt q).any (fun a => docPostedB idx.inverted_index a.1.1 x)) = true
        then some (bruteSim idx q x)
        else none := by
    intro x
    rw [candGen_exact (queryWalk sqrt q) idx [] hwalk hinn hifnd
      (fun y v hg => by cases hg) x]
    have hd0 : dmem ([] : List (String × ℚ)) x = false := rfl
    have hg0 : dget ([] : List (String × ℚ)) x = none := rfl
    rw [hd0, hg0, Bool.false_or]
    simp only [Option.getD_none, zero_add]
    rw [queryWalk_sum sqrt q idx x]
  set A := (candGen 0 [] (queryWalk sqrt q) idx []).1 with hAdef
  have hAnd : (A.map (·.1)).Nodup := by
    rw [hAdef]
    exact nodup_keys_candGen 0 [] (queryWalk sqrt q) idx [] (by simp)
  have hval : ∀ e ∈ A, e.2 = bruteSim idx q e.1 ∧
      ((queryWalk sqrt q).any (fun a => docPostedB idx.inverted_index a.1.1 e.1)) = true := by
    intro e he
    have hg := dget_eq_some_of_mem_nodup A e.1 e.2 hAnd he
    rw [hA e.1] at hg
    by_cases hc : ((queryWalk sqrt q).any
        (fun a => docPostedB idx.inverted_index a.1.1 e.1)) = true
    · rw [if_pos hc] at hg
      exact ⟨(Option.some.inj hg).symm, hc⟩
    · rw [if_neg hc] at hg
      cases hg
  have hposted : ∀ d : String,
      ((queryWalk sqrt q).any (fun a => docPostedB idx.inverted_index a.1.1 d)) = true →
      hasPostingL idx.inverted_index d ∧ d ∈ idx.doc_ids := by
    intro d hc
    obtain ⟨a, ha, hab⟩ := List.any_eq_true.mp hc
    rcases hg : dget idx.inverted_index a.1.1 with _ | ps
    · rw [docPostedB_false_of_none _ _ _ hg] at hab
      cases hab
    · have hdmem := (docPostedB_true_iff _ _ _ ps hg).mp hab
      have hfp := dget_mem _ _ _ hg
      obtain ⟨p, hp, hpe⟩ := List.mem_map.mp hdmem
      refine ⟨⟨(a.1.1, ps), hfp, hdmem⟩, ?_⟩
      rw [← hpe]
      exact hdocsub (a.1.1, ps) hfp p hp
  have hbnn : ∀ d : String, 0 ≤ bruteSim idx q d := by
    intro d
    apply List.sum_nonneg
    intro t ht
    obtain ⟨fv, hfv, rfl⟩ := List.mem_map.mp ht
    exact mul_nonneg (hqnn fv hfv)
      (valAtL_nonneg _ _ _ (fun fp hfp p hp => (hinn fp hfp p hp).1))
  have hentry : ∀ e ∈ A, 0 ≤ e.2 ∧
      ∃ md, dget idx.doc_metadata e.1 = some md ∧ 0 ≤ md.1 := by
    intro e he
    obtain ⟨hv, hc⟩ := hval e he
    obtain ⟨hhas, _⟩ := hposted e.1 hc
    have hdm : dmem idx.doc_metadata e.1 = true := (hids e.1).mp hhas
    rw [← dget_isSome_iff_dmem] at hdm
    rcases hg : dget idx.doc_metadata e.1 with _ | md
    · rw [hg] at hdm
      cases hdm
    · refine ⟨by rw [hv]; exact hbnn e.1, md, rfl, ?_⟩
      exact hmdps (e.1, md) (dget_mem _ _ _ hg)
  set P := A.filter (fun e => decide (¬ e.2 = 0)) with hPdef
  set Pf := ((idx.doc_ids.filter (fun d => decide (bruteSim idx q d ≠ 0))).map
    (fun d => (d, bruteSim idx q d))) with hPfdef
  have hPnd_keys : (P.map (·.1)).Nodup := by
    rw [hPdef]
    exact hAnd.sublist ((List.filter_sublist A).map _)
  have hPnd : P.Nodup := hPnd_keys.of_map
  have hPfkeys : (Pf.map (·.1)) =
      idx.doc_ids.filter (fun d => decide (bruteSim idx q d ≠ 0)) := by
    rw [hPfdef]
    exact map_fst_tag_general _ _
  have hPfnd_keys : (Pf.map (·.1)).Nodup := by
    rw [hPfkeys]
    exact hidnd.filter _
  have hPfnd : Pf.Nodup := hPfnd_keys.of_map
  have hPfinj : ∀ e1 ∈ Pf, ∀ e2 ∈ Pf, e1.2 = e2.2 → e1 = e2 := by
    intro e1 h1 e2 h2 he
    rw [hPfdef] at h1 h2
    obtain ⟨d1, hd1, rfl⟩ := List.mem_map.mp h1
    obtain ⟨d2, hd2, rfl⟩ := List.mem_map.mp h2
    have hd1i : d1 ∈ idx.doc_ids := List.mem_of_mem_filter hd1
    have hd2i : d2 ∈ idx.doc_ids := List.mem_of_mem_filter hd2
    have hdd : d1 = d2 := hdist d1 hd1i d2 hd2i he
    rw [hdd]
  have hPPf : ∀ x, x ∈ P ↔ x ∈ Pf := by
    intro x
    rw [hPdef, hPfdef]
    constructor
    · intro hx
      have hxA : x ∈ A := List.mem_of_mem_filter hx
      have hxnz : ¬ x.2 = 0 := of_decide_eq_true (List.mem_filter.mp hx).2
      obtain ⟨hv, hc⟩ := hval x hxA
      obtain ⟨_, hdid⟩ := hposted x.1 hc
      have hxPf : (x.1, bruteSim idx q x.1) ∈
          ((idx.doc_ids.filter (fun d => decide (bruteSim idx q d ≠ 0))).map
            (fun d => (d, bruteSim idx q d))) := by
        apply List.mem_map.mpr
        refine ⟨x.1, ?_, rfl⟩
        apply List.mem_filter.mpr
        refine ⟨hdid, ?_⟩
        rw [decide_eq_true_eq, ← hv]
        exact hxnz
      rw [← hv] at hxPf
      exact hxPf
    · intro hx
      obtain ⟨d, hd, rfl⟩ := List.mem_map.mp hx
      have hdin : d ∈ idx.doc_ids := List.mem_of_mem_filter hd
      have hdnz : bruteSim idx q d ≠ 0 := of_decide_eq_true (List.mem_filter.mp hd).2
      have hex : ∃ fv ∈ q, ¬ fv.2 * valAtL idx.inverted_index fv.1 d = 0 := by
        by_contra hcon
        push_neg at hcon
        apply hdnz
        rw [bruteSim]
        apply List.sum_eq_zero
        intro t ht
        obtain ⟨fv, hfv, rfl⟩ := List.mem_map.mp ht
        exact hcon fv hfv
      obtain ⟨fv, hfv, hnz⟩ := hex
      have hvnz : valAtL idx.inverted_index fv.1 d ≠ 0 := by
        intro hcz
        apply hnz
        rw [hcz, mul_zero]
      rcases hg : dget idx.inverted_index fv.1 with _ | ps
      · exfalso
        apply hvnz
        unfold valAtL
        rw [hg]
      · have hdps : d ∈ ps.map (fun p => p.1) := by
          by_contra hcon
          apply hvnz
          unfold valAtL
          rw [hg]
          exact psVal_eq_zero_of_not_mem ps d hcon
        have hfvw : ∃ a ∈ queryWalk sqrt q, a.1 = fv := by
          have hfvo : fv ∈ L2APIndex.get_ordered_features q := by
            rw [L2APIndex.get_ordered_features, sortPairsDescVal, List.mem_insertionSort]
            exact hfv
          have hmapfst : ((queryWalk sqrt q).map Prod.fst) =
              L2APIndex.get_ordered_features q := by
            rw [queryWalk]
            exact List.map_fst_zip _ _ (by rw [length_suffixNormList, List.length_map])
          rw [← hmapfst] at hfvo
          obtain ⟨a, ha, hae⟩ := List.mem_map.mp hfvo
          exact ⟨a, ha, hae⟩
        obtain ⟨a, ha, hae⟩ := hfvw
        have hcond : ((queryWalk sqrt q).any
            (fun a => docPostedB idx.inverted_index a.1.1 d)) = true := by
          apply List.any_eq_true.mpr
          refine ⟨a, ha, ?_⟩
          rw [hae]
          exact (docPostedB_true_iff _ _ _ ps hg).mpr hdps
        have hgetA : dget A d = some (bruteSim idx q d) := by
          rw [hA d, if_pos hcond]
        have hAmem : (d, bruteSim idx q d) ∈ A := dget_mem _ _ _ hgetA
        apply List.mem_filter.mpr
        refine ⟨hAmem, ?_⟩
        rw [decide_eq_true_eq]
        exact hdnz
  have hPlen : P.length = Pf.length := by
    have h1 := (hPnd.subperm (fun x hx => (hPPf x).mp hx)).length_le
    have h2 := (hPfnd.subperm (fun x hx => (hPPf x).mpr hx)).length_le
    omega
  have hPinj : ∀ e1 ∈ P, ∀ e2 ∈ P, e1.2 = e2.2 → e1 = e2 :=
    fun e1 h1 e2 h2 he => hPfinj e1 ((hPPf e1).mp h1) e2 ((hPPf e2).mp h2) he
  obtain ⟨⟨hlenH, hsubH, hdomH⟩, hsortH, hndH⟩ := topkFold_topk k hk P hPnd hPinj
  set H := P.foldl (topkStep k) [] with hHdef
  have hcast : (l2ap_knn sqrt q idx k 0 []).1 =
      sortResultsDesc ((verifyPhase k [] idx A [] 0).1.map (fun p => (p.2, p.1))) := by
    rw [l2ap_knn, if_neg hqne]
    dsimp only
    have hc2 : (l2apCand sqrt q idx 0 []).2 = idx := candGen_preserves_index 0 [] _ idx []
    have hc1 : (l2apCand sqrt q idx 0 []).1 = A := by
      rw [hAdef]
      rfl
    rw [hc2, hc1]
  have hverify : (verifyPhase k [] idx A [] 0).1 = H := by
    rw [verify_eq_topkFold k idx hk A [] 0 hentry List.Pairwise.nil
      (fun p hp => absurd hp (List.not_mem_nil p)) (Nat.zero_le k)
      (fun _ => rfl) (fun _ => rfl)]
  rw [hcast, hverify, bruteForceRankingNZ, ← hPfdef]
  have hpermL1 : List.Perm (sortResultsDesc (H.map (fun p => (p.2, p.1))))
      (H.map (fun p => (p.2, p.1))) := List.perm_insertionSort descVal _
  have hS1sub : ∀ x ∈ H.map (fun p => (p.2, p.1)), x ∈ Pf := by
    intro x hx
    obtain ⟨p, hp, rfl⟩ := List.mem_map.mp hx
    exact (hPPf _).mp (hsubH p hp)
  have hS1nd : (H.map (fun p => (p.2, p.1))).Nodup := hndH.map swap_pair_inj
  have hS1len : (H.map (fun p => (p.2, p.1))).length = min k Pf.length := by
    rw [List.length_map, hlenH, hPlen]
  have hS1dom : ∀ e ∈ Pf, e ∈ H.map (fun p => (p.2, p.1)) ∨
      ∀ s ∈ H.map (fun p => (p.2, p.1)), e.2 < s.2 := by
    intro e he
    rcases hdomH e ((hPPf e).mpr he) with hin | hdm
    · exact Or.inl (List.mem_map.mpr ⟨(e.2, e.1), hin, rfl⟩)
    · refine Or.inr (fun s hs => ?_)
      obtain ⟨p, hp, rfl⟩ := List.mem_map.mp hs
      exact hdm p hp
  obtain ⟨hS2len, hS2sub, hS2dom⟩ := take_sortDesc_topk k Pf hPfinj
  have hS2nd : ((sortResultsDesc Pf).take k).Nodup :=
    (((List.perm_insertionSort descVal Pf).nodup_iff).mpr hPfnd).sublist
      (List.take_sublist _ _)
  have hmem12 : ∀ x, x ∈ H.map (fun p => (p.2, p.1)) ↔ x ∈ (sortResultsDesc Pf).take k := by
    intro x
    constructor
    · exact fun hx =>
        topk_subset k Pf _ _ hS1len hS1sub hS2len hS2sub hS1dom hS2dom hS2nd x hx
    · exact fun hx =>
        topk_subset k Pf _ _ hS2len hS2sub hS1len hS1sub hS2dom hS1dom hS1nd x hx
  apply strict_desc_eq
  · apply pairwise_strict_desc Pf
    · intro x hx
      exact hS1sub x (hpermL1.subset hx)
    · exact hPfinj
    · exact (hpermL1.nodup_iff).mpr hS1nd
    · exact List.sorted_insertionSort descVal _
  · apply pairwise_strict_desc Pf
    · exact hS2sub
    · exact hPfinj
    · exact hS2nd
    · exact List.Pairwise.sublist (List.take_sublist _ _)
        (List.sorted_insertionSort descVal Pf)
  · intro x
    rw [hpermL1.mem_iff]
    exact hmem12 x

/-- C1 (amended).  For an index built by `build_index` from a profile
dictionary (distinct user ids) and a unit-normalized query with non-negative
weights, `l2ap_knn` called with `minSimilarity = 0` and any `k ≥ 1` returns
exactly the brute-force cosine-similarity ranking restricted to the documents
with non-zero similarity — same result set and same descending order —
provided the similarities are pairwise distinct (with ties, the heap may
order equal similarities differently than the stable brute-force sort).  A
document sharing no feature with the query never becomes a candidate, so
zero-similarity documents are absent from the output even when `k` exceeds
the number of non-zero-similarity documents; that is the only deviation from
the ranking over all indexed documents.  `sqrt` is any non-negative model of
`math.sqrt`. -/
theorem l2ap_knn_matches_bruteforce (sqrt : ℚ → ℚ) (profiles : List (String × List String))
    (q : List (String × ℚ)) (k : Nat)
    (hsq : ∀ x, 0 ≤ sqrt x)
    (hpnd : (profiles.map (·.1)).Nodup)
    (hk : 1 ≤ k)
    (hqnn : ∀ fv ∈ q, 0 ≤ fv.2)
    (hqn : sumSq q = 1)
    (hdist : ∀ d1 ∈ (L2APIndex.build_index sqrt profiles).doc_ids,
      ∀ d2 ∈ (L2APIndex.build_index sqrt profiles).doc_ids,
      bruteSim (L2APIndex.build_index sqrt profiles) q d1 =
        bruteSim (L2APIndex.build_index sqrt profiles) q d2 → d1 = d2) :
    (l2ap_knn sqrt q (L2APIndex.build_index sqrt profiles) k 0 []).1 =
      bruteForceRankingNZ (L2APIndex.build_index sqrt profiles) q k := by
  obtain ⟨h1, h2, h3, h4⟩ := build_index_struct sqrt profiles hpnd
  have hqne : q ≠ [] := by
    intro hc
    rw [hc] at hqn
    have h0 : sumSq ([] : List (String × ℚ)) = 0 := rfl
    rw [h0] at hqn
    exact absurd hqn (by norm_num)
  exact l2ap_topk_abstract sqrt q _ k hk hsq hqne hqnn
    (build_postings_nonneg sqrt profiles hsq) h3 h1 h2 h4
    (idsMatch_build_index sqrt profiles) hdist

/-- Witness for the amended C1: two indexed profiles (`A` with one tag, `B`
with four, one shared with the query), the unit query for tag `x`, `k = 2`,
`minSimilarity = 0`; both sides evaluate to `[("A", 1), ("B", 1/2)]`. -/
theorem l2ap_knn_matches_bruteforce_witness :
    (l2ap_knn ratSqrt [("x", (1:ℚ))]
        (L2APIndex.build_index ratSqrt [("A", ["x"]), ("B", ["x", "y", "z", "w"])])
        2 0 []).1 =
      bruteForceRankingNZ
        (L2APIndex.build_index ratSqrt [("A", ["x"]), ("B", ["x", "y", "z", "w"])])
        [("x", (1:ℚ))] 2 :=
  l2ap_knn_matches_bruteforce ratSqrt [("A", ["x"]), ("B", ["x", "y", "z", "w"])]
    [("x", (1:ℚ))] 2 (fun x => ratSqrt_nonneg x)
    (by with_unfolding_all decide) (by norm_num)
    (by with_unfolding_all decide) (by with_unfolding_all decide)
    (by with_unfolding_all decide)

end ProfileMatching
